import Mathlib

/-!
# Max-p regions heuristic (`Algorithms/maxp.cpp`)

A shallow embedding of the solver class `Maxp` and a verification of its
specification against the embedded code.

Modelling conventions

* Area and region indices (`int`) are natural numbers.
* `double` values (`floor`, `floor_variable`, the attribute matrix `z`, objective
  values) are rationals: arithmetic is exact.
* `vector<int>` / `list<int>` are `List Nat`; `v[i]` is `List.getD` (indices are in
  range on every input satisfying the stated invariants).
* `unordered_map<int, bool>` is a `BoolMap`: its keys in insertion order together with
  a lookup function.  The order in which the hash table is traversed by
  `begin() .. end()` is implementation defined; it is the field `order` of `Maxp`.
* `unordered_map<int, int>` (`area2region`) is only ever accessed through
  `operator[]`, which yields `0` for an absent key; it is its lookup function
  `Nat → Nat`.
* Loops that are not structurally bounded carry a fuel argument and return `none`
  when the fuel runs out.
* The members written by the constructor and by `init_solution` form the record
  `Solver`; `__DBL_MAX__` is the exact rational `DBL_MAX`; `rand()` is the member
  `seed_start`.
* The worker threads of `run_threaded` are executed one after the other, in the order
  of their creation: a start writes its own slot of the group vectors only.
-/

/-! ## Hash maps -/

/-- An `unordered_map<int, bool>`: the keys in insertion order and the stored values
(`false`, the default-constructed value, for absent keys). -/
structure BoolMap where
  keys : List Nat
  val : Nat → Bool

namespace BoolMap

/-- The empty map. -/
def empty : BoolMap := ⟨[], fun _ => false⟩

/-- The test `m.find(k) != m.end()`. -/
def mem (m : BoolMap) (k : Nat) : Bool := decide (k ∈ m.keys)

/-- The read access `m[k]`: an absent key is inserted with the value `false`. -/
def touch (m : BoolMap) (k : Nat) : BoolMap :=
  if k ∈ m.keys then m else ⟨m.keys ++ [k], fun x => if x = k then false else m.val x⟩

/-- The assignment `m[k] = v`. -/
def set (m : BoolMap) (k : Nat) (v : Bool) : BoolMap :=
  ⟨if k ∈ m.keys then m.keys else m.keys ++ [k], fun x => if x = k then v else m.val x⟩

end BoolMap

/-! ## The solver object -/

/-- The read-only members of a `Maxp` object together with the two collaborators the
class calls but does not define: the counter hash `Gda::ThomasWangHashDouble` and the
traversal order of `boost::unordered_map<int, _>` (a function of the keys in insertion
order). -/
structure Maxp where
  /-- The contiguity weights `w`: `w[i].Size()` and `w[i][n]` read the list `w i`. -/
  w : Nat → List Nat
  /-- The attribute matrix `z[i][m]`. -/
  z : Nat → Nat → ℚ
  floor : ℚ
  floor_variable : Nat → ℚ
  num_obs : Nat
  num_vars : Nat
  initial : Nat
  MAX_ATTEMPTS : Nat
  seed_start : Nat
  seed_increment : Nat
  test : Bool
  /-- The sorted pre-assigned seeds (`seeds`), empty when none were given. -/
  seeds : List Nat
  /-- The collaborator `Gda::ThomasWangHashDouble`. -/
  hash : Nat → ℚ
  /-- The traversal order of an `unordered_map` whose keys were inserted in the given
  order. -/
  order : List Nat → List Nat

namespace Maxp

/-- The list without the elements equal to `a`: `std::list::remove(a)`, the idiom
`v.erase(std::remove(v.begin(), v.end(), a), v.end())`, and the set `S \ {a}` of the
specification. -/
def remove (l : List Nat) (a : Nat) : List Nat := l.filter fun x => x ≠ a

/-- Conversion `double → int`: truncation towards zero. -/
def toInt (x : ℚ) : Int := if 0 ≤ x then ⌊x⌋ else ⌈x⌉

/-! ## Objective -/

/-- Modelled from the spec: `GenUtils::SumOfSquares`, which is called by the objective
functions but defined in `GenUtils.cpp`.  Section 4.B: the sum of squared deviations
of the values from their mean, computed two-pass (mean, then deviations); the empty
vector has sum of squares `0`. -/
def SumOfSquares (data : List ℚ) : ℚ :=
  let mean := data.sum / data.length
  (data.map fun x => (x - mean) * (x - mean)).sum

/-- `Maxp::objective_function(vector<int>& solution)`: for every variable `m` the
values `z[id][m]` of the listed areas are collected and their sum of squares is
accumulated in `wss`. -/
def objective_function_region (mp : Maxp) (solution : List Nat) : ℚ :=
  (List.range mp.num_vars).foldl
    (fun wss m => wss + SumOfSquares (solution.map fun id => mp.z id m)) 0

/-- The loop `for i: if (region1[i] == leaver) continue; selected_z[j++] = z[region1[i]][m]`
writing into the buffer `selected_z` from position `j`. -/
def fill_skip (col : Nat → ℚ) (leaver : Nat) : List Nat → Nat → List ℚ → List ℚ
  | [], _, buf => buf
  | id :: rest, j, buf =>
    if id = leaver then fill_skip col leaver rest j buf
    else fill_skip col leaver rest (j + 1) (buf.set j (col id))

/-- `Maxp::objective_function(vector<int>& region1, int leaver, vector<int>& region2, int comer)`:
the objective of `region1` without `leaver` plus that of `region2` with `comer`.  The
first buffer is `vector<double> selected_z(n_size-1)`, zero initialised; the second holds
the values of `region2` followed by that of `comer`. -/
def objective_function_move (mp : Maxp) (region1 : List Nat) (leaver : Nat)
    (region2 : List Nat) (comer : Nat) : ℚ :=
  let wss := (List.range mp.num_vars).foldl
    (fun wss m => wss + SumOfSquares
      (fill_skip (fun id => mp.z id m) leaver region1 0
        (List.replicate (region1.length - 1) 0))) 0
  (List.range mp.num_vars).foldl
    (fun wss m => wss + SumOfSquares
      ((region2.map fun id => mp.z id m) ++ [mp.z comer m])) wss

/-- `Maxp::objective_function(vector<vector<int> >& solution)`: the sum over the regions
of the sum over the variables of the sum of squares of the region's values. -/
def objective_function (mp : Maxp) (solution : List (List Nat)) : ℚ :=
  solution.foldl
    (fun wss region => wss + (List.range mp.num_vars).foldl
      (fun sum n => sum + SumOfSquares (region.map fun id => mp.z id n)) 0) 0

/-- `Maxp::objective_function_change(int area, vector<int>& current_internal,
vector<int>& current_outter)`. -/
def objective_function_change (mp : Maxp) (area : Nat) (current_internal : List Nat)
    (current_outter : List Nat) : ℚ :=
  let current := mp.objective_function_region current_internal
    + mp.objective_function_region current_outter
  let new_val := mp.objective_function_move current_outter area current_internal area
  new_val - current

/-! ## Feasibility predicates -/

/-- `Maxp::check_floor(const vector<int>& region, int leaver)`. -/
def check_floor_leaver (mp : Maxp) (region : List Nat) (leaver : Nat) : Bool :=
  let cv := region.foldl
    (fun cv selectionID => if selectionID = leaver then cv
      else cv + mp.floor_variable selectionID) 0
  if cv ≥ mp.floor then true else false

/-- The first loop of `check_contiguity`: every id other than `leaver` gets the mark
`false`; the first of them is put on the queue and marked `true`. -/
def check_contiguity_init (leaver : Nat) : List Nat → BoolMap → List Nat → BoolMap × List Nat
  | [], marks, q => (marks, q)
  | id :: ids, marks, q =>
    if id ≠ leaver then
      let marks := marks.set id false
      if q.isEmpty then check_contiguity_init leaver ids (marks.set id true) (q ++ [id])
      else check_contiguity_init leaver ids marks q
    else check_contiguity_init leaver ids marks q

/-- The loop over the neighbours of the node taken from the queue: a neighbour that has
a mark and whose mark is `false` is marked and enqueued. -/
def check_contiguity_nbrs : List Nat → BoolMap → List Nat → BoolMap × List Nat
  | [], marks, q => (marks, q)
  | nbr :: rest, marks, q =>
    if marks.mem nbr then
      if marks.val nbr = false then
        check_contiguity_nbrs rest (marks.set nbr true) (q ++ [nbr])
      else check_contiguity_nbrs rest marks q
    else check_contiguity_nbrs rest marks q

/-- The loop `while (!q.empty())` of `check_contiguity`, with fuel. -/
def check_contiguity_loop (w : Nat → List Nat) : Nat → BoolMap → List Nat → Option BoolMap
  | _, marks, [] => some marks
  | 0, _, _ :: _ => none
  | fuel + 1, marks, node :: q =>
    let marks := marks.set node true
    let (marks, q) := check_contiguity_nbrs (w node) marks q
    check_contiguity_loop w fuel marks q

/-- `Maxp::check_contiguity(const GalElement* w, vector<int>& ids, int leaver)`.  Every
pass of the queue loop either marks a new id or empties a queue slot, so
`ids.size() + 1` passes suffice (`check_contiguity_loop_spec`); the final loop returns
`false` as soon as it meets an unmarked id. -/
def check_contiguity (mp : Maxp) (w : Nat → List Nat) (ids : List Nat) (leaver : Nat) : Bool :=
  let (marks, q) := check_contiguity_init leaver ids BoolMap.empty []
  match check_contiguity_loop w (ids.length + 1) marks q with
  | some marks => (mp.order marks.keys).all fun k => marks.val k
  | none => false

/-! ## Local search: `Maxp::swap` -/

/-- The variables of `swap` that its loop body updates: the partition
(`init_regions`, `init_area2region`), the vector `changed_regions` and the counter
`moves_made` of the current pass. -/
structure SwapState where
  init_regions : List (List Nat)
  init_area2region : Nat → Nat
  changed_regions : List Nat
  moves_made : Nat

/-- The loop `member_dict[member] = true` over the members of the seed region. -/
def swap_member_dict (region : List Nat) : BoolMap :=
  region.foldl (fun d member => d.set member true) BoolMap.empty

/-- The double loop collecting in `neighbors_dict` every neighbour of a member that is
not itself a key of `member_dict`. -/
def swap_neighbors_dict (w : Nat → List Nat) (member_dict : BoolMap) (region : List Nat) :
    BoolMap :=
  region.foldl
    (fun nd member => (w member).foldl
      (fun nd cand => if member_dict.mem cand = false then nd.set cand true else nd) nd)
    BoolMap.empty

/-- The loop over `neighbors_dict` that keeps the neighbours whose own region (`block`)
passes `check_floor` and `check_contiguity` without them. -/
def swap_candidates (mp : Maxp) (init_regions : List (List Nat)) (init_area2region : Nat → Nat)
    (neighbors_dict : BoolMap) : List Nat :=
  (mp.order neighbors_dict.keys).filter fun nbr =>
    let block := init_regions.getD (init_area2region nbr) []
    mp.check_floor_leaver block nbr && mp.check_contiguity mp.w block nbr

/-- The loop over `candidates` that finds the best local move; the result is
`(cv, best, best_found)`. -/
def swap_best (mp : Maxp) (init_regions : List (List Nat)) (init_area2region : Nat → Nat)
    (seed : Nat) (candidates : List Nat) : ℚ × Nat × Bool :=
  candidates.foldl
    (fun acc area =>
      let current_internal := init_regions.getD seed []
      let current_outter := init_regions.getD (init_area2region area) []
      let change := mp.objective_function_change area current_internal current_outter
      if change ≤ acc.1 then (change, area, true) else acc)
    (0, 0, false)

/-- The block "make the move": `area` is erased from its old region, `area2region[area]`
becomes `seed`, `area` is appended to the seed region, and both regions are flagged. -/
def swap_move (st : SwapState) (seed : Nat) (area : Nat) : SwapState :=
  let old_region := st.init_area2region area
  let regions := st.init_regions.set old_region
    (remove (st.init_regions.getD old_region []) area)
  let a2r := fun x => if x = area then seed else st.init_area2region x
  let regions := regions.set seed (regions.getD seed [] ++ [area])
  { init_regions := regions
    init_area2region := a2r
    changed_regions := (st.changed_regions.set seed 1).set old_region 1
    moves_made := st.moves_made + 1 }

/-- The body of the loop `for (i < regionIds.size())` of `swap` for `seed = regionIds[i]`.
The inner `while (!candidates.empty())` runs once, since its body clears `candidates`. -/
def swap_seed (mp : Maxp) (st : SwapState) (seed : Nat) : SwapState :=
  let region := st.init_regions.getD seed []
  let member_dict := swap_member_dict region
  let neighbors_dict := swap_neighbors_dict mp.w member_dict region
  let candidates := mp.swap_candidates st.init_regions st.init_area2region neighbors_dict
  if candidates.isEmpty then st
  else
    let r := mp.swap_best st.init_regions st.init_area2region seed candidates
    if r.2.2 then swap_move st seed r.2.1 else st

/-- The list `regionIds` of a pass: the regions whose flag in `changed_regions` is set. -/
def swap_regionIds (nr : Nat) (changed_regions : List Nat) : List Nat :=
  (List.range nr).filter fun r => changed_regions.getD r 0 > 0

/-- One pass of the loop `while (swapping)`: `regionIds` is computed, the flags are
cleared and every listed region is processed. -/
def swap_pass (mp : Maxp) (nr : Nat) (st : SwapState) : SwapState :=
  let regionIds := swap_regionIds nr st.changed_regions
  regionIds.foldl mp.swap_seed
    { st with changed_regions := List.replicate nr 0, moves_made := 0 }

/-- The result of `swap`: the partition and the statistics `swap_iterations` and
`total_moves`. -/
structure SwapResult where
  regions : List (List Nat)
  area2region : Nat → Nat
  swap_iterations : Nat
  total_moves : Nat

/-- The loop `while (swapping)` with fuel: passes are run until one makes no move. -/
def swap_loop (mp : Maxp) (nr : Nat) : Nat → SwapState → Nat → Nat → Option SwapResult
  | 0, _, _, _ => none
  | fuel + 1, st, swap_iteration, total_move =>
    let st := mp.swap_pass nr st
    let swap_iteration := swap_iteration + 1
    let total_move := total_move + st.moves_made
    if st.moves_made = 0 then
      some ⟨st.init_regions, st.init_area2region, swap_iteration, total_move⟩
    else swap_loop mp nr fuel st swap_iteration total_move

/-- `Maxp::swap(vector<vector<int> >& init_regions, unordered_map<int, int>& init_area2region)`.
(The local `seed_local` of the source is only used by code that is commented out.) -/
def swap (mp : Maxp) (fuel : Nat) (init_regions : List (List Nat))
    (init_area2region : Nat → Nat) : Option SwapResult :=
  let nr := init_regions.length
  mp.swap_loop nr fuel ⟨init_regions, init_area2region, List.replicate nr 1, 0⟩ 0 0

/-- The state after `k` complete passes of the loop of `swap` (whether or not the loop
would have stopped earlier). -/
def swap_passes (mp : Maxp) (nr : Nat) : Nat → SwapState → SwapState
  | 0, st => st
  | k + 1, st => swap_passes mp nr k (mp.swap_pass nr st)

/-! ## Construction: one attempt of `Maxp::init_solution` -/

/-- The draw `k = hash(seed_local++) * (i+1); while (k >= i) k = hash(seed_local++) * (i+1)`
of the shuffle, with fuel for the rejection loop; the result is `(k, seed_local)`.  The
counter `seed_local` is a `uint64_t`. -/
def init_solution_draw (mp : Maxp) (i : Nat) : Nat → Nat → Option (Int × Nat)
  | 0, _ => none
  | fuel + 1, seed_local =>
    let k := toInt (mp.hash seed_local * ((i : ℚ) + 1))
    let seed_local := (seed_local + 1) % 2 ^ 64
    if k ≥ (i : Int) then init_solution_draw mp i fuel seed_local else some (k, seed_local)

/-- `std::iter_swap(c.begin() + k, c.begin() + i)`. -/
def iter_swap (c : List Nat) (k i : Nat) : List Nat :=
  (c.set k (c.getD i 0)).set i (c.getD k 0)

/-- The shuffle loop `for (i = num_obs-1; i >= 1; --i)`, entered with the loop variable
equal to the first argument; `fuel` bounds each rejection loop. -/
def init_solution_shuffle (mp : Maxp) (fuel : Nat) : Nat → List Nat → Nat → Option (List Nat × Nat)
  | 0, c, seed_local => some (c, seed_local)
  | i + 1, c, seed_local =>
    match mp.init_solution_draw (i + 1) fuel seed_local with
    | none => none
    | some (k, seed_local) =>
      let c := if k ≠ ((i + 1 : Nat) : Int) then iter_swap c k.toNat (i + 1) else c
      init_solution_shuffle mp fuel i c seed_local

/-- The candidate list of an attempt and the counter after building it.  Without
pre-assigned seeds it is the shuffled `0 .. num_obs-1`; otherwise it is the traversal of
`cand_dict`, whose keys are the seeds followed by `0 .. num_obs-1`. -/
def init_solution_candidates (mp : Maxp) (fuel : Nat) (seed_local : Nat) :
    Option (List Nat × Nat) :=
  if mp.seeds.isEmpty then
    mp.init_solution_shuffle fuel (mp.num_obs - 1) (List.range mp.num_obs) seed_local
  else
    let cand_dict := (List.range mp.num_obs).foldl (fun d i => d.set i true)
      (mp.seeds.foldl (fun d s => d.set s true) BoolMap.empty)
    some (mp.order cand_dict.keys, seed_local)

/-- The variables of the growth of one region. -/
structure GrowState where
  region : List Nat
  region_dict : BoolMap
  candidates : List Nat
  candidates_dict : Nat → Bool
  cv : ℚ
  is_enclave : Bool

/-- The loop over the neighbours `w[area][n]` of the area popped from `region`: a
neighbour that is not in `region_dict` and still flagged in `candidates_dict` joins the
region; the loop is left (`break`) as soon as `cv >= floor`. -/
def init_solution_grow_nbrs (mp : Maxp) : List Nat → GrowState → GrowState
  | [], st => st
  | nbr :: rest, st =>
    let region_dict := st.region_dict.touch nbr
    if region_dict.val nbr != true && st.candidates_dict nbr == true then
      let st : GrowState :=
        { region := st.region ++ [nbr]
          region_dict := region_dict.set nbr true
          candidates := remove st.candidates nbr
          candidates_dict := fun x => if x = nbr then false else st.candidates_dict x
          cv := st.cv + mp.floor_variable nbr
          is_enclave := st.is_enclave }
      if st.cv ≥ mp.floor then { st with is_enclave := false }
      else init_solution_grow_nbrs mp rest st
    else init_solution_grow_nbrs mp rest { st with region_dict := region_dict }

/-- The loop `while (is_enclave && cv < floor && !region.empty())`, with fuel. -/
def init_solution_grow_loop (mp : Maxp) : Nat → GrowState → Option GrowState
  | 0, st =>
    if st.is_enclave && decide (st.cv < mp.floor) && !st.region.isEmpty then none else some st
  | fuel + 1, st =>
    if st.is_enclave && decide (st.cv < mp.floor) && !st.region.isEmpty then
      let area := st.region.getLastD 0
      init_solution_grow_loop mp fuel
        (mp.init_solution_grow_nbrs (mp.w area) { st with region := st.region.dropLast })
    else some st

/-- The variables of the loop `while (!candidates.empty())`. -/
structure BuildState where
  candidates : List Nat
  candidates_dict : Nat → Bool
  regn : List (List Nat)
  enclaves : List Nat

/-- The body of the loop `while (!candidates.empty())` for the front element `seed`, the
remaining list being `rest`: the region is grown from `seed`, and the flagged keys of
`region_dict` go to `enclaves` (floor not reached) or form a new region of `regn`. -/
def init_solution_grow_seed (mp : Maxp) (fuel : Nat) (seed : Nat) (rest : List Nat)
    (bs : BuildState) : Option BuildState :=
  match mp.init_solution_grow_loop fuel
      { region := [seed]
        region_dict := BoolMap.empty.set seed true
        candidates := rest
        candidates_dict := bs.candidates_dict
        cv := mp.floor_variable seed
        is_enclave := true } with
  | none => none
  | some st =>
    let members := (mp.order st.region_dict.keys).filter fun k => st.region_dict.val k
    if st.is_enclave then
      some { candidates := st.candidates, candidates_dict := st.candidates_dict
             regn := bs.regn, enclaves := bs.enclaves ++ members }
    else
      some { candidates := st.candidates, candidates_dict := st.candidates_dict
             regn := bs.regn ++ [members], enclaves := bs.enclaves }

/-- The loop `while (!candidates.empty())`.  Every pass removes the front of
`candidates`, so the first argument bounds the passes when it is at least the length of
the list; the second is the fuel of each growth loop. -/
def init_solution_grow (mp : Maxp) : Nat → Nat → BuildState → Option BuildState
  | 0, _, bs => if bs.candidates.isEmpty then some bs else none
  | passes + 1, fuel, bs =>
    match bs.candidates with
    | [] => some bs
    | seed :: rest =>
      match mp.init_solution_grow_seed fuel seed rest bs with
      | none => none
      | some bs => init_solution_grow mp passes fuel bs

/-- The loop `a2r[regn[i][j]] = i` over all regions and members, on the empty map. -/
def init_solution_a2r (regn : List (List Nat)) : Nat → Nat :=
  (regn.enum.foldl
    (fun a2r ir => ir.2.foldl (fun a2r area => fun x => if x = area then ir.1 else a2r x) a2r)
    (fun _ => 0))

/-- The variables of the enclave loop. -/
structure EnclaveState where
  enclaves : List Nat
  regn : List (List Nat)
  a2r : Nat → Nat
  encCount : Nat
  encAttempts : Nat
  feasible : Bool
  seed_local : Nat
  enclave_random_number : List Nat

/-- The loop over the neighbours of `enclave` collecting in the local vector `candidates`
the distinct regions `a2r[nbr]` of the neighbours that are not on the enclave list. -/
def init_solution_enclave_candidates (enclaves : List Nat) (a2r : Nat → Nat) :
    List Nat → List Nat → List Nat
  | [], candidates => candidates
  | nbr :: rest, candidates =>
    if nbr ∈ enclaves then init_solution_enclave_candidates enclaves a2r rest candidates
    else
      let region := a2r nbr
      if region ∈ candidates then init_solution_enclave_candidates enclaves a2r rest candidates
      else init_solution_enclave_candidates enclaves a2r rest (candidates ++ [region])

/-- The body of the loop `while (encCount > 0 && encAttempts != encCount)` for the front
element `enclave` of the list, the remaining list being `rest`. -/
def init_solution_enclave_step (mp : Maxp) (enclave : Nat) (rest : List Nat)
    (es : EnclaveState) : EnclaveState :=
  let candidates := init_solution_enclave_candidates rest es.a2r (mp.w enclave) []
  if !candidates.isEmpty then
    let regID := toInt (mp.hash es.seed_local * (candidates.length : ℚ))
    let seed_local := (es.seed_local + 1) % 2 ^ 64
    let regID := if mp.test then (es.enclave_random_number.headD 0 : Int) else regID
    let enclave_random_number :=
      if mp.test then es.enclave_random_number.tail else es.enclave_random_number
    let rid := candidates.getD regID.toNat 0
    { enclaves := rest
      regn := es.regn.set rid (es.regn.getD rid [] ++ [enclave])
      a2r := fun x => if x = enclave then rid else es.a2r x
      encCount := rest.length
      encAttempts := 0
      feasible := true
      seed_local := seed_local
      enclave_random_number := enclave_random_number }
  else
    { es with enclaves := rest ++ [enclave], encAttempts := es.encAttempts + 1,
              feasible := false }

/-- The loop `while (encCount > 0 && encAttempts != encCount)`, with fuel. -/
def init_solution_enclave_loop (mp : Maxp) : Nat → EnclaveState → Option EnclaveState
  | 0, es => if es.encCount > 0 && es.encAttempts != es.encCount then none else some es
  | fuel + 1, es =>
    if es.encCount > 0 && es.encAttempts != es.encCount then
      match es.enclaves with
      | [] => none
      | enclave :: rest =>
        init_solution_enclave_loop mp fuel (mp.init_solution_enclave_step enclave rest es)
    else some es

/-- The outcome of one pass of the loop `while (solving && attempts <= MAX_ATTEMPTS)` of
`init_solution` up to the test `if (feasible)`: either no region was grown (the pass
ends with `attempts += 1; break`), or the regions, the map `a2r` and the flag `feasible`
after the enclave loop. -/
structure Attempt where
  no_region : Bool
  regn : List (List Nat)
  a2r : Nat → Nat
  feasible : Bool
  seed_local : Nat
  enclave_random_number : List Nat

/-- One construction attempt of `init_solution`, started with counter `seed_local`: the
candidate list is built, regions are grown, and the enclaves are assigned.  `fuel` bounds
each rejection loop of the shuffle; the growth loops and the enclave loop get fuel from
the sizes of their lists, which they never exhaust (`init_solution_attempt_total`). -/
def init_solution_attempt (mp : Maxp) (fuel : Nat) (seed_local : Nat)
    (enclave_random_number : List Nat) : Option Attempt :=
  match mp.init_solution_candidates fuel seed_local with
  | none => none
  | some (candidates, seed_local) =>
    match mp.init_solution_grow candidates.length (candidates.length + 1)
        { candidates := candidates
          candidates_dict := fun x => decide (x ∈ candidates)
          regn := []
          enclaves := [] } with
    | none => none
    | some bs =>
      if bs.regn.isEmpty then
        some ⟨true, bs.regn, fun _ => 0, false, seed_local, enclave_random_number⟩
      else
        let encCount := bs.enclaves.length
        match mp.init_solution_enclave_loop ((encCount + 1) * (encCount + 1))
            { enclaves := bs.enclaves
              regn := bs.regn
              a2r := init_solution_a2r bs.regn
              encCount := encCount
              encAttempts := 0
              feasible := true
              seed_local := seed_local
              enclave_random_number := enclave_random_number } with
        | none => none
        | some es =>
          some ⟨false, es.regn, es.a2r, es.feasible, es.seed_local, es.enclave_random_number⟩

/-! ## Construction: `Maxp::init_solution` -/

/-- The macro `__DBL_MAX__`, the largest finite `double`: `(2^53 - 1) * 2^971`. -/
def DBL_MAX : ℚ := (2 ^ 53 - 1) * 2 ^ 971

/-- The members of a `Maxp` object that are written after the read-only ones: the current
result (`regions`, `area2region`, `p`, `feasible`, `best_ss`), the per-start slots
(`initial_wss`, `regions_group`, `area2region_group`, `p_group`), the statistics of the
last `swap`, and the list `enclave_random_number` consumed in test mode. -/
structure Solver where
  regions : List (List Nat)
  area2region : Nat → Nat
  p : Nat
  feasible : Bool
  best_ss : ℚ
  initial_wss : List ℚ
  regions_group : List (List (List Nat))
  area2region_group : List (Nat → Nat)
  p_group : List Nat
  swap_iterations : Nat
  total_moves : Nat
  enclave_random_number : List Nat

/-- The local variables of `init_solution` that its loop
`while (solving && attempts <= MAX_ATTEMPTS)` updates, together with the member
`enclave_random_number`. -/
structure InitLocals where
  seed_local : Nat
  p : Nat
  solving : Bool
  attempts : Nat
  _regions : List (List Nat)
  _area2region : Nat → Nat
  enclave_random_number : List Nat

/-- The loop `while (solving && attempts <= MAX_ATTEMPTS)` of `init_solution`; `best_ss`
is the member read by the test `ss < best_ss`.  Every pass that does not leave the loop
increments `attempts`, so `MAX_ATTEMPTS + 1` passes suffice when `attempts` starts at `0`:
the first argument bounds the passes, `fuel` is handed to the attempts.  An attempt that
grows no region ends the loop (`attempts += 1; break`). -/
def init_solution_loop (mp : Maxp) (fuel : Nat) (best_ss : ℚ) :
    Nat → InitLocals → Option InitLocals
  | 0, L => if L.solving && decide (L.attempts ≤ mp.MAX_ATTEMPTS) then none else some L
  | passes + 1, L =>
    if L.solving && decide (L.attempts ≤ mp.MAX_ATTEMPTS) then
      match mp.init_solution_attempt fuel L.seed_local L.enclave_random_number with
      | none => none
      | some r =>
        if r.no_region then
          some { L with seed_local := r.seed_local, attempts := L.attempts + 1 }
        else
          let L := { L with seed_local := r.seed_local
                            enclave_random_number := r.enclave_random_number }
          let L :=
            if r.feasible then
              let ss := mp.objective_function r.regn
              if ss < best_ss then
                { L with solving := false, p := r.regn.length, _regions := r.regn
                         _area2region := r.a2r }
              else L
            else if L.attempts = mp.MAX_ATTEMPTS then { L with p := 0 }
            else L
          init_solution_loop mp fuel best_ss passes { L with attempts := L.attempts + 1 }
    else some L

/-- `Maxp::init_solution(int solution_idx)`.  The counter starts at
`seed_start + (solution_idx+1) * seed_increment` (a `uint64_t`).  For `solution_idx >= 0`
the kept construction, if any, is improved by `swap` (with fuel `swap_fuel`) and recorded
in slot `solution_idx`; for `solution_idx = -1` it becomes the current result. -/
def init_solution (mp : Maxp) (fuel swap_fuel : Nat) (s : Solver) (solution_idx : Int) :
    Option Solver :=
  let seed_local := (mp.seed_start + (solution_idx + 1).toNat * mp.seed_increment) % 2 ^ 64
  match mp.init_solution_loop fuel s.best_ss (mp.MAX_ATTEMPTS + 1)
      { seed_local := seed_local, p := 0, solving := true, attempts := 0, _regions := []
        _area2region := fun _ => 0, enclave_random_number := s.enclave_random_number } with
  | none => none
  | some L =>
    let s := { s with enclave_random_number := L.enclave_random_number }
    if solution_idx ≥ 0 then
      if L._regions.isEmpty then
        some { s with p_group := s.p_group.set solution_idx.toNat 0
                      initial_wss := s.initial_wss.set solution_idx.toNat 0 }
      else
        match mp.swap swap_fuel L._regions L._area2region with
        | none => none
        | some out =>
          some { s with swap_iterations := out.swap_iterations
                        total_moves := out.total_moves
                        regions_group := s.regions_group.set solution_idx.toNat out.regions
                        area2region_group :=
                          s.area2region_group.set solution_idx.toNat out.area2region
                        p_group := s.p_group.set solution_idx.toNat L.p
                        initial_wss := s.initial_wss.set solution_idx.toNat
                          (mp.objective_function out.regions) }
    else
      if s.regions.isEmpty then
        some { s with regions := L._regions, area2region := L._area2region, p := L.p }
      else
        let s := { s with best_ss := mp.objective_function s.regions }
        if mp.objective_function L._regions < s.best_ss then
          some { s with regions := L._regions, area2region := L._area2region, p := L.p }
        else some s

/-! ## Multi-start: `Maxp::run` and `Maxp::run_threaded` -/

/-- The start indices `Maxp::run(a, b)` passes to `init_solution`, in order: the loop
`for (int i = a; i <= b; i++)`. -/
def run_indices (a b : Int) : List Int :=
  (List.range (b + 1 - a).toNat).map fun j : Nat => a + (j : Int)

/-- The closed index ranges `[a, b]` that `run_threaded` hands to its worker threads, in
the order the threads are created; `nCPUs` is the value returned by
`boost::thread::hardware_concurrency()`. -/
def run_threaded_ranges (initial nCPUs : Nat) : List (Int × Int) :=
  let quotient := initial / nCPUs
  let remainder := initial % nCPUs
  let tot_threads := if quotient > 0 then nCPUs else remainder
  (List.range tot_threads).map fun i =>
    if i < remainder then
      let a : Int := (i : Int) * ((quotient : Int) + 1)
      let b : Int := a + quotient
      (a, b)
    else
      let a : Int := (remainder : Int) * ((quotient : Int) + 1)
        + ((i : Int) - remainder) * quotient
      let b : Int := a + quotient - 1
      (a, b)

/-- The calls `init_solution(i)` for the listed start indices, one after the other. -/
def run_starts (mp : Maxp) (fuel swap_fuel : Nat) : List Int → Solver → Option Solver
  | [], s => some s
  | i :: rest, s =>
    match mp.init_solution fuel swap_fuel s i with
    | none => none
    | some s => run_starts mp fuel swap_fuel rest s

/-- `Maxp::run(int a, int b)`. -/
def run (mp : Maxp) (fuel swap_fuel : Nat) (a b : Int) (s : Solver) : Option Solver :=
  mp.run_starts fuel swap_fuel (run_indices a b) s

/-- The workers of `run_threaded`, executed one after the other in the order of their
creation. -/
def run_workers (mp : Maxp) (fuel swap_fuel : Nat) : List (Int × Int) → Solver → Option Solver
  | [], s => some s
  | ab :: rest, s =>
    match mp.run fuel swap_fuel ab.1 ab.2 s with
    | none => none
    | some s => run_workers mp fuel swap_fuel rest s

/-- `Maxp::run_threaded()`.  The worker threads run `run(a, b)` concurrently and are
joined; a start `i` reads the read-only members and `best_ss` and writes slot `i` of the
group vectors only (besides the statistics of `swap` and, in test mode,
`enclave_random_number`), so the workers are executed here one after the other. -/
def run_threaded (mp : Maxp) (nCPUs fuel swap_fuel : Nat) (s : Solver) : Option Solver :=
  mp.run_workers fuel swap_fuel (run_threaded_ranges mp.initial nCPUs) s

/-- The read-only members as the constructor `Maxp::Maxp` sets them (lines 39 to 58 and
82).  `arg` holds the constructor arguments `_w`, `_z` (with its sizes `num_obs`,
`num_vars`), `_floor`, `_floor_variable`, `_initial`, `_test`, the value `seed_start`
returned by `rand()`, and the collaborators `hash` and `order`; `sorted` is the vector
`seeds` produced by `GenUtils::sort(_seeds, _seeds, seeds)`. -/
def init_members (arg : Maxp) (_seeds sorted : List Nat) : Maxp :=
  { arg with
    initial := if arg.test then 2 else arg.initial
    floor := if arg.test then 5 else arg.floor
    MAX_ATTEMPTS := 100
    seed_increment := 100 * arg.num_obs * 100
    seeds := if _seeds.isEmpty then [] else sorted }

/-- The regions built from pre-assigned seeds (lines 64 to 80): area `i` is appended to
the vector stored under the key `_seeds[i]` of an ordered `map`, and the vectors are
listed in increasing key order. -/
def seed_regions (_seeds : List Nat) : List (List Nat) :=
  ((List.range (_seeds.foldl max 0 + 1)).filter fun rgn => rgn ∈ _seeds).map fun rgn =>
    (List.range _seeds.length).filter fun i => _seeds.getD i 0 = rgn

/-- The body of the loop `for (i < initial)` of the constructor that scans the slots:
`acc` is `(best_regions, best_area2region, best_ss)`. -/
def reduce_step (s : Solver) (acc : List (List Nat) × (Nat → Nat) × ℚ) (i : Nat) :
    List (List Nat) × (Nat → Nat) × ℚ :=
  if s.p_group.getD i 0 > 0 then
    let val := s.initial_wss.getD i 0
    if val < acc.2.2 then (s.regions_group.getD i [], s.area2region_group.getD i (fun _ => 0), val)
    else acc
  else acc

/-- The constructor `Maxp::Maxp` from line 60 on, for the read-only members `mp`
(`init_members arg _seeds sorted`) and `_initial` slots: the seed solution is built by
`init_solution(-1)` or from the pre-assigned seeds; when it has regions, `best_ss` is set
to its objective, the starts are run, the slots are scanned, and the best slot replaces
the seed solution when `best_regions` is not empty. -/
def solve (mp : Maxp) (_initial : Nat) (_seeds : List Nat) (nCPUs fuel swap_fuel : Nat) :
    Option Solver :=
  let s : Solver :=
    { regions := [], area2region := fun _ => 0, p := 0, feasible := false
      best_ss := DBL_MAX
      initial_wss := List.replicate _initial 0
      regions_group := List.replicate _initial []
      area2region_group := List.replicate _initial (fun _ => 0)
      p_group := List.replicate _initial 0
      swap_iterations := 0, total_moves := 0, enclave_random_number := [] }
  let first :=
    if _seeds.isEmpty then mp.init_solution fuel swap_fuel s (-1)
    else some { s with area2region := fun i => _seeds.getD i 0
                       regions := seed_regions _seeds
                       p := (seed_regions _seeds).length }
  match first with
  | none => none
  | some s =>
    if s.p = 0 then some { s with feasible := false }
    else
      let s := { s with feasible := true, best_ss := mp.objective_function s.regions }
      match mp.run_threaded nCPUs fuel swap_fuel s with
      | none => none
      | some s =>
        let best := (List.range mp.initial).foldl (reduce_step s) ([], fun _ => 0, s.best_ss)
        let s := { s with best_ss := best.2.2 }
        if !best.1.isEmpty then
          some { s with regions := best.1, p := best.1.length, area2region := best.2.1 }
        else some s

/-- `Maxp::Maxp(_w, _z, _floor, _floor_variable, _initial, _seeds, _rnd_seed, _dist, _test)`:
the members are initialised from the arguments and the solver is run. -/
def construct (arg : Maxp) (_seeds sorted : List Nat) (nCPUs fuel swap_fuel : Nat) :
    Option Solver :=
  (init_members arg _seeds sorted).solve arg.initial _seeds nCPUs fuel swap_fuel

/-! ## Specification vocabulary -/

/-- The floor sum of a region: the sum of `t[i]` over its members. -/
def floor_sum (mp : Maxp) (S : List Nat) : ℚ := (S.map mp.floor_variable).sum

/-- The within sum of squared deviations of section 4.B of the specification:
`SSD(S) = Σ_m Σ_{i ∈ S} (z[i][m] - μ_m(S))²`, with `μ_m(S)` the mean of attribute `m`
over `S`. -/
def SSD (mp : Maxp) (S : List Nat) : ℚ :=
  ((List.range mp.num_vars).map fun m =>
    (S.map fun i => (mp.z i m - (S.map fun j => mp.z j m).sum / S.length) ^ 2).sum).sum

/-- Invariant I1 (coverage): the regions list every area of `[0, n)` exactly once, and
nothing else. -/
def I1 (n : Nat) (regions : List (List Nat)) : Prop :=
  regions.flatten.Perm (List.range n)

/-- `Reach w S a b`: there is a path from `a` to `b` along edges of `w` whose nodes
after `a` all lie in `S`. -/
def Reach (w : Nat → List Nat) (S : List Nat) (a b : Nat) : Prop :=
  Relation.ReflTransGen (fun x y => y ∈ w x ∧ y ∈ S) a b

/-- The subgraph of `w` induced on `S` is connected: any two members are joined by a
path inside `S`.  (No member, no pair: the empty list satisfies this.) -/
def Connected (w : Nat → List Nat) (S : List Nat) : Prop :=
  ∀ a ∈ S, ∀ b ∈ S, Reach w S a b

/-- Invariant I3 (contiguity): every region is connected in `w`. -/
def I3 (w : Nat → List Nat) (regions : List (List Nat)) : Prop :=
  ∀ r ∈ regions, Connected w r

/-- Invariant I4 (consistency): `a2r[i] = r ⇔ i ∈ regions[r]` for every area `i` and
every region index `r`. -/
def I4 (n : Nat) (regions : List (List Nat)) (a2r : Nat → Nat) : Prop :=
  ∀ i, i < n → ∀ r, r < regions.length → (a2r i = r ↔ i ∈ regions.getD r [])

/-- The contiguity graph is over the areas `[0, n)`: every listed neighbour of an area
is an area. -/
def GraphOn (n : Nat) (w : Nat → List Nat) : Prop :=
  ∀ i, i < n → ∀ j ∈ w i, j < n

/-- The contiguity graph is symmetric. -/
def Symmetric (w : Nat → List Nat) : Prop :=
  ∀ i j, j ∈ w i → i ∈ w j

/-- The contiguity graph is loop-free. -/
def LoopFree (w : Nat → List Nat) : Prop :=
  ∀ i, i ∉ w i

/-- The traversal of a hash map visits every key exactly once. -/
def OrderOk (order : List Nat → List Nat) : Prop :=
  ∀ l, (order l).Perm l

/-- The number of keys of a map whose value is `false` (the measure of the queue loop of
`check_contiguity`). -/
def falseCount (m : BoolMap) : Nat := (m.keys.filter fun k => !m.val k).length

/-- The invariant of the queue loop of `check_contiguity` on the ids `K` started from
`first`: the map has exactly the keys `K`; every marked or queued id is a member
reachable from `first`; the neighbours in `K` of a marked id that is not queued are
marked or queued; and `first` is marked or queued. -/
def BfsInv (w : Nat → List Nat) (K : List Nat) (first : Nat) (marks : BoolMap)
    (q : List Nat) : Prop :=
  (∀ x, x ∈ marks.keys ↔ x ∈ K)
  ∧ (∀ x, (marks.val x = true ∨ x ∈ q) → x ∈ K ∧ Reach w K first x)
  ∧ (∀ x, marks.val x = true → x ∉ q → ∀ y ∈ w x, y ∈ K → (marks.val y = true ∨ y ∈ q))
  ∧ (marks.val first = true ∨ first ∈ q)

/-- The areas `swap` considers for a move into region `seed`: not a member of the seed
region, a neighbour of one of its members, and such that the area's own region passes
`check_floor` and `check_contiguity` without it. -/
def IsCandidate (mp : Maxp) (regions : List (List Nat)) (a2r : Nat → Nat) (seed area : Nat) :
    Prop :=
  area ∉ regions.getD seed []
  ∧ (∃ member ∈ regions.getD seed [], area ∈ mp.w member)
  ∧ mp.check_floor_leaver (regions.getD (a2r area) []) area = true
  ∧ mp.check_contiguity mp.w (regions.getD (a2r area) []) area = true

/-- The members of a region under construction: the keys of `region_dict` whose flag is
set, in insertion order. -/
def members (d : BoolMap) : List Nat := d.keys.filter fun k => d.val k

/-- Every member of `r` is reachable inside `r` from one of its members. -/
def Rooted (w : Nat → List Nat) (r : List Nat) : Prop :=
  ∃ s ∈ r, ∀ x ∈ r, Reach w r s x

/-- The invariant of the growth of one region from `seed`, where `rest` is the
candidate list after the seed was popped: the keys are distinct; `cv` is the floor sum of
the members; the stack `region` holds members; every member is an area reachable from
`seed` inside the members; every element of `rest` is still a candidate or has become a
member; the candidates are a sublist of `rest`; and once `is_enclave` is cleared the floor
is met. -/
def GrowInv (mp : Maxp) (n seed : Nat) (rest : List Nat) (st : GrowState) : Prop :=
  st.region_dict.keys.Nodup
  ∧ st.cv = mp.floor_sum (members st.region_dict)
  ∧ (∀ x ∈ st.region, x ∈ members st.region_dict)
  ∧ (∀ x ∈ members st.region_dict, x < n ∧ Reach mp.w (members st.region_dict) seed x)
  ∧ seed ∈ members st.region_dict
  ∧ (∀ x ∈ rest, x ∈ st.candidates ∨ x ∈ members st.region_dict)
  ∧ st.candidates.Sublist rest
  ∧ (st.is_enclave = false → mp.floor ≤ st.cv)

/-- The invariant of the loop `while (!candidates.empty())`: every area is a candidate,
an enclave or a member of a region; candidates and enclaves are areas; and every region
meets the floor, consists of areas, and is reachable inside itself from one member. -/
def BuildInv (mp : Maxp) (n : Nat) (bs : BuildState) : Prop :=
  (∀ x, x < n → x ∈ bs.candidates ∨ x ∈ bs.enclaves ∨ ∃ r ∈ bs.regn, x ∈ r)
  ∧ (∀ x ∈ bs.candidates, x < n)
  ∧ (∀ x ∈ bs.enclaves, x < n)
  ∧ (∀ r ∈ bs.regn, mp.floor ≤ mp.floor_sum r ∧ Rooted mp.w r ∧ ∀ x ∈ r, x < n)

/-- The invariant of the enclave loop used for contiguity: the queued enclaves are areas,
every region is connected, and every area is queued or is a member of the region `a2r`
names for it. -/
def EnclaveConnInv (mp : Maxp) (n : Nat) (es : EnclaveState) : Prop :=
  (∀ e ∈ es.enclaves, e < n)
  ∧ (∀ r ∈ es.regn, Connected mp.w r)
  ∧ (∀ x, x < n →
      x ∈ es.enclaves ∨ (es.a2r x < es.regn.length ∧ x ∈ es.regn.getD (es.a2r x) []))

/-- The measure of the enclave loop, for a queue that started with `L` enclaves. -/
def enclaveMeasure (L : Nat) (es : EnclaveState) : Nat :=
  es.enclaves.length * (L + 1) + (es.encCount - es.encAttempts)

/-- The first start index of the `i`-th range of `run_threaded`, in closed form. -/
def run_threaded_start (initial nCPUs i : Nat) : Nat :=
  if i < initial % nCPUs then i * (initial / nCPUs + 1)
  else initial % nCPUs * (initial / nCPUs + 1) + (i - initial % nCPUs) * (initial / nCPUs)

/-- The candidate list that the loop body of `swap` builds for region `seed` in the
state `st`. -/
def swap_seed_candidates (mp : Maxp) (st : SwapState) (seed : Nat) : List Nat :=
  mp.swap_candidates st.init_regions st.init_area2region
    (swap_neighbors_dict mp.w (swap_member_dict (st.init_regions.getD seed []))
      (st.init_regions.getD seed []))

/-- The value `change` that the loop body of `swap` computes for the candidate `area` of
region `seed` in the state `st`. -/
def swap_change (mp : Maxp) (st : SwapState) (seed area : Nat) : ℚ :=
  mp.objective_function_change area (st.init_regions.getD seed [])
    (st.init_regions.getD (st.init_area2region area) [])

/-- The invariant of the enclave loop behind its two end states: `encCount` is the length
of the queue; `encAttempts` does not exceed it; `feasible` is set exactly while
`encAttempts` is `0`; and each of the last `encAttempts` enclaves of the queue has all its
neighbours among the other queued enclaves (it was put back without an assignment). -/
def EnclaveEndInv (mp : Maxp) (es : EnclaveState) : Prop :=
  es.encCount = es.enclaves.length
  ∧ es.encAttempts ≤ es.encCount
  ∧ (es.feasible = true ↔ es.encAttempts = 0)
  ∧ ∀ e ∈ es.enclaves.drop (es.enclaves.length - es.encAttempts),
      ∀ nbr ∈ mp.w e, nbr ∈ es.enclaves.erase e

/-- The path graph `0 – 1 – … – (n-1)`. -/
def pathGraph (n : Nat) : Nat → List Nat := fun i =>
  if i < n then (if i = 0 then [] else [i - 1]) ++ (if i + 1 < n then [i + 1] else [])
  else []

/-- The map `area2region` holding `l[i]` for area `i`. -/
def a2rOfList (l : List Nat) : Nat → Nat := fun i => l.getD i 0

/-- Scenario 5 of the specification: the path `0 – 1 – 2 – 3`, `t = [1,1,1,1]`,
`floor = 2`, one attribute column `[0, 0, 10, 10]`.  The hash is constantly `0` and hash
maps are traversed in insertion order. -/
def scenario5 : Maxp :=
  { w := pathGraph 4
    z := fun i _ => [0, 0, 10, 10].getD i 0
    floor := 2
    floor_variable := fun _ => 1
    num_obs := 4
    num_vars := 1
    initial := 1
    MAX_ATTEMPTS := 100
    seed_start := 0
    seed_increment := 100 * 4 * 100
    test := false
    seeds := []
    hash := fun _ => 0
    order := id }

/-- Scenario 1 of the specification as constructor arguments: the path `0 – 1 – 2 – 3 – 4`,
`t = [1,1,1,1,1]`, `floor = 5`, one attribute column of zeros, `initial = 4`.  The value
returned by `rand()` is taken to be `0`, the hash is constantly `0` and hash maps are
traversed in insertion order. -/
def scenario1 : Maxp :=
  { w := pathGraph 5
    z := fun _ _ => 0
    floor := 5
    floor_variable := fun _ => 1
    num_obs := 5
    num_vars := 1
    initial := 4
    MAX_ATTEMPTS := 100
    seed_start := 0
    seed_increment := 100 * 5 * 100
    test := false
    seeds := []
    hash := fun _ => 0
    order := id }

/-- Scenario 3 of the specification: scenario 1 with `floor = 100`. -/
def scenario3 : Maxp := { scenario1 with floor := 100 }

/-- A solver state before the starts are run: the current result is the single region
`{0,1,2,3}`, `best_ss` is the given value, and the `n` slots are still zero. -/
def startState (n : Nat) (best_ss : ℚ) : Solver :=
  { regions := [[0, 1, 2, 3]], area2region := fun _ => 0, p := 1, feasible := true
    best_ss := best_ss
    initial_wss := List.replicate n 0
    regions_group := List.replicate n []
    area2region_group := List.replicate n (fun _ => 0)
    p_group := List.replicate n 0
    swap_iterations := 0, total_moves := 0, enclave_random_number := [] }

/-- The path `0 – 1 – 2 – 3` with `t = [2,2,2,2]` and `floor = 2`, so that every area
alone meets the floor; everything else as in `scenario5`. -/
def floorMetExample : Maxp := { scenario5 with floor_variable := fun _ => 2 }

/-- Three areas with `t = [1,1,1]`, `floor = 2` and a zero attribute column: areas `0` and
`1` are neighbours and area `2` has no neighbour; everything else as in `scenario5`. -/
def isolatedExample : Maxp :=
  { scenario5 with
    w := fun i => if i = 0 then [1] else if i = 1 then [0] else []
    z := fun _ _ => 0
    num_obs := 3 }

/-! ## Auxiliary lemmas: sums and loops -/

theorem foldl_add_eq_sum {α : Type} (f : α → ℚ) (l : List α) (a : ℚ) :
    l.foldl (fun acc x => acc + f x) a = a + (l.map f).sum := by
  induction l generalizing a with
  | nil => simp
  | cons x xs ih => simp [ih, add_assoc]

theorem remove_nil (a : Nat) : remove [] a = [] := rfl

theorem remove_cons_self (a : Nat) (l : List Nat) : remove (a :: l) a = remove l a := by
  simp [remove]

theorem remove_cons_ne {a x : Nat} (l : List Nat) (h : x ≠ a) :
    remove (x :: l) a = x :: remove l a := by
  simp [remove, h]

theorem mem_remove {a x : Nat} {l : List Nat} : x ∈ remove l a ↔ x ∈ l ∧ x ≠ a := by
  simp [remove]

theorem remove_append (l₁ l₂ : List Nat) (a : Nat) :
    remove (l₁ ++ l₂) a = remove l₁ a ++ remove l₂ a := by
  simp [remove]

theorem remove_eq_self {a : Nat} {l : List Nat} (h : a ∉ l) : remove l a = l := by
  unfold remove
  rw [List.filter_eq_self]
  intro x hx
  have : x ≠ a := fun e => h (e ▸ hx)
  simpa using this

theorem count_remove_self (a : Nat) (l : List Nat) : (remove l a).count a = 0 := by
  rw [List.count_eq_zero]
  intro h
  exact (mem_remove.mp h).2 rfl

theorem count_remove_ne {a x : Nat} (l : List Nat) (h : x ≠ a) :
    (remove l a).count x = l.count x := by
  unfold remove
  exact List.count_filter (by simpa using h)

theorem length_remove (a : Nat) (l : List Nat) :
    (remove l a).length + l.count a = l.length := by
  induction l with
  | nil => simp [remove]
  | cons x xs ih =>
    by_cases hx : x = a
    · subst hx
      rw [remove_cons_self]
      simp
      omega
    · rw [remove_cons_ne _ hx, List.count_cons_of_ne (Ne.symm hx)]
      simp
      omega

theorem foldl_skip_eq_sum (f : Nat → ℚ) (leaver : Nat) (l : List Nat) (a : ℚ) :
    l.foldl (fun acc x => if x = leaver then acc else acc + f x) a
      = a + ((remove l leaver).map f).sum := by
  induction l generalizing a with
  | nil => simp [remove]
  | cons x xs ih =>
    by_cases hx : x = leaver
    · subst hx
      simp [ih, remove_cons_self]
    · simp [ih, hx, remove_cons_ne _ hx, add_assoc]

theorem check_floor_leaver_iff (mp : Maxp) (region : List Nat) (leaver : Nat) :
    mp.check_floor_leaver region leaver = true
      ↔ mp.floor ≤ mp.floor_sum (remove region leaver) := by
  unfold check_floor_leaver floor_sum
  rw [foldl_skip_eq_sum]
  simp

theorem take_succ_set (buf : List ℚ) (j : Nat) (v : ℚ) (hj : j < buf.length) :
    (buf.set j v).take (j + 1) = buf.take j ++ [v] := by
  induction buf generalizing j with
  | nil => simp at hj
  | cons b bs ih =>
    cases j with
    | zero => simp
    | succ j =>
      simp only [List.set_cons_succ, List.take_succ_cons, List.cons_append, List.cons.injEq, true_and]
      exact ih j (by simpa using hj)

theorem drop_succ_add_set (buf : List ℚ) (j k : Nat) (v : ℚ) :
    (buf.set j v).drop (j + 1 + k) = buf.drop (j + 1 + k) := by
  induction buf generalizing j with
  | nil => simp
  | cons b bs ih =>
    cases j with
    | zero => simp [Nat.add_comm 1 k]
    | succ j =>
      have : j + 1 + 1 + k = (j + 1 + k) + 1 := by omega
      rw [this]
      simp only [List.set_cons_succ, List.drop_succ_cons]
      exact ih j

theorem fill_skip_eq (col : Nat → ℚ) (leaver : Nat) (l : List Nat) (j : Nat) (buf : List ℚ)
    (h : j + (remove l leaver).length ≤ buf.length) :
    fill_skip col leaver l j buf
      = buf.take j ++ (remove l leaver).map col
          ++ buf.drop (j + (remove l leaver).length) := by
  induction l generalizing j buf with
  | nil => simp [fill_skip, remove]
  | cons x xs ih =>
    by_cases hx : x = leaver
    · subst hx
      rw [remove_cons_self] at h ⊢
      simp only [fill_skip, if_true]
      exact ih j buf h
    · rw [remove_cons_ne _ hx] at h ⊢
      simp only [fill_skip, hx, if_false]
      simp only [List.length_cons] at h
      rw [ih (j + 1) (buf.set j (col x)) (by simp; omega)]
      have hj : j < buf.length := by omega
      rw [take_succ_set _ _ _ hj, drop_succ_add_set]
      simp [Nat.add_assoc, Nat.add_comm 1]

theorem fill_skip_count_one (col : Nat → ℚ) (leaver : Nat) (l : List Nat)
    (h : l.count leaver = 1) :
    fill_skip col leaver l 0 (List.replicate (l.length - 1) 0) = (remove l leaver).map col := by
  have hl := length_remove leaver l
  rw [fill_skip_eq]
  · have : 0 + (remove l leaver).length = l.length - 1 := by omega
    rw [this]
    simp
  · simp
    omega

theorem foldl_range_add_eq_sum (g : Nat → ℚ) (k : Nat) (a : ℚ) :
    (List.range k).foldl (fun acc m => acc + g m) a = a + ((List.range k).map g).sum :=
  foldl_add_eq_sum g (List.range k) a

theorem SumOfSquares_map (col : Nat → ℚ) (S : List Nat) :
    SumOfSquares (S.map col)
      = (S.map fun i => (col i - (S.map col).sum / S.length) ^ 2).sum := by
  simp [SumOfSquares, List.map_map, Function.comp_def, pow_two]

theorem objective_function_region_eq_SSD (mp : Maxp) (S : List Nat) :
    mp.objective_function_region S = mp.SSD S := by
  unfold objective_function_region SSD
  rw [foldl_range_add_eq_sum]
  simp only [SumOfSquares_map, zero_add]

theorem objective_function_move_eq (mp : Maxp) (region1 region2 : List Nat) (a : Nat)
    (h : region1.count a = 1) :
    mp.objective_function_move region1 a region2 a
      = mp.objective_function_region (remove region1 a)
        + mp.objective_function_region (region2 ++ [a]) := by
  unfold objective_function_move objective_function_region
  simp only [fill_skip_count_one _ _ _ h, foldl_range_add_eq_sum, zero_add, List.map_append,
    List.map_cons, List.map_nil]

/-! ## C8: the objective change of a move -/

/-- C8: for a donor region `src` that lists `a` exactly once and any recipient region
`dst`, `objective_function_change(a, dst, src)` equals
`SSD(src \ {a}) + SSD(dst with a) - SSD(src) - SSD(dst)`, where `SSD` is the sum over the
attributes of the squared deviations from the mean (exact arithmetic). -/
theorem objective_function_change_spec (mp : Maxp) (a : Nat) (dst src : List Nat)
    (h : src.count a = 1) :
    mp.objective_function_change a dst src
      = mp.SSD (remove src a) + mp.SSD (dst ++ [a]) - mp.SSD src - mp.SSD dst := by
  unfold objective_function_change
  simp only [objective_function_move_eq mp src dst a h, objective_function_region_eq_SSD]
  ring

/-- Witness for C8 on scenario 5: area `2` moves from `{0,1,2}` to `{3}`. -/
theorem objective_function_change_spec_witness :
    [0, 1, 2].count 2 = 1
    ∧ scenario5.objective_function_change 2 [3] [0, 1, 2]
      = scenario5.SSD (remove [0, 1, 2] 2) + scenario5.SSD ([3] ++ [2])
        - scenario5.SSD [0, 1, 2] - scenario5.SSD [3] :=
  ⟨by decide, objective_function_change_spec scenario5 2 [3] [0, 1, 2] (by decide)⟩

/-! ## Auxiliary lemmas: hash maps -/

theorem mem_keys_set {m : BoolMap} {k x : Nat} {v : Bool} :
    x ∈ (m.set k v).keys ↔ x ∈ m.keys ∨ x = k := by
  unfold BoolMap.set
  by_cases h : k ∈ m.keys
  · simp only [h, if_true]
    constructor
    · exact Or.inl
    · rintro (h1 | rfl)
      · exact h1
      · exact h
  · simp [h]

theorem val_set (m : BoolMap) (k x : Nat) (v : Bool) :
    (m.set k v).val x = if x = k then v else m.val x := rfl

theorem keys_set_of_mem {m : BoolMap} {k : Nat} (v : Bool) (h : k ∈ m.keys) :
    (m.set k v).keys = m.keys := by
  simp [BoolMap.set, h]

theorem length_keys_set_le (m : BoolMap) (k : Nat) (v : Bool) :
    (m.set k v).keys.length ≤ m.keys.length + 1 := by
  unfold BoolMap.set
  by_cases h : k ∈ m.keys <;> simp [h]

theorem falseCount_set_true_le (m : BoolMap) (k : Nat) :
    falseCount (m.set k true) ≤ falseCount m := by
  unfold falseCount
  by_cases h : k ∈ m.keys
  · rw [keys_set_of_mem _ h]
    apply List.Sublist.length_le
    apply List.monotone_filter_right
    intro x
    simp only [val_set]
    by_cases hx : x = k <;> simp [hx]
  · have hk : (m.set k true).keys = m.keys ++ [k] := by simp [BoolMap.set, h]
    rw [hk, List.filter_append]
    have h1 : List.filter (fun x => !(m.set k true).val x) [k] = [] := by
      simp [val_set]
    have h2 : List.filter (fun x => !(m.set k true).val x) m.keys
        = List.filter (fun x => !m.val x) m.keys := by
      apply List.filter_congr
      intro x hx
      have : x ≠ k := fun e => h (e ▸ hx)
      simp [val_set, this]
    rw [h1, h2]
    simp

theorem falseCount_set_true_lt (m : BoolMap) (k : Nat) (hk : k ∈ m.keys)
    (hv : m.val k = false) : falseCount (m.set k true) + 1 ≤ falseCount m := by
  unfold falseCount
  rw [keys_set_of_mem _ hk]
  have h1 : List.filter (fun x => !(m.set k true).val x) m.keys
      = remove (List.filter (fun x => !m.val x) m.keys) k := by
    unfold remove
    rw [List.filter_filter]
    apply List.filter_congr
    intro x _
    by_cases hx : x = k <;> simp [val_set, hx]
  rw [h1]
  have h2 := length_remove k (List.filter (fun x => !m.val x) m.keys)
  have h3 : 0 < (List.filter (fun x => !m.val x) m.keys).count k := by
    rw [List.count_pos_iff]
    simp [List.mem_filter, hk, hv]
  omega

/-! ## Auxiliary lemmas: the traversal of `check_contiguity` -/

theorem check_contiguity_init_spec (leaver : Nat) (ids : List Nat) (marks : BoolMap)
    (q : List Nat) :
    (∀ x, x ∈ (check_contiguity_init leaver ids marks q).1.keys
        ↔ x ∈ marks.keys ∨ x ∈ remove ids leaver)
    ∧ (q ≠ [] → (check_contiguity_init leaver ids marks q).2 = q)
    ∧ (q = [] → (check_contiguity_init leaver ids marks q).2 = (remove ids leaver).take 1)
    ∧ ((∀ x, marks.val x = true → x ∈ q) →
        ∀ x, (check_contiguity_init leaver ids marks q).1.val x = true
          → x ∈ (check_contiguity_init leaver ids marks q).2)
    ∧ ((check_contiguity_init leaver ids marks q).1.keys.length
        ≤ marks.keys.length + ids.length) := by
  induction ids generalizing marks q with
  | nil => simp [check_contiguity_init, remove]
  | cons id ids ih =>
    by_cases hid : id = leaver
    · subst hid
      simp only [check_contiguity_init, ne_eq, not_true_eq_false, if_false, remove_cons_self]
      obtain ⟨h1, h2, h3, h4, h5⟩ := ih marks q
      refine ⟨h1, h2, h3, h4, ?_⟩
      simp only [List.length_cons]
      omega
    · rw [remove_cons_ne _ hid]
      cases q with
      | nil =>
        simp only [check_contiguity_init, ne_eq, hid, not_false_eq_true, if_true,
          List.isEmpty_nil, List.nil_append]
        obtain ⟨h1, h2, h3, h4, h5⟩ := ih ((marks.set id false).set id true) [id]
        refine ⟨?_, ?_, ?_, ?_, ?_⟩
        · intro x
          rw [h1, mem_keys_set, mem_keys_set]
          simp only [List.mem_cons]
          tauto
        · intro h
          simp at h
        · intro _
          rw [h2 (by simp)]
          simp
        · intro hq x hx
          apply h4 _ x hx
          intro y hy
          simp only [val_set] at hy
          by_cases hy' : y = id
          · simp [hy']
          · simp only [hy', if_false] at hy
            exact absurd (hq y hy) (by simp)
        · have := length_keys_set_le (marks.set id false) id true
          have h6 : ((marks.set id false).set id true).keys = (marks.set id false).keys :=
            keys_set_of_mem _ (mem_keys_set.mpr (Or.inr rfl))
          have := length_keys_set_le marks id false
          rw [h6] at h5
          simp only [List.length_cons]
          omega
      | cons a q =>
        simp only [check_contiguity_init, ne_eq, hid, not_false_eq_true, if_true,
          List.isEmpty_cons, Bool.false_eq_true, if_false]
        obtain ⟨h1, h2, h3, h4, h5⟩ := ih (marks.set id false) (a :: q)
        refine ⟨?_, ?_, ?_, ?_, ?_⟩
        · intro x
          rw [h1, mem_keys_set]
          simp only [List.mem_cons]
          tauto
        · intro _
          exact h2 (by simp)
        · intro h
          simp at h
        · intro hq x hx
          apply h4 _ x hx
          intro y hy
          simp only [val_set] at hy
          by_cases hy' : y = id
          · simp [hy'] at hy
          · simp only [hy', if_false] at hy
            exact hq y hy
        · have := length_keys_set_le marks id false
          simp only [List.length_cons]
          omega

theorem Reach.step {w : Nat → List Nat} {S : List Nat} {a b c : Nat}
    (h : Reach w S a b) (hc : c ∈ w b) (hS : c ∈ S) : Reach w S a c :=
  Relation.ReflTransGen.tail h ⟨hc, hS⟩

theorem Reach.trans {w : Nat → List Nat} {S : List Nat} {a b c : Nat}
    (h : Reach w S a b) (h2 : Reach w S b c) : Reach w S a c :=
  Relation.ReflTransGen.trans h h2

theorem check_contiguity_nbrs_spec (w : Nat → List Nat) (K : List Nat) (first node : Nat)
    (hnode : Reach w K first node) (l : List Nat) (hl : ∀ y ∈ l, y ∈ w node)
    (marks : BoolMap) (q : List Nat)
    (hk : ∀ x, x ∈ marks.keys ↔ x ∈ K)
    (hs : ∀ x, (marks.val x = true ∨ x ∈ q) → x ∈ K ∧ Reach w K first x)
    (hc : ∀ x, marks.val x = true → x ∉ q → x ≠ node →
      ∀ y ∈ w x, y ∈ K → (marks.val y = true ∨ y ∈ q))
    (hf : marks.val first = true ∨ first ∈ q) :
    (∀ x, x ∈ (check_contiguity_nbrs l marks q).1.keys ↔ x ∈ K)
    ∧ (∀ x, ((check_contiguity_nbrs l marks q).1.val x = true
          ∨ x ∈ (check_contiguity_nbrs l marks q).2) → x ∈ K ∧ Reach w K first x)
    ∧ (∀ x, (check_contiguity_nbrs l marks q).1.val x = true
          → x ∉ (check_contiguity_nbrs l marks q).2 → x ≠ node →
          ∀ y ∈ w x, y ∈ K → ((check_contiguity_nbrs l marks q).1.val y = true
            ∨ y ∈ (check_contiguity_nbrs l marks q).2))
    ∧ ((check_contiguity_nbrs l marks q).1.val first = true
          ∨ first ∈ (check_contiguity_nbrs l marks q).2)
    ∧ (∀ x, marks.val x = true → (check_contiguity_nbrs l marks q).1.val x = true)
    ∧ (∀ y ∈ l, y ∈ K → (check_contiguity_nbrs l marks q).1.val y = true)
    ∧ ((check_contiguity_nbrs l marks q).2.length
          + falseCount (check_contiguity_nbrs l marks q).1 ≤ q.length + falseCount marks) := by
  induction l generalizing marks q with
  | nil =>
    simp only [check_contiguity_nbrs]
    exact ⟨hk, hs, hc, hf, fun _ h => h, by simp, le_refl _⟩
  | cons nbr rest ih =>
    have hrest : ∀ y ∈ rest, y ∈ w node := fun y hy => hl y (List.mem_cons_of_mem _ hy)
    by_cases hmem : nbr ∈ marks.keys
    · by_cases hval : marks.val nbr = false
      · simp only [check_contiguity_nbrs, BoolMap.mem, hmem, decide_True, if_true, hval]
        have hnK : nbr ∈ K := (hk nbr).mp hmem
        have hk1 : ∀ x, x ∈ (marks.set nbr true).keys ↔ x ∈ K := by
          intro x
          rw [keys_set_of_mem _ hmem]
          exact hk x
        have hs1 : ∀ x, ((marks.set nbr true).val x = true ∨ x ∈ q ++ [nbr])
            → x ∈ K ∧ Reach w K first x := by
          intro x hx
          by_cases hxn : x = nbr
          · subst hxn
            exact ⟨hnK, hnode.step (hl _ (List.mem_cons_self _ _)) hnK⟩
          · apply hs
            rcases hx with hx | hx
            · left
              simpa [val_set, hxn] using hx
            · right
              simpa [hxn] using hx
        have hc1 : ∀ x, (marks.set nbr true).val x = true → x ∉ q ++ [nbr] → x ≠ node →
            ∀ y ∈ w x, y ∈ K → ((marks.set nbr true).val y = true ∨ y ∈ q ++ [nbr]) := by
          intro x hx hxq hxnode y hy hyK
          have hxn : x ≠ nbr := fun e => hxq (by simp [e])
          have hx0 : marks.val x = true := by simpa [val_set, hxn] using hx
          have hxq0 : x ∉ q := fun e => hxq (by simp [e])
          rcases hc x hx0 hxq0 hxnode y hy hyK with h | h
          · left
            simp only [val_set]
            split
            · rfl
            · exact h
          · right
            simp [h]
        have hf1 : (marks.set nbr true).val first = true ∨ first ∈ q ++ [nbr] := by
          rcases hf with h | h
          · left
            simp only [val_set]
            split
            · rfl
            · exact h
          · right
            simp [h]
        obtain ⟨r1, r2, r3, r4, r5, r6, r7⟩ := ih hrest (marks.set nbr true) (q ++ [nbr])
          hk1 hs1 hc1 hf1
        refine ⟨r1, r2, r3, r4, ?_, ?_, ?_⟩
        · intro x hx
          apply r5
          simp only [val_set]
          split
          · rfl
          · exact hx
        · intro y hy hyK
          rcases List.mem_cons.mp hy with rfl | hy
          · apply r5
            simp [val_set]
          · exact r6 y hy hyK
        · have := falseCount_set_true_lt marks nbr hmem hval
          simp only [List.length_append, List.length_singleton] at r7
          omega
      · have hval1 : marks.val nbr = true := by simpa using hval
        simp only [check_contiguity_nbrs, BoolMap.mem, hmem, decide_True, if_true, hval1,
          Bool.true_eq_false, if_false]
        obtain ⟨r1, r2, r3, r4, r5, r6, r7⟩ := ih hrest marks q hk hs hc hf
        refine ⟨r1, r2, r3, r4, r5, ?_, r7⟩
        intro y hy hyK
        rcases List.mem_cons.mp hy with rfl | hy
        · exact r5 _ hval1
        · exact r6 y hy hyK
    · simp only [check_contiguity_nbrs, BoolMap.mem, hmem, decide_False, Bool.false_eq_true,
        if_false]
      obtain ⟨r1, r2, r3, r4, r5, r6, r7⟩ := ih hrest marks q hk hs hc hf
      refine ⟨r1, r2, r3, r4, r5, ?_, r7⟩
      intro y hy hyK
      rcases List.mem_cons.mp hy with rfl | hy
      · exact absurd ((hk _).mpr hyK) hmem
      · exact r6 y hy hyK

theorem check_contiguity_loop_spec (w : Nat → List Nat) (K : List Nat) (first : Nat)
    (fuel : Nat) (marks : BoolMap) (q : List Nat) (hinv : BfsInv w K first marks q)
    (hfuel : q.length + falseCount marks ≤ fuel) :
    ∃ marksF, check_contiguity_loop w fuel marks q = some marksF
      ∧ BfsInv w K first marksF [] := by
  induction fuel generalizing marks q with
  | zero =>
    cases q with
    | nil => exact ⟨marks, by simp [check_contiguity_loop], hinv⟩
    | cons a q => simp at hfuel
  | succ fuel ih =>
    cases q with
    | nil => exact ⟨marks, by simp [check_contiguity_loop], hinv⟩
    | cons node rest =>
      obtain ⟨hk, hs, hc, hf⟩ := hinv
      have hnode := hs node (Or.inr (List.mem_cons_self _ _))
      have hmem : node ∈ marks.keys := (hk node).mpr hnode.1
      have hk0 : ∀ x, x ∈ (marks.set node true).keys ↔ x ∈ K := by
        intro x
        rw [keys_set_of_mem _ hmem]
        exact hk x
      have hs0 : ∀ x, ((marks.set node true).val x = true ∨ x ∈ rest)
          → x ∈ K ∧ Reach w K first x := by
        intro x hx
        by_cases hxn : x = node
        · subst hxn
          exact hnode
        · apply hs
          rcases hx with hx | hx
          · left
            simpa [val_set, hxn] using hx
          · right
            exact List.mem_cons_of_mem _ hx
      have hc0 : ∀ x, (marks.set node true).val x = true → x ∉ rest → x ≠ node →
          ∀ y ∈ w x, y ∈ K → ((marks.set node true).val y = true ∨ y ∈ rest) := by
        intro x hx hxq hxnode y hy hyK
        have hx0 : marks.val x = true := by simpa [val_set, hxnode] using hx
        have hxq0 : x ∉ node :: rest := by simp [hxnode, hxq]
        by_cases hyn : y = node
        · left
          simp [val_set, hyn]
        · rcases hc x hx0 hxq0 y hy hyK with h | h
          · left
            simp [val_set, hyn, h]
          · right
            simpa [hyn] using h
      have hf0 : (marks.set node true).val first = true ∨ first ∈ rest := by
        by_cases hfn : first = node
        · left
          simp [val_set, hfn]
        · rcases hf with h | h
          · left
            simp [val_set, hfn, h]
          · right
            simpa [hfn] using h
      obtain ⟨r1, r2, r3, r4, r5, r6, r7⟩ := check_contiguity_nbrs_spec w K first node hnode.2
        (w node) (fun _ h => h) (marks.set node true) rest hk0 hs0 hc0 hf0
      have hle := falseCount_set_true_le marks node
      simp only [List.length_cons] at hfuel
      simp only [check_contiguity_loop]
      apply ih
      · refine ⟨r1, r2, ?_, r4⟩
        intro x hx hxq y hy hyK
        by_cases hxn : x = node
        · subst hxn
          exact Or.inl (r6 y hy hyK)
        · exact r3 x hx hxq hxn y hy hyK
      · omega

theorem falseCount_le_length (m : BoolMap) : falseCount m ≤ m.keys.length :=
  List.length_filter_le _ _

theorem order_all_iff {order : List Nat → List Nat} (hord : OrderOk order) (l : List Nat)
    (p : Nat → Bool) : (order l).all p = true ↔ ∀ x ∈ l, p x = true := by
  rw [List.all_eq_true]
  constructor
  · intro h x hx
    exact h x ((hord l).mem_iff.mpr hx)
  · intro h x hx
    exact h x ((hord l).mem_iff.mp hx)

theorem mem_order_iff {order : List Nat → List Nat} (hord : OrderOk order) (l : List Nat)
    (x : Nat) : x ∈ order l ↔ x ∈ l :=
  (hord l).mem_iff

theorem check_contiguity_of_nil (mp : Maxp) (hord : OrderOk mp.order) (w : Nat → List Nat)
    (ids : List Nat) (leaver : Nat) (hR : remove ids leaver = []) :
    mp.check_contiguity w ids leaver = true := by
  obtain ⟨h1, _, h3, _, _⟩ := check_contiguity_init_spec leaver ids BoolMap.empty []
  unfold check_contiguity
  rcases hinit : check_contiguity_init leaver ids BoolMap.empty [] with ⟨marks, q⟩
  rw [hinit] at h1 h3
  have hq : q = [] := by simpa [hR] using h3 (by simp)
  subst hq
  cases hfu : ids.length + 1 with
  | zero => omega
  | succ f =>
    simp only [check_contiguity_loop]
    rw [order_all_iff hord]
    intro x hx
    have := (h1 x).mp hx
    simp [hR, BoolMap.empty] at this

theorem check_contiguity_iff_reach (mp : Maxp) (hord : OrderOk mp.order) (w : Nat → List Nat)
    (ids : List Nat) (leaver first : Nat) (rest : List Nat)
    (hR : remove ids leaver = first :: rest) :
    mp.check_contiguity w ids leaver = true
      ↔ ∀ x ∈ remove ids leaver, Reach w (remove ids leaver) first x := by
  obtain ⟨h1, _, h3, h4, h5⟩ := check_contiguity_init_spec leaver ids BoolMap.empty []
  unfold check_contiguity
  rcases hinit : check_contiguity_init leaver ids BoolMap.empty [] with ⟨marks, q⟩
  rw [hinit] at h1 h3 h4 h5
  simp only at h1 h3 h4 h5 ⊢
  have hq : q = [first] := by simpa [hR] using h3 (by simp)
  subst hq
  have hkeys : ∀ x, x ∈ marks.keys ↔ x ∈ remove ids leaver := by
    intro x
    rw [h1]
    simp [BoolMap.empty]
  have hval : ∀ x, marks.val x = true → x ∈ [first] := h4 (by simp [BoolMap.empty])
  have hfR : first ∈ remove ids leaver := by simp [hR]
  have hinv : BfsInv w (remove ids leaver) first marks [first] := by
    refine ⟨hkeys, ?_, ?_, Or.inr (by simp)⟩
    · intro x hx
      have : x = first := by
        rcases hx with hx | hx
        · simpa using hval x hx
        · simpa using hx
      subst this
      exact ⟨hfR, Relation.ReflTransGen.refl⟩
    · intro x hx hxq
      exact absurd (hval x hx) hxq
  have hfuel : [first].length + falseCount marks ≤ ids.length + 1 := by
    have := falseCount_le_length marks
    simp only [BoolMap.empty, List.length_nil, zero_add] at h5
    simp only [List.length_singleton]
    omega
  obtain ⟨marksF, hloop, hk, hs, hc, hf⟩ :=
    check_contiguity_loop_spec w (remove ids leaver) first (ids.length + 1) marks [first]
      hinv hfuel
  rw [hloop]
  simp only
  rw [order_all_iff hord]
  constructor
  · intro h x hx
    exact (hs x (Or.inl (h x ((hk x).mpr hx)))).2
  · intro h x hx
    have hx' := h x ((hk x).mp hx)
    have hfirst : marksF.val first = true := by simpa using hf
    clear hx
    induction hx' with
    | refl => exact hfirst
    | tail _ hedge ih => exact (hc _ ih (by simp) _ hedge.1 hedge.2).resolve_right (by simp)

theorem Reach.symm {w : Nat → List Nat} (hsym : Symmetric w) {S : List Nat} {a b : Nat}
    (ha : a ∈ S) (h : Reach w S a b) : Reach w S b a := by
  induction h with
  | refl => exact Relation.ReflTransGen.refl
  | @tail c d hac hcd ih =>
    have hc : c ∈ S := by
      cases hac with
      | refl => exact ha
      | tail _ h => exact h.2
    exact Relation.ReflTransGen.head ⟨hsym _ _ hcd.1, hc⟩ ih

theorem connected_iff_reach_first {w : Nat → List Nat} (hsym : Symmetric w) (first : Nat)
    (rest : List Nat) :
    Connected w (first :: rest) ↔ ∀ x ∈ first :: rest, Reach w (first :: rest) first x := by
  constructor
  · intro h x hx
    exact h first (List.mem_cons_self _ _) x hx
  · intro h a ha b hb
    exact ((h a ha).symm hsym (List.mem_cons_self _ _)).trans (h b hb)

theorem connected_nil (w : Nat → List Nat) : Connected w [] := by
  intro a ha
  simp at ha

theorem check_contiguity_iff_connected (mp : Maxp) (hord : OrderOk mp.order)
    (w : Nat → List Nat) (hsym : Symmetric w) (ids : List Nat) (leaver : Nat) :
    mp.check_contiguity w ids leaver = true ↔ Connected w (remove ids leaver) := by
  cases hR : remove ids leaver with
  | nil =>
    simp only [check_contiguity_of_nil mp hord w ids leaver hR, true_iff]
    exact connected_nil w
  | cons first rest =>
    rw [check_contiguity_iff_reach mp hord w ids leaver first rest hR, hR]
    exact (connected_iff_reach_first hsym first rest).symm

theorem pathGraph_symmetric (n : Nat) : Symmetric (pathGraph n) := by
  intro i j h
  unfold pathGraph at h ⊢
  by_cases hi : i < n
  · simp only [hi, if_true, List.mem_append] at h
    have hj : j < n := by
      rcases h with h | h
      · by_cases h0 : i = 0
        · simp [h0] at h
        · simp [h0] at h
          omega
      · by_cases h1 : i + 1 < n
        · simp [h1] at h
          omega
        · simp [h1] at h
    simp only [hj, if_true, List.mem_append]
    rcases h with h | h
    · by_cases h0 : i = 0
      · simp [h0] at h
      · simp [h0] at h
        right
        have : j + 1 < n := by omega
        simp [this]
        omega
    · by_cases h1 : i + 1 < n
      · simp [h1] at h
        left
        have : j ≠ 0 := by omega
        simp [this]
        omega
      · simp [h1] at h
  · simp [hi] at h

theorem orderOk_id : OrderOk id := fun l => List.Perm.refl l

/-! ## C10: the contiguity check -/

/-- C10: for a symmetric contiguity graph `w`, a region `ids` and a `leaver` such that
`ids \ {leaver}` is non-empty, `check_contiguity(w, ids, leaver)` returns true exactly
when the subgraph induced on `ids \ {leaver}` is connected, that is, exactly when every
remaining member is reachable from the first remaining member by a path inside
`ids \ {leaver}`. -/
theorem check_contiguity_spec (mp : Maxp) (hord : OrderOk mp.order) (w : Nat → List Nat)
    (hsym : Symmetric w) (ids : List Nat) (leaver : Nat) (hne : remove ids leaver ≠ []) :
    (mp.check_contiguity w ids leaver = true ↔ Connected w (remove ids leaver))
    ∧ (mp.check_contiguity w ids leaver = true
        ↔ ∀ x ∈ remove ids leaver,
            Reach w (remove ids leaver) ((remove ids leaver).head hne) x) := by
  refine ⟨check_contiguity_iff_connected mp hord w hsym ids leaver, ?_⟩
  obtain ⟨first, rest, hR⟩ := List.exists_cons_of_ne_nil hne
  have hh : (remove ids leaver).head hne = first := by simp [hR]
  rw [hh]
  exact check_contiguity_iff_reach mp hord w ids leaver first rest hR

/-- Witness for C10: the path `0 – 1 – 2 – 3`, region `{0, 1, 2, 3}`, leaver `3`. -/
theorem check_contiguity_spec_witness :
    OrderOk scenario5.order ∧ Symmetric (pathGraph 4) ∧ remove [0, 1, 2, 3] 3 ≠ []
    ∧ (scenario5.check_contiguity (pathGraph 4) [0, 1, 2, 3] 3 = true
        ↔ Connected (pathGraph 4) (remove [0, 1, 2, 3] 3)) :=
  ⟨orderOk_id, pathGraph_symmetric 4, by decide,
    (check_contiguity_spec scenario5 orderOk_id (pathGraph 4) (pathGraph_symmetric 4)
      [0, 1, 2, 3] 3 (by decide)).1⟩


/-! ## Auxiliary lemmas: lists of regions -/

theorem getD_set_regions (l : List (List Nat)) (i j : Nat) (v : List Nat) :
    (l.set i v).getD j [] = if i = j ∧ i < l.length then v else l.getD j [] := by
  simp only [List.getD_eq_getElem?_getD, List.getElem?_set]
  by_cases hij : i = j
  · by_cases hi : i < l.length
    · subst hij
      simp [hi]
    · subst hij
      simp [hi]
      simp at hi
      simp [List.getElem?_eq_none hi]
  · simp [hij]

theorem getD_mem_regions {l : List (List Nat)} {i : Nat} (h : i < l.length) :
    l.getD i [] ∈ l := by
  rw [List.getD_eq_getElem?_getD, List.getElem?_eq_getElem h]
  exact List.getElem_mem h

theorem exists_getD_of_mem {l : List (List Nat)} {r : List Nat} (h : r ∈ l) :
    ∃ i, i < l.length ∧ l.getD i [] = r := by
  obtain ⟨i, hi, rfl⟩ := List.mem_iff_getElem.mp h
  exact ⟨i, hi, by rw [List.getD_eq_getElem?_getD, List.getElem?_eq_getElem hi]; rfl⟩

theorem sum_map_set {M : Type} [AddCommMonoid M] (f : List Nat → M) (l : List (List Nat))
    (i : Nat) (v : List Nat) (h : i < l.length) :
    ((l.set i v).map f).sum + f (l.getD i []) = (l.map f).sum + f v := by
  induction l generalizing i with
  | nil => simp at h
  | cons x xs ih =>
    cases i with
    | zero =>
      simp only [List.set_cons_zero, List.map_cons, List.sum_cons, List.getD_cons_zero]
      abel
    | succ i =>
      simp only [List.set_cons_succ, List.map_cons, List.sum_cons, List.getD_cons_succ]
      rw [add_assoc, ih i (by simpa using h), add_assoc]

theorem mem_of_mem_set {l : List (List Nat)} {i : Nat} {v r : List Nat}
    (h : r ∈ l.set i v) : r = v ∨ r ∈ l := by
  induction l generalizing i with
  | nil => simp at h
  | cons x xs ih =>
    cases i with
    | zero =>
      simp only [List.set_cons_zero, List.mem_cons] at h
      rcases h with h | h
      · exact Or.inl h
      · exact Or.inr (List.mem_cons_of_mem _ h)
    | succ i =>
      simp only [List.set_cons_succ, List.mem_cons] at h
      rcases h with h | h
      · exact Or.inr (h ▸ List.mem_cons_self _ _)
      · rcases ih h with h | h
        · exact Or.inl h
        · exact Or.inr (List.mem_cons_of_mem _ h)

theorem count_le_sum_count (a : Nat) (l : List (List Nat)) (i : Nat) :
    (l.getD i []).count a ≤ (l.map (List.count a)).sum := by
  induction l generalizing i with
  | nil => simp
  | cons x xs ih =>
    cases i with
    | zero => simp
    | succ i =>
      simp only [List.getD_cons_succ, List.map_cons, List.sum_cons]
      have := ih i
      omega

theorem I1_count {n : Nat} {regions : List (List Nat)} (h : I1 n regions) {a : Nat}
    (ha : a < n) : (regions.map (List.count a)).sum = 1 := by
  have h1 := h.count_eq a
  rw [List.count_flatten] at h1
  rw [h1]
  exact List.count_eq_one_of_mem (List.nodup_range n) (List.mem_range.mpr ha)

theorem I1_mem_lt {n : Nat} {regions : List (List Nat)} (h : I1 n regions) {r : List Nat}
    (hr : r ∈ regions) {a : Nat} (ha : a ∈ r) : a < n := by
  have : a ∈ regions.flatten := List.mem_flatten.mpr ⟨r, hr, ha⟩
  exact List.mem_range.mp (h.mem_iff.mp this)

/-- Under I1 and I4 every area lies exactly once in the region `a2r` names. -/
theorem area_region {n : Nat} {regions : List (List Nat)} {a2r : Nat → Nat}
    (h1 : I1 n regions) (h4 : I4 n regions a2r) {a : Nat} (ha : a < n) :
    a2r a < regions.length ∧ a ∈ regions.getD (a2r a) []
      ∧ (regions.getD (a2r a) []).count a = 1 := by
  have hmem : a ∈ regions.flatten := h1.mem_iff.mpr (List.mem_range.mpr ha)
  obtain ⟨r, hr, har⟩ := List.mem_flatten.mp hmem
  obtain ⟨i, hi, rfl⟩ := exists_getD_of_mem hr
  have hi4 := (h4 a ha i hi).mpr har
  rw [hi4]
  refine ⟨hi, har, ?_⟩
  have hle := count_le_sum_count a regions i
  rw [I1_count h1 ha] at hle
  have hpos : 0 < (regions.getD i []).count a := List.count_pos_iff.mpr har
  omega

/-! ## Auxiliary lemmas: the steps of `swap` -/

theorem mem_foldl_set_true (region : List Nat) (d : BoolMap) (x : Nat) :
    x ∈ (region.foldl (fun d member => d.set member true) d).keys
      ↔ x ∈ d.keys ∨ x ∈ region := by
  induction region generalizing d with
  | nil => simp
  | cons m ms ih =>
    simp only [List.foldl_cons, ih, mem_keys_set, List.mem_cons]
    tauto

theorem mem_swap_member_dict (region : List Nat) (x : Nat) :
    x ∈ (swap_member_dict region).keys ↔ x ∈ region := by
  unfold swap_member_dict
  rw [mem_foldl_set_true]
  simp [BoolMap.empty]

theorem mem_foldl_neighbors_inner (md : BoolMap) (l : List Nat) (nd : BoolMap) (x : Nat) :
    x ∈ (l.foldl (fun nd cand => if md.mem cand = false then nd.set cand true else nd) nd).keys
      ↔ x ∈ nd.keys ∨ (x ∈ l ∧ x ∉ md.keys) := by
  induction l generalizing nd with
  | nil => simp
  | cons c cs ih =>
    simp only [List.foldl_cons, ih, List.mem_cons]
    by_cases hc : c ∈ md.keys
    · simp only [BoolMap.mem, hc, decide_True, Bool.true_eq_false, if_false]
      constructor
      · rintro (h | ⟨h1, h2⟩)
        · exact Or.inl h
        · exact Or.inr ⟨Or.inr h1, h2⟩
      · rintro (h | ⟨h1 | h1, h2⟩)
        · exact Or.inl h
        · exact absurd (h1 ▸ hc) h2
        · exact Or.inr ⟨h1, h2⟩
    · simp only [BoolMap.mem, hc, decide_False, if_true, mem_keys_set]
      constructor
      · rintro ((h | h) | ⟨h1, h2⟩)
        · exact Or.inl h
        · exact Or.inr ⟨Or.inl h, h ▸ hc⟩
        · exact Or.inr ⟨Or.inr h1, h2⟩
      · rintro (h | ⟨h1 | h1, h2⟩)
        · exact Or.inl (Or.inl h)
        · exact Or.inl (Or.inr h1)
        · exact Or.inr ⟨h1, h2⟩

theorem mem_foldl_neighbors_outer (w : Nat → List Nat) (md : BoolMap) (region : List Nat)
    (nd : BoolMap) (x : Nat) :
    x ∈ (region.foldl
        (fun nd member => (w member).foldl
          (fun nd cand => if md.mem cand = false then nd.set cand true else nd) nd) nd).keys
      ↔ x ∈ nd.keys ∨ ((∃ member ∈ region, x ∈ w member) ∧ x ∉ md.keys) := by
  induction region generalizing nd with
  | nil => simp
  | cons m ms ih =>
    simp only [List.foldl_cons, ih, mem_foldl_neighbors_inner, List.mem_cons]
    constructor
    · rintro ((h | ⟨h1, h2⟩) | ⟨⟨m', hm', hx⟩, h2⟩)
      · exact Or.inl h
      · exact Or.inr ⟨⟨m, Or.inl rfl, h1⟩, h2⟩
      · exact Or.inr ⟨⟨m', Or.inr hm', hx⟩, h2⟩
    · rintro (h | ⟨⟨m', hm' | hm', hx⟩, h2⟩)
      · exact Or.inl (Or.inl h)
      · exact Or.inl (Or.inr ⟨hm' ▸ hx, h2⟩)
      · exact Or.inr ⟨⟨m', hm', hx⟩, h2⟩

theorem mem_swap_neighbors_dict (w : Nat → List Nat) (region : List Nat) (x : Nat) :
    x ∈ (swap_neighbors_dict w (swap_member_dict region) region).keys
      ↔ (∃ member ∈ region, x ∈ w member) ∧ x ∉ region := by
  unfold swap_neighbors_dict
  rw [mem_foldl_neighbors_outer, mem_swap_member_dict]
  simp [BoolMap.empty]

theorem mem_swap_candidates (mp : Maxp) (hord : OrderOk mp.order) (regions : List (List Nat))
    (a2r : Nat → Nat) (seed area : Nat) :
    area ∈ mp.swap_candidates regions a2r
        (swap_neighbors_dict mp.w (swap_member_dict (regions.getD seed []))
          (regions.getD seed []))
      ↔ IsCandidate mp regions a2r seed area := by
  unfold swap_candidates IsCandidate
  rw [List.mem_filter, mem_order_iff hord, mem_swap_neighbors_dict]
  simp only [Bool.and_eq_true]
  tauto

theorem swap_best_spec (mp : Maxp) (regions : List (List Nat)) (a2r : Nat → Nat)
    (seed : Nat) (candidates : List Nat) :
    (mp.swap_best regions a2r seed candidates).1 ≤ 0
    ∧ ((mp.swap_best regions a2r seed candidates).2.2 = true →
        (mp.swap_best regions a2r seed candidates).2.1 ∈ candidates
        ∧ (mp.swap_best regions a2r seed candidates).1
          = mp.objective_function_change (mp.swap_best regions a2r seed candidates).2.1
              (regions.getD seed [])
              (regions.getD (a2r (mp.swap_best regions a2r seed candidates).2.1) [])) := by
  unfold swap_best
  have key : ∀ (l : List Nat) (acc : ℚ × Nat × Bool) (seen : List Nat),
      acc.1 ≤ 0 →
      (acc.2.2 = true → acc.2.1 ∈ seen ∧ acc.1 = mp.objective_function_change acc.2.1
          (regions.getD seed []) (regions.getD (a2r acc.2.1) [])) →
      (l.foldl (fun acc area =>
          if mp.objective_function_change area (regions.getD seed [])
              (regions.getD (a2r area) []) ≤ acc.1
          then (mp.objective_function_change area (regions.getD seed [])
              (regions.getD (a2r area) []), area, true) else acc) acc).1 ≤ 0
      ∧ ((l.foldl (fun acc area =>
          if mp.objective_function_change area (regions.getD seed [])
              (regions.getD (a2r area) []) ≤ acc.1
          then (mp.objective_function_change area (regions.getD seed [])
              (regions.getD (a2r area) []), area, true) else acc) acc).2.2 = true →
        (l.foldl (fun acc area =>
          if mp.objective_function_change area (regions.getD seed [])
              (regions.getD (a2r area) []) ≤ acc.1
          then (mp.objective_function_change area (regions.getD seed [])
              (regions.getD (a2r area) []), area, true) else acc) acc).2.1 ∈ seen ++ l
        ∧ (l.foldl (fun acc area =>
          if mp.objective_function_change area (regions.getD seed [])
              (regions.getD (a2r area) []) ≤ acc.1
          then (mp.objective_function_change area (regions.getD seed [])
              (regions.getD (a2r area) []), area, true) else acc) acc).1
          = mp.objective_function_change (l.foldl (fun acc area =>
          if mp.objective_function_change area (regions.getD seed [])
              (regions.getD (a2r area) []) ≤ acc.1
          then (mp.objective_function_change area (regions.getD seed [])
              (regions.getD (a2r area) []), area, true) else acc) acc).2.1
            (regions.getD seed [])
            (regions.getD (a2r (l.foldl (fun acc area =>
          if mp.objective_function_change area (regions.getD seed [])
              (regions.getD (a2r area) []) ≤ acc.1
          then (mp.objective_function_change area (regions.getD seed [])
              (regions.getD (a2r area) []), area, true) else acc) acc).2.1) [])) := by
    intro l
    induction l with
    | nil =>
      intro acc seen h1 h2
      simp only [List.foldl_nil, List.append_nil]
      exact ⟨h1, h2⟩
    | cons a as ih =>
      intro acc seen h1 h2
      simp only [List.foldl_cons]
      have hseen : seen ++ a :: as = (seen ++ [a]) ++ as := by simp
      rw [hseen]
      by_cases hle : mp.objective_function_change a (regions.getD seed [])
          (regions.getD (a2r a) []) ≤ acc.1
      · simp only [hle, if_true]
        apply ih
        · exact le_trans hle h1
        · intro _
          exact ⟨by simp, rfl⟩
      · simp only [hle, if_false]
        apply ih _ _ h1
        intro h
        exact ⟨List.mem_append_left _ (h2 h).1, (h2 h).2⟩
  have := key candidates (0, 0, false) [] (le_refl _) (by simp)
  simp only [List.nil_append] at this
  exact this

theorem swap_seed_cases (mp : Maxp) (hord : OrderOk mp.order) (st : SwapState) (seed : Nat) :
    mp.swap_seed st seed = st
    ∨ ∃ area, IsCandidate mp st.init_regions st.init_area2region seed area
        ∧ mp.objective_function_change area (st.init_regions.getD seed [])
            (st.init_regions.getD (st.init_area2region area) []) ≤ 0
        ∧ mp.swap_seed st seed = swap_move st seed area := by
  unfold swap_seed
  simp only
  split
  · exact Or.inl rfl
  · split
    · rename_i hfound
      right
      obtain ⟨h1, h2⟩ := swap_best_spec mp st.init_regions st.init_area2region seed
        (mp.swap_candidates st.init_regions st.init_area2region
          (swap_neighbors_dict mp.w (swap_member_dict (st.init_regions.getD seed []))
            (st.init_regions.getD seed [])))
      obtain ⟨h3, h4⟩ := h2 hfound
      refine ⟨_, (mem_swap_candidates mp hord _ _ _ _).mp h3, ?_, rfl⟩
      rw [← h4]
      exact h1
    · exact Or.inl rfl

theorem candidate_facts (mp : Maxp) (n : Nat) (hw : GraphOn n mp.w)
    (regions : List (List Nat)) (a2r : Nat → Nat) (h1 : I1 n regions) (h4 : I4 n regions a2r)
    (seed : Nat) (hseed : seed < regions.length) (area : Nat)
    (hc : IsCandidate mp regions a2r seed area) :
    area < n ∧ a2r area < regions.length ∧ a2r area ≠ seed
      ∧ area ∈ regions.getD (a2r area) []
      ∧ (regions.getD (a2r area) []).count area = 1 := by
  obtain ⟨hnot, ⟨member, hmem, hadj⟩, _, _⟩ := hc
  have hm : member < n := I1_mem_lt h1 (getD_mem_regions hseed) hmem
  have ha : area < n := hw member hm area hadj
  obtain ⟨h5, h6, h7⟩ := area_region h1 h4 ha
  refine ⟨ha, h5, ?_, h6, h7⟩
  intro e
  rw [e] at h6
  exact hnot h6

theorem swap_move_length (st : SwapState) (seed area : Nat) :
    (swap_move st seed area).init_regions.length = st.init_regions.length := by
  simp [swap_move]

theorem swap_move_getD (st : SwapState) (seed area : Nat)
    (hne : st.init_area2region area ≠ seed)
    (hold : st.init_area2region area < st.init_regions.length)
    (hseed : seed < st.init_regions.length) (j : Nat) :
    (swap_move st seed area).init_regions.getD j []
      = if j = seed then st.init_regions.getD seed [] ++ [area]
        else if j = st.init_area2region area
          then remove (st.init_regions.getD (st.init_area2region area) []) area
        else st.init_regions.getD j [] := by
  simp only [swap_move, getD_set_regions, List.length_set]
  by_cases hj : j = seed
  · subst hj
    simp [hseed, hne]
  · have hj' : ¬ seed = j := fun e => hj e.symm
    simp only [hj, hj', false_and, if_false]
    by_cases hjo : j = st.init_area2region area
    · subst hjo
      simp [hold]
    · have hjo' : ¬ st.init_area2region area = j := fun e => hjo e.symm
      simp [hjo, hjo']

theorem swap_move_a2r (st : SwapState) (seed area x : Nat) :
    (swap_move st seed area).init_area2region x
      = if x = area then seed else st.init_area2region x := rfl

theorem sum_map_move {M : Type} [AddCommMonoid M] (f : List Nat → M) (st : SwapState)
    (seed area : Nat) (hne : st.init_area2region area ≠ seed)
    (hold : st.init_area2region area < st.init_regions.length)
    (hseed : seed < st.init_regions.length) :
    ((swap_move st seed area).init_regions.map f).sum
        + f (st.init_regions.getD (st.init_area2region area) [])
        + f (st.init_regions.getD seed [])
      = (st.init_regions.map f).sum
        + f (remove (st.init_regions.getD (st.init_area2region area) []) area)
        + f (st.init_regions.getD seed [] ++ [area]) := by
  simp only [swap_move]
  have ha := sum_map_set f (st.init_regions.set (st.init_area2region area)
      (remove (st.init_regions.getD (st.init_area2region area) []) area)) seed
      ((st.init_regions.set (st.init_area2region area)
        (remove (st.init_regions.getD (st.init_area2region area) []) area)).getD seed []
        ++ [area]) (by simpa using hseed)
  have hb := sum_map_set f st.init_regions (st.init_area2region area)
      (remove (st.init_regions.getD (st.init_area2region area) []) area) hold
  have hg : (st.init_regions.set (st.init_area2region area)
        (remove (st.init_regions.getD (st.init_area2region area) []) area)).getD seed []
      = st.init_regions.getD seed [] := by
    rw [getD_set_regions]
    simp [hne]
  rw [hg] at ha ⊢
  calc _ = ((List.map f ((st.init_regions.set (st.init_area2region area)
              (remove (st.init_regions.getD (st.init_area2region area) []) area)).set seed
              (st.init_regions.getD seed [] ++ [area]))).sum
            + f (st.init_regions.getD seed []))
            + f (st.init_regions.getD (st.init_area2region area) []) := by abel
    _ = _ := by rw [ha]; rw [add_right_comm, hb]

theorem swap_move_I1 (n : Nat) (st : SwapState) (seed area : Nat)
    (h1 : I1 n st.init_regions)
    (hne : st.init_area2region area ≠ seed)
    (hold : st.init_area2region area < st.init_regions.length)
    (hseed : seed < st.init_regions.length)
    (hcount : (st.init_regions.getD (st.init_area2region area) []).count area = 1) :
    I1 n (swap_move st seed area).init_regions := by
  unfold I1 at h1 ⊢
  refine List.Perm.trans ?_ h1
  rw [List.perm_iff_count]
  intro x
  rw [List.count_flatten, List.count_flatten]
  have h := sum_map_move (List.count x) st seed area hne hold hseed
  by_cases hx : x = area
  · subst hx
    rw [count_remove_self, hcount] at h
    simp only [List.count_append, List.count_singleton_self] at h
    omega
  · rw [count_remove_ne _ hx] at h
    have : List.count x [area] = 0 := by
      rw [List.count_eq_zero]
      simpa using hx
    simp only [List.count_append, this] at h
    omega

theorem swap_move_I4 (n : Nat) (st : SwapState) (seed area : Nat)
    (h4 : I4 n st.init_regions st.init_area2region) (harea : area < n)
    (hne : st.init_area2region area ≠ seed)
    (hold : st.init_area2region area < st.init_regions.length)
    (hseed : seed < st.init_regions.length) :
    I4 n (swap_move st seed area).init_regions (swap_move st seed area).init_area2region := by
  intro i hi r hr
  rw [swap_move_length] at hr
  rw [swap_move_getD st seed area hne hold hseed, swap_move_a2r]
  by_cases hia : i = area
  · subst hia
    simp only [if_true]
    by_cases hrs : r = seed
    · subst hrs
      simp
    · have hrs' : ¬ seed = r := fun e => hrs e.symm
      simp only [hrs, hrs', if_false, false_iff]
      by_cases hro : r = st.init_area2region i
      · simp only [hro, if_true]
        intro h
        exact (mem_remove.mp h).2 rfl
      · simp only [hro, if_false]
        intro h
        exact hro ((h4 i hi r hr).mpr h).symm
  · simp only [hia, if_false]
    by_cases hrs : r = seed
    · subst hrs
      simp only [if_true, List.mem_append, List.mem_singleton, hia, or_false]
      exact h4 i hi r hr
    · simp only [hrs, if_false]
      by_cases hro : r = st.init_area2region area
      · simp only [hro, if_true, mem_remove, ne_eq, hia, not_false_eq_true, and_true]
        rw [← hro]
        exact h4 i hi r hr
      · simp only [hro, if_false]
        exact h4 i hi r hr

/-! ## Auxiliary lemmas: lifting a step invariant to passes and to `swap` -/

theorem swap_regionIds_lt (nr : Nat) (changed : List Nat) :
    ∀ seed ∈ swap_regionIds nr changed, seed < nr := by
  intro seed h
  unfold swap_regionIds at h
  exact List.mem_range.mp (List.mem_filter.mp h).1

theorem foldl_swap_seed_induction (mp : Maxp) (nr : Nat) (Q : SwapState → Prop)
    (hstep : ∀ st seed, seed < nr → Q st → Q (mp.swap_seed st seed))
    (l : List Nat) (hl : ∀ seed ∈ l, seed < nr) (st : SwapState) (h : Q st) :
    Q (l.foldl mp.swap_seed st) := by
  induction l generalizing st with
  | nil => exact h
  | cons s ss ih =>
    simp only [List.foldl_cons]
    exact ih (fun x hx => hl x (List.mem_cons_of_mem _ hx)) _
      (hstep st s (hl s (List.mem_cons_self _ _)) h)

theorem swap_pass_induction (mp : Maxp) (nr : Nat) (Q : SwapState → Prop)
    (hreset : ∀ st c m, Q st → Q { st with changed_regions := c, moves_made := m })
    (hstep : ∀ st seed, seed < nr → Q st → Q (mp.swap_seed st seed))
    (st : SwapState) (h : Q st) : Q (mp.swap_pass nr st) := by
  unfold swap_pass
  exact foldl_swap_seed_induction mp nr Q hstep _ (swap_regionIds_lt nr _) _
    (hreset st _ _ h)

theorem swap_passes_induction (mp : Maxp) (nr : Nat) (Q : SwapState → Prop)
    (hreset : ∀ st c m, Q st → Q { st with changed_regions := c, moves_made := m })
    (hstep : ∀ st seed, seed < nr → Q st → Q (mp.swap_seed st seed))
    (k : Nat) (st : SwapState) (h : Q st) : Q (mp.swap_passes nr k st) := by
  induction k generalizing st with
  | zero => exact h
  | succ k ih =>
    simp only [swap_passes]
    exact ih _ (swap_pass_induction mp nr Q hreset hstep st h)

theorem swap_loop_eq_passes (mp : Maxp) (nr : Nat) (fuel : Nat) (st : SwapState)
    (it tot : Nat) (out : SwapResult) (h : mp.swap_loop nr fuel st it tot = some out) :
    ∃ k, out.regions = (mp.swap_passes nr (k + 1) st).init_regions
      ∧ out.area2region = (mp.swap_passes nr (k + 1) st).init_area2region
      ∧ (mp.swap_passes nr (k + 1) st).moves_made = 0 := by
  induction fuel generalizing st it tot with
  | zero => simp [swap_loop] at h
  | succ fuel ih =>
    simp only [swap_loop] at h
    split at h
    · rename_i hzero
      refine ⟨0, ?_, ?_, ?_⟩
      · simp only [Option.some.injEq] at h
        rw [← h]
        rfl
      · simp only [Option.some.injEq] at h
        rw [← h]
        rfl
      · exact hzero
    · obtain ⟨k, hk⟩ := ih _ _ _ h
      exact ⟨k + 1, hk⟩

theorem swap_result_induction (mp : Maxp) (Q : SwapState → Prop)
    (regions : List (List Nat)) (a2r : Nat → Nat)
    (hreset : ∀ st c m, Q st → Q { st with changed_regions := c, moves_made := m })
    (hstep : ∀ st seed, seed < regions.length → Q st → Q (mp.swap_seed st seed))
    (h : Q ⟨regions, a2r, List.replicate regions.length 1, 0⟩)
    (fuel : Nat) (out : SwapResult) (hout : mp.swap fuel regions a2r = some out) :
    ∃ st, Q st ∧ out.regions = st.init_regions ∧ out.area2region = st.init_area2region := by
  unfold swap at hout
  obtain ⟨k, h1, h2, _⟩ := swap_loop_eq_passes mp _ _ _ _ _ _ hout
  exact ⟨_, swap_passes_induction mp _ Q hreset hstep (k + 1) _ h, h1, h2⟩

theorem swap_seed_partition (mp : Maxp) (n : Nat) (hw : GraphOn n mp.w)
    (hord : OrderOk mp.order) (st : SwapState) (seed : Nat)
    (hseed : seed < st.init_regions.length) (h1 : I1 n st.init_regions)
    (h4 : I4 n st.init_regions st.init_area2region) :
    I1 n (mp.swap_seed st seed).init_regions
    ∧ I4 n (mp.swap_seed st seed).init_regions (mp.swap_seed st seed).init_area2region
    ∧ (mp.swap_seed st seed).init_regions.length = st.init_regions.length := by
  rcases swap_seed_cases mp hord st seed with h | ⟨area, hc, _, h⟩
  · rw [h]
    exact ⟨h1, h4, rfl⟩
  · rw [h]
    obtain ⟨ha, hold, hne, _, hcount⟩ :=
      candidate_facts mp n hw st.init_regions st.init_area2region h1 h4 seed hseed area hc
    exact ⟨swap_move_I1 n st seed area h1 hne hold hseed hcount,
      swap_move_I4 n st seed area h4 ha hne hold hseed, swap_move_length st seed area⟩

theorem pathGraph_graphOn (n : Nat) : GraphOn n (pathGraph n) := by
  intro i hi j hj
  unfold pathGraph at hj
  simp only [hi, if_true, List.mem_append] at hj
  rcases hj with h | h
  · by_cases h0 : i = 0
    · simp [h0] at h
    · simp [h0] at h
      omega
  · by_cases h1 : i + 1 < n
    · simp [h1] at h
      omega
    · simp [h1] at h

/-! ## C2: `swap` preserves the partition structure -/

/-- C2: on a partition satisfying I1 and I4, every pass of the body of `swap` for a seed
region either changes nothing or moves one area (it is removed from its donor region,
appended to the seed region, and `a2r[area]` is set to the seed region), and afterwards
I1 and I4 hold again with the same number of regions; hence they hold after any number of
passes of `swap` and for the partition `swap` returns. -/
theorem swap_preserves_partition (mp : Maxp) (n : Nat) (hw : GraphOn n mp.w)
    (hord : OrderOk mp.order) (regions : List (List Nat)) (a2r : Nat → Nat)
    (h1 : I1 n regions) (h4 : I4 n regions a2r) :
    (∀ st seed, seed < st.init_regions.length → I1 n st.init_regions →
        I4 n st.init_regions st.init_area2region →
        (mp.swap_seed st seed = st ∨ ∃ area, mp.swap_seed st seed = swap_move st seed area)
        ∧ I1 n (mp.swap_seed st seed).init_regions
        ∧ I4 n (mp.swap_seed st seed).init_regions (mp.swap_seed st seed).init_area2region
        ∧ (mp.swap_seed st seed).init_regions.length = st.init_regions.length)
    ∧ (∀ k,
        I1 n (mp.swap_passes regions.length k
          ⟨regions, a2r, List.replicate regions.length 1, 0⟩).init_regions
        ∧ I4 n (mp.swap_passes regions.length k
            ⟨regions, a2r, List.replicate regions.length 1, 0⟩).init_regions
          (mp.swap_passes regions.length k
            ⟨regions, a2r, List.replicate regions.length 1, 0⟩).init_area2region
        ∧ (mp.swap_passes regions.length k
            ⟨regions, a2r, List.replicate regions.length 1, 0⟩).init_regions.length
          = regions.length)
    ∧ (∀ fuel out, mp.swap fuel regions a2r = some out →
        I1 n out.regions ∧ I4 n out.regions out.area2region
        ∧ out.regions.length = regions.length) := by
  have hstep : ∀ st seed, seed < regions.length →
      (I1 n st.init_regions ∧ I4 n st.init_regions st.init_area2region
        ∧ st.init_regions.length = regions.length) →
      (I1 n (mp.swap_seed st seed).init_regions
        ∧ I4 n (mp.swap_seed st seed).init_regions (mp.swap_seed st seed).init_area2region
        ∧ (mp.swap_seed st seed).init_regions.length = regions.length) := by
    intro st seed hseed ⟨a, b, c⟩
    obtain ⟨x, y, z⟩ := swap_seed_partition mp n hw hord st seed (c ▸ hseed) a b
    exact ⟨x, y, z.trans c⟩
  refine ⟨?_, ?_, ?_⟩
  · intro st seed hseed a b
    refine ⟨?_, swap_seed_partition mp n hw hord st seed hseed a b⟩
    rcases swap_seed_cases mp hord st seed with h | ⟨area, _, _, h⟩
    · exact Or.inl h
    · exact Or.inr ⟨area, h⟩
  · intro k
    exact swap_passes_induction mp regions.length
      (fun st => I1 n st.init_regions ∧ I4 n st.init_regions st.init_area2region
        ∧ st.init_regions.length = regions.length)
      (fun _ _ _ h => h) hstep k _ ⟨h1, h4, rfl⟩
  · intro fuel out hout
    obtain ⟨st, ⟨a, b, c⟩, e1, e2⟩ := swap_result_induction mp
      (fun st => I1 n st.init_regions ∧ I4 n st.init_regions st.init_area2region
        ∧ st.init_regions.length = regions.length)
      regions a2r (fun _ _ _ h => h) hstep ⟨h1, h4, rfl⟩ fuel out hout
    rw [e1, e2]
    exact ⟨a, b, c⟩

/-- Witness for C2: scenario 5 started from `{{0,1,2},{3}}`; `swap` returns
`{{0,1},{3,2}}` there. -/
theorem swap_preserves_partition_witness :
    GraphOn 4 scenario5.w ∧ OrderOk scenario5.order
    ∧ I1 4 [[0, 1, 2], [3]] ∧ I4 4 [[0, 1, 2], [3]] (a2rOfList [0, 0, 0, 1])
    ∧ (scenario5.swap 5 [[0, 1, 2], [3]] (a2rOfList [0, 0, 0, 1])).map (fun r => r.regions)
        = some [[0, 1], [3, 2]]
    ∧ (∀ fuel out, scenario5.swap fuel [[0, 1, 2], [3]] (a2rOfList [0, 0, 0, 1]) = some out →
        I1 4 out.regions ∧ I4 4 out.regions out.area2region
        ∧ out.regions.length = [[0, 1, 2], [3]].length) :=
  ⟨pathGraph_graphOn 4, orderOk_id, by unfold I1; decide, by unfold I4; decide, by decide!,
    (swap_preserves_partition scenario5 4 (pathGraph_graphOn 4) orderOk_id [[0, 1, 2], [3]]
      (a2rOfList [0, 0, 0, 1]) (by unfold I1; decide) (by unfold I4; decide)).2.2⟩


theorem Reach.mono {w : Nat → List Nat} {S T : List Nat} {a b : Nat}
    (hST : ∀ x ∈ S, x ∈ T) (h : Reach w S a b) : Reach w T a b :=
  Relation.ReflTransGen.mono (fun _ _ hxy => ⟨hxy.1, hST _ hxy.2⟩) h

theorem connected_append_adjacent {w : Nat → List Nat} {X : List Nat} {m a : Nat}
    (hX : Connected w X) (hm : m ∈ X) (h1 : a ∈ w m) (h2 : m ∈ w a) :
    Connected w (X ++ [a]) := by
  have hsub : ∀ x ∈ X, x ∈ X ++ [a] := fun x hx => List.mem_append_left _ hx
  have ha : a ∈ X ++ [a] := by simp
  have hto : ∀ p ∈ X ++ [a], Reach w (X ++ [a]) p m := by
    intro p hp
    rcases List.mem_append.mp hp with hp | hp
    · exact (hX p hp m hm).mono hsub
    · have : p = a := by simpa using hp
      subst this
      exact Relation.ReflTransGen.single ⟨h2, hsub m hm⟩
  have hfrom : ∀ p ∈ X ++ [a], Reach w (X ++ [a]) m p := by
    intro p hp
    rcases List.mem_append.mp hp with hp | hp
    · exact (hX m hm p hp).mono hsub
    · have : p = a := by simpa using hp
      subst this
      exact Relation.ReflTransGen.single ⟨h1, ha⟩
  intro p hp q hq
  exact (hto p hp).trans (hfrom q hq)

theorem swap_seed_I3 (mp : Maxp) (n : Nat) (hw : GraphOn n mp.w) (hord : OrderOk mp.order)
    (hsym : Symmetric mp.w) (st : SwapState) (seed : Nat)
    (hseed : seed < st.init_regions.length) (h1 : I1 n st.init_regions)
    (h4 : I4 n st.init_regions st.init_area2region) (h3 : I3 mp.w st.init_regions) :
    I3 mp.w (mp.swap_seed st seed).init_regions := by
  rcases swap_seed_cases mp hord st seed with h | ⟨area, hc, _, h⟩
  · rw [h]
    exact h3
  · rw [h]
    obtain ⟨_, hold, hne, _, _⟩ :=
      candidate_facts mp n hw st.init_regions st.init_area2region h1 h4 seed hseed area hc
    intro r hr
    obtain ⟨j, hj, rfl⟩ := exists_getD_of_mem hr
    rw [swap_move_length] at hj
    rw [swap_move_getD st seed area hne hold hseed]
    by_cases hjs : j = seed
    · simp only [hjs, if_true]
      obtain ⟨member, hmem, hadj⟩ := hc.2.1
      exact connected_append_adjacent (h3 _ (getD_mem_regions hseed)) hmem hadj
        (hsym _ _ hadj)
    · simp only [hjs, if_false]
      by_cases hjo : j = st.init_area2region area
      · simp only [hjo, if_true]
        exact (check_contiguity_iff_connected mp hord mp.w hsym _ _).mp hc.2.2.2
      · simp only [hjo, if_false]
        exact h3 _ (getD_mem_regions hj)

theorem floor_sum_nil (mp : Maxp) : mp.floor_sum [] = 0 := rfl

theorem swap_seed_nonempty (mp : Maxp) (n : Nat) (hw : GraphOn n mp.w)
    (hord : OrderOk mp.order) (hfloor : 0 < mp.floor) (st : SwapState) (seed : Nat)
    (hseed : seed < st.init_regions.length) (h1 : I1 n st.init_regions)
    (h4 : I4 n st.init_regions st.init_area2region)
    (hne : ∀ r ∈ st.init_regions, r ≠ []) :
    ∀ r ∈ (mp.swap_seed st seed).init_regions, r ≠ [] := by
  rcases swap_seed_cases mp hord st seed with h | ⟨area, hc, _, h⟩
  · rw [h]
    exact hne
  · rw [h]
    obtain ⟨_, hold, hne', _, _⟩ :=
      candidate_facts mp n hw st.init_regions st.init_area2region h1 h4 seed hseed area hc
    intro r hr
    obtain ⟨j, hj, rfl⟩ := exists_getD_of_mem hr
    rw [swap_move_length] at hj
    rw [swap_move_getD st seed area hne' hold hseed]
    by_cases hjs : j = seed
    · simp [hjs]
    · simp only [hjs, if_false]
      by_cases hjo : j = st.init_area2region area
      · simp only [hjo, if_true]
        intro he
        have := (check_floor_leaver_iff mp _ _).mp hc.2.2.1
        rw [he, floor_sum_nil] at this
        linarith
      · simp only [hjo, if_false]
        exact hne _ (getD_mem_regions hj)

/-! ## C6: `swap` preserves contiguity -/

/-- C6: for a symmetric graph and a partition satisfying I1, I4 and I3, after every pass
of the body of `swap` for a seed region (which makes at most one move) every region
induces a connected subgraph: the donor without the moved area passed
`check_contiguity`, and the moved area is adjacent to a member of the recipient.  Hence I3
holds after any number of passes and for the partition `swap` returns.  (A region is
connected when any two of its members are joined by a path inside it; when `floor > 0`
no region is emptied by a move.) -/
theorem swap_preserves_contiguity (mp : Maxp) (n : Nat) (hw : GraphOn n mp.w)
    (hord : OrderOk mp.order) (hsym : Symmetric mp.w)
    (regions : List (List Nat)) (a2r : Nat → Nat)
    (h1 : I1 n regions) (h4 : I4 n regions a2r) (h3 : I3 mp.w regions) :
    (∀ st seed, seed < st.init_regions.length → I1 n st.init_regions →
        I4 n st.init_regions st.init_area2region → I3 mp.w st.init_regions →
        I3 mp.w (mp.swap_seed st seed).init_regions
        ∧ (0 < mp.floor → (∀ r ∈ st.init_regions, r ≠ []) →
            ∀ r ∈ (mp.swap_seed st seed).init_regions, r ≠ []))
    ∧ (∀ k, I3 mp.w (mp.swap_passes regions.length k
          ⟨regions, a2r, List.replicate regions.length 1, 0⟩).init_regions)
    ∧ (∀ fuel out, mp.swap fuel regions a2r = some out →
        I3 mp.w out.regions
        ∧ (0 < mp.floor → (∀ r ∈ regions, r ≠ []) → ∀ r ∈ out.regions, r ≠ [])) := by
  have hstep : ∀ st seed, seed < regions.length →
      ((I1 n st.init_regions ∧ I4 n st.init_regions st.init_area2region
        ∧ st.init_regions.length = regions.length) ∧ I3 mp.w st.init_regions) →
      ((I1 n (mp.swap_seed st seed).init_regions
        ∧ I4 n (mp.swap_seed st seed).init_regions (mp.swap_seed st seed).init_area2region
        ∧ (mp.swap_seed st seed).init_regions.length = regions.length)
        ∧ I3 mp.w (mp.swap_seed st seed).init_regions) := by
    intro st seed hseed ⟨⟨a, b, c⟩, d⟩
    obtain ⟨x, y, z⟩ := swap_seed_partition mp n hw hord st seed (c ▸ hseed) a b
    exact ⟨⟨x, y, z.trans c⟩, swap_seed_I3 mp n hw hord hsym st seed (c ▸ hseed) a b d⟩
  refine ⟨?_, ?_, ?_⟩
  · intro st seed hseed a b d
    exact ⟨swap_seed_I3 mp n hw hord hsym st seed hseed a b d,
      fun hfloor hne => swap_seed_nonempty mp n hw hord hfloor st seed hseed a b hne⟩
  · intro k
    exact (swap_passes_induction mp regions.length
      (fun st => (I1 n st.init_regions ∧ I4 n st.init_regions st.init_area2region
        ∧ st.init_regions.length = regions.length) ∧ I3 mp.w st.init_regions)
      (fun _ _ _ h => h) hstep k _ ⟨⟨h1, h4, rfl⟩, h3⟩).2
  · intro fuel out hout
    constructor
    · obtain ⟨st, ⟨_, d⟩, e1, _⟩ := swap_result_induction mp
        (fun st => (I1 n st.init_regions ∧ I4 n st.init_regions st.init_area2region
          ∧ st.init_regions.length = regions.length) ∧ I3 mp.w st.init_regions)
        regions a2r (fun _ _ _ h => h) hstep ⟨⟨h1, h4, rfl⟩, h3⟩ fuel out hout
      rw [e1]
      exact d
    · intro hfloor hne
      obtain ⟨st, ⟨_, d⟩, e1, _⟩ := swap_result_induction mp
        (fun st => (I1 n st.init_regions ∧ I4 n st.init_regions st.init_area2region
          ∧ st.init_regions.length = regions.length) ∧ ∀ r ∈ st.init_regions, r ≠ [])
        regions a2r (fun _ _ _ h => h)
        (by
          intro st seed hseed ⟨⟨a, b, c⟩, d⟩
          obtain ⟨x, y, z⟩ := swap_seed_partition mp n hw hord st seed (c ▸ hseed) a b
          exact ⟨⟨x, y, z.trans c⟩,
            swap_seed_nonempty mp n hw hord hfloor st seed (c ▸ hseed) a b d⟩)
        ⟨⟨h1, h4, rfl⟩, hne⟩ fuel out hout
      rw [e1]
      exact d

theorem scenario5_I3 : I3 scenario5.w [[0, 1, 2], [3]] := by
  intro r hr
  simp only [List.mem_cons, List.mem_singleton, List.not_mem_nil, or_false] at hr
  rcases hr with rfl | rfl
  · exact (check_contiguity_iff_connected scenario5 orderOk_id scenario5.w
      (pathGraph_symmetric 4) [0, 1, 2] 4).mp (by decide!)
  · exact (check_contiguity_iff_connected scenario5 orderOk_id scenario5.w
      (pathGraph_symmetric 4) [3] 4).mp (by decide!)

/-- Witness for C6: scenario 5 started from `{{0,1,2},{3}}`. -/
theorem swap_preserves_contiguity_witness :
    GraphOn 4 scenario5.w ∧ OrderOk scenario5.order ∧ Symmetric scenario5.w
    ∧ I1 4 [[0, 1, 2], [3]] ∧ I4 4 [[0, 1, 2], [3]] (a2rOfList [0, 0, 0, 1])
    ∧ I3 scenario5.w [[0, 1, 2], [3]]
    ∧ (∀ fuel out, scenario5.swap fuel [[0, 1, 2], [3]] (a2rOfList [0, 0, 0, 1]) = some out →
        I3 scenario5.w out.regions
        ∧ (0 < scenario5.floor → (∀ r ∈ [[0, 1, 2], [3]], r ≠ []) →
            ∀ r ∈ out.regions, r ≠ [])) :=
  ⟨pathGraph_graphOn 4, orderOk_id, pathGraph_symmetric 4, by unfold I1; decide,
    by unfold I4; decide, scenario5_I3,
    (swap_preserves_contiguity scenario5 4 (pathGraph_graphOn 4) orderOk_id
      (pathGraph_symmetric 4) [[0, 1, 2], [3]] (a2rOfList [0, 0, 0, 1])
      (by unfold I1; decide) (by unfold I4; decide) scenario5_I3).2.2⟩


theorem objective_function_eq_sum (mp : Maxp) (solution : List (List Nat)) :
    mp.objective_function solution = (solution.map mp.objective_function_region).sum := by
  show solution.foldl (fun wss region => wss + mp.objective_function_region region) 0 = _
  rw [foldl_add_eq_sum]
  simp only [zero_add]

theorem objective_function_change_eq (mp : Maxp) (a : Nat) (dst src : List Nat)
    (h : src.count a = 1) :
    mp.objective_function_change a dst src
      = mp.objective_function_region (remove src a) + mp.objective_function_region (dst ++ [a])
        - (mp.objective_function_region dst + mp.objective_function_region src) := by
  unfold objective_function_change
  simp only [objective_function_move_eq mp src dst a h]

theorem swap_seed_objective (mp : Maxp) (n : Nat) (hw : GraphOn n mp.w)
    (hord : OrderOk mp.order) (st : SwapState) (seed : Nat)
    (hseed : seed < st.init_regions.length) (h1 : I1 n st.init_regions)
    (h4 : I4 n st.init_regions st.init_area2region) :
    mp.swap_seed st seed = st
    ∨ ∃ area, mp.swap_seed st seed = swap_move st seed area
        ∧ mp.objective_function (mp.swap_seed st seed).init_regions
          = mp.objective_function st.init_regions
            + mp.objective_function_change area (st.init_regions.getD seed [])
                (st.init_regions.getD (st.init_area2region area) [])
        ∧ mp.objective_function_change area (st.init_regions.getD seed [])
            (st.init_regions.getD (st.init_area2region area) []) ≤ 0 := by
  rcases swap_seed_cases mp hord st seed with h | ⟨area, hc, hle, h⟩
  · exact Or.inl h
  · right
    refine ⟨area, h, ?_, hle⟩
    obtain ⟨_, hold, hne, _, hcount⟩ :=
      candidate_facts mp n hw st.init_regions st.init_area2region h1 h4 seed hseed area hc
    rw [h, objective_function_eq_sum, objective_function_eq_sum,
      objective_function_change_eq mp area _ _ hcount]
    have := sum_map_move mp.objective_function_region st seed area hne hold hseed
    linarith

theorem swap_seed_objective_le (mp : Maxp) (n : Nat) (hw : GraphOn n mp.w)
    (hord : OrderOk mp.order) (st : SwapState) (seed : Nat)
    (hseed : seed < st.init_regions.length) (h1 : I1 n st.init_regions)
    (h4 : I4 n st.init_regions st.init_area2region) :
    mp.objective_function (mp.swap_seed st seed).init_regions
      ≤ mp.objective_function st.init_regions := by
  rcases swap_seed_objective mp n hw hord st seed hseed h1 h4 with h | ⟨area, _, h, hle⟩
  · rw [h]
  · rw [h]
    linarith

/-! ## C7: `swap` never worsens the objective -/

/-- C7: on a partition satisfying I1 and I4, every pass of the body of `swap` for a seed
region either changes nothing or makes one move, and the move changes
`objective_function(regions)` by exactly the computed `objective_function_change`, which
is `≤ 0`; hence the objective after any number of passes of `swap`, and of the partition
`swap` returns, is at most the objective of the partition it started from (exact
arithmetic). -/
theorem swap_objective_nonincreasing (mp : Maxp) (n : Nat) (hw : GraphOn n mp.w)
    (hord : OrderOk mp.order) (regions : List (List Nat)) (a2r : Nat → Nat)
    (h1 : I1 n regions) (h4 : I4 n regions a2r) :
    (∀ st seed, seed < st.init_regions.length → I1 n st.init_regions →
        I4 n st.init_regions st.init_area2region →
        (mp.swap_seed st seed = st
        ∨ ∃ area, mp.swap_seed st seed = swap_move st seed area
            ∧ mp.objective_function (mp.swap_seed st seed).init_regions
              = mp.objective_function st.init_regions
                + mp.objective_function_change area (st.init_regions.getD seed [])
                    (st.init_regions.getD (st.init_area2region area) [])
            ∧ mp.objective_function_change area (st.init_regions.getD seed [])
                (st.init_regions.getD (st.init_area2region area) []) ≤ 0))
    ∧ (∀ k, mp.objective_function (mp.swap_passes regions.length k
          ⟨regions, a2r, List.replicate regions.length 1, 0⟩).init_regions
        ≤ mp.objective_function regions)
    ∧ (∀ k, mp.objective_function (mp.swap_passes regions.length (k + 1)
          ⟨regions, a2r, List.replicate regions.length 1, 0⟩).init_regions
        ≤ mp.objective_function (mp.swap_passes regions.length k
          ⟨regions, a2r, List.replicate regions.length 1, 0⟩).init_regions)
    ∧ (∀ fuel out, mp.swap fuel regions a2r = some out →
        mp.objective_function out.regions ≤ mp.objective_function regions) := by
  have hstep : ∀ (c : ℚ) (st : SwapState) (seed : Nat), seed < regions.length →
      ((I1 n st.init_regions ∧ I4 n st.init_regions st.init_area2region
        ∧ st.init_regions.length = regions.length)
        ∧ mp.objective_function st.init_regions ≤ c) →
      ((I1 n (mp.swap_seed st seed).init_regions
        ∧ I4 n (mp.swap_seed st seed).init_regions (mp.swap_seed st seed).init_area2region
        ∧ (mp.swap_seed st seed).init_regions.length = regions.length)
        ∧ mp.objective_function (mp.swap_seed st seed).init_regions ≤ c) := by
    intro c st seed hseed ⟨⟨a, b, e⟩, d⟩
    obtain ⟨x, y, z⟩ := swap_seed_partition mp n hw hord st seed (e ▸ hseed) a b
    exact ⟨⟨x, y, z.trans e⟩,
      le_trans (swap_seed_objective_le mp n hw hord st seed (e ▸ hseed) a b) d⟩
  have hpasses : ∀ (c : ℚ) (k : Nat) (st : SwapState),
      ((I1 n st.init_regions ∧ I4 n st.init_regions st.init_area2region
        ∧ st.init_regions.length = regions.length)
        ∧ mp.objective_function st.init_regions ≤ c) →
      ((I1 n (mp.swap_passes regions.length k st).init_regions
        ∧ I4 n (mp.swap_passes regions.length k st).init_regions
            (mp.swap_passes regions.length k st).init_area2region
        ∧ (mp.swap_passes regions.length k st).init_regions.length = regions.length)
        ∧ mp.objective_function (mp.swap_passes regions.length k st).init_regions ≤ c) :=
    fun c k st h => swap_passes_induction mp regions.length
      (fun st => (I1 n st.init_regions ∧ I4 n st.init_regions st.init_area2region
        ∧ st.init_regions.length = regions.length)
        ∧ mp.objective_function st.init_regions ≤ c)
      (fun _ _ _ h => h) (hstep c) k st h
  refine ⟨?_, ?_, ?_, ?_⟩
  · intro st seed hseed a b
    exact swap_seed_objective mp n hw hord st seed hseed a b
  · intro k
    exact (hpasses (mp.objective_function regions) k
      ⟨regions, a2r, List.replicate regions.length 1, 0⟩ ⟨⟨h1, h4, rfl⟩, le_refl _⟩).2
  · intro k
    have hk := (hpasses (mp.objective_function regions) k
      ⟨regions, a2r, List.replicate regions.length 1, 0⟩ ⟨⟨h1, h4, rfl⟩, le_refl _⟩).1
    have : mp.swap_passes regions.length (k + 1)
          ⟨regions, a2r, List.replicate regions.length 1, 0⟩
        = mp.swap_pass regions.length (mp.swap_passes regions.length k
          ⟨regions, a2r, List.replicate regions.length 1, 0⟩) := by
      generalize (⟨regions, a2r, List.replicate regions.length 1, 0⟩ : SwapState) = st0
      clear hk
      induction k generalizing st0 with
      | zero => rfl
      | succ k ih =>
        simp only [swap_passes] at ih ⊢
        exact ih _
    rw [this]
    exact (swap_pass_induction mp regions.length
      (fun st => (I1 n st.init_regions ∧ I4 n st.init_regions st.init_area2region
        ∧ st.init_regions.length = regions.length)
        ∧ mp.objective_function st.init_regions ≤ mp.objective_function
          (mp.swap_passes regions.length k
            ⟨regions, a2r, List.replicate regions.length 1, 0⟩).init_regions)
      (fun _ _ _ h => h) (hstep _) _ ⟨hk, le_refl _⟩).2
  · intro fuel out hout
    obtain ⟨st, ⟨_, d⟩, e1, _⟩ := swap_result_induction mp
      (fun st => (I1 n st.init_regions ∧ I4 n st.init_regions st.init_area2region
        ∧ st.init_regions.length = regions.length)
        ∧ mp.objective_function st.init_regions ≤ mp.objective_function regions)
      regions a2r (fun _ _ _ h => h) (hstep _) ⟨⟨h1, h4, rfl⟩, le_refl _⟩ fuel out hout
    rw [e1]
    exact d

/-- Witness for C7: scenario 5 started from `{{0,1,2},{3}}` (objective `200/3`); `swap`
returns a partition of objective `0`. -/
theorem swap_objective_nonincreasing_witness :
    GraphOn 4 scenario5.w ∧ OrderOk scenario5.order
    ∧ I1 4 [[0, 1, 2], [3]] ∧ I4 4 [[0, 1, 2], [3]] (a2rOfList [0, 0, 0, 1])
    ∧ (scenario5.swap 5 [[0, 1, 2], [3]] (a2rOfList [0, 0, 0, 1])).map
        (fun r => scenario5.objective_function r.regions) = some 0
    ∧ (∀ fuel out, scenario5.swap fuel [[0, 1, 2], [3]] (a2rOfList [0, 0, 0, 1]) = some out →
        scenario5.objective_function out.regions
          ≤ scenario5.objective_function [[0, 1, 2], [3]]) :=
  ⟨pathGraph_graphOn 4, orderOk_id, by unfold I1; decide, by unfold I4; decide, by decide!,
    (swap_objective_nonincreasing scenario5 4 (pathGraph_graphOn 4) orderOk_id
      [[0, 1, 2], [3]] (a2rOfList [0, 0, 0, 1])
      (by unfold I1; decide) (by unfold I4; decide)).2.2.2⟩


/-! ## Auxiliary lemmas: the growth of a region -/

theorem mem_members {d : BoolMap} {x : Nat} : x ∈ members d ↔ x ∈ d.keys ∧ d.val x = true := by
  simp [members, List.mem_filter]

theorem members_touch (d : BoolMap) (nbr : Nat) : members (d.touch nbr) = members d := by
  unfold BoolMap.touch
  by_cases h : nbr ∈ d.keys
  · simp [h]
  · simp only [h, if_false, members, List.filter_append]
    have h1 : List.filter (fun k => if k = nbr then false else d.val k) [nbr] = [] := by simp
    have h2 : List.filter (fun k => if k = nbr then false else d.val k) d.keys
        = List.filter (fun k => d.val k) d.keys := by
      apply List.filter_congr
      intro x hx
      have : x ≠ nbr := fun e => h (e ▸ hx)
      simp [this]
    rw [h1, h2]
    simp

theorem keys_touch_nodup {d : BoolMap} (nbr : Nat) (h : d.keys.Nodup) :
    (d.touch nbr).keys.Nodup := by
  unfold BoolMap.touch
  by_cases hm : nbr ∈ d.keys
  · simp [hm, h]
  · simp only [hm, if_false]
    rw [List.nodup_append]
    refine ⟨h, List.nodup_singleton _, ?_⟩
    intro x hx hx'
    have : x = nbr := by simpa using hx'
    exact hm (this ▸ hx)

theorem mem_keys_touch (d : BoolMap) (nbr : Nat) : nbr ∈ (d.touch nbr).keys := by
  unfold BoolMap.touch
  by_cases hm : nbr ∈ d.keys
  · simp [hm]
  · simp [hm]

theorem members_set_true_perm {d : BoolMap} {nbr : Nat} (hnd : d.keys.Nodup)
    (hk : nbr ∈ d.keys) (hv : d.val nbr = false) :
    (members (d.set nbr true)).Perm (nbr :: members d) := by
  rw [List.perm_iff_count]
  intro x
  have hnd' : (members (d.set nbr true)).Nodup := by
    unfold members
    rw [keys_set_of_mem _ hk]
    exact hnd.filter _
  have hnd0 : (members d).Nodup := hnd.filter _
  have hnot : nbr ∉ members d := by
    rw [mem_members]
    simp [hv]
  have hmem : ∀ y, y ∈ members (d.set nbr true) ↔ y = nbr ∨ y ∈ members d := by
    intro y
    rw [mem_members, mem_members, keys_set_of_mem _ hk, val_set]
    by_cases hy : y = nbr
    · simp [hy, hk]
    · simp [hy]
  have hnd1 : (nbr :: members d).Nodup := List.nodup_cons.mpr ⟨hnot, hnd0⟩
  by_cases hx : x ∈ members (d.set nbr true)
  · rw [List.count_eq_one_of_mem hnd' hx,
      List.count_eq_one_of_mem hnd1 (List.mem_cons.mpr ((hmem x).mp hx))]
  · rw [List.count_eq_zero_of_not_mem hx, List.count_eq_zero_of_not_mem]
    intro h
    exact hx ((hmem x).mpr (List.mem_cons.mp h))

theorem floor_sum_perm (mp : Maxp) {l₁ l₂ : List Nat} (h : l₁.Perm l₂) :
    mp.floor_sum l₁ = mp.floor_sum l₂ := by
  unfold floor_sum
  exact (h.map _).sum_eq

theorem floor_sum_cons (mp : Maxp) (a : Nat) (l : List Nat) :
    mp.floor_sum (a :: l) = mp.floor_variable a + mp.floor_sum l := by
  simp [floor_sum]

theorem init_solution_grow_nbrs_inv (mp : Maxp) (n seed : Nat) (rest : List Nat)
    (hw : GraphOn n mp.w) (area : Nat) (l : List Nat) (hl : ∀ y ∈ l, y ∈ mp.w area)
    (st : GrowState) (hinv : GrowInv mp n seed rest st)
    (harea : area ∈ members st.region_dict) (hen : st.is_enclave = true) :
    GrowInv mp n seed rest (mp.init_solution_grow_nbrs l st) := by
  induction l generalizing st with
  | nil => exact hinv
  | cons nbr l ih =>
    have hl' : ∀ y ∈ l, y ∈ mp.w area := fun y hy => hl y (List.mem_cons_of_mem _ hy)
    obtain ⟨g1, g2, g3, g4, g5, g6, g7, g8⟩ := hinv
    simp only [init_solution_grow_nbrs]
    split
    · rename_i hcond
      simp only [Bool.and_eq_true, bne_iff_ne, ne_eq, Bool.not_eq_true, beq_iff_eq] at hcond
      obtain ⟨hv, hcd⟩ := hcond
      have hnd := keys_touch_nodup nbr g1
      have hk := mem_keys_touch st.region_dict nbr
      have hperm := members_set_true_perm hnd hk hv
      rw [members_touch] at hperm
      have hsub : ∀ x ∈ members st.region_dict,
          x ∈ members ((st.region_dict.touch nbr).set nbr true) :=
        fun x hx => hperm.mem_iff.mpr (List.mem_cons_of_mem _ hx)
      have hnbr : nbr ∈ members ((st.region_dict.touch nbr).set nbr true) :=
        hperm.mem_iff.mpr (List.mem_cons_self _ _)
      have hinv' : GrowInv mp n seed rest
          { region := st.region ++ [nbr]
            region_dict := (st.region_dict.touch nbr).set nbr true
            candidates := remove st.candidates nbr
            candidates_dict := fun x => if x = nbr then false else st.candidates_dict x
            cv := st.cv + mp.floor_variable nbr
            is_enclave := st.is_enclave } := by
        refine ⟨?_, ?_, ?_, ?_, hsub _ g5, ?_, ?_, ?_⟩
        · simp only
          rw [keys_set_of_mem _ hk]
          exact hnd
        · simp only
          rw [floor_sum_perm mp hperm, floor_sum_cons, g2]
          ring
        · intro x hx
          simp only [List.mem_append, List.mem_singleton] at hx
          rcases hx with hx | hx
          · exact hsub x (g3 x hx)
          · exact hx ▸ hnbr
        · intro x hx
          rcases List.mem_cons.mp (hperm.mem_iff.mp hx) with hx' | hx'
          · subst hx'
            have ha := g4 area harea
            exact ⟨hw area ha.1 _ (hl _ (List.mem_cons_self _ _)),
              (ha.2.mono hsub).step (hl _ (List.mem_cons_self _ _)) hnbr⟩
          · exact ⟨(g4 x hx').1, (g4 x hx').2.mono hsub⟩
        · intro x hx
          by_cases hxn : x = nbr
          · exact Or.inr (hxn ▸ hnbr)
          · rcases g6 x hx with h | h
            · exact Or.inl (mem_remove.mpr ⟨h, hxn⟩)
            · exact Or.inr (hsub x h)
        · exact (List.filter_sublist _).trans g7
        · intro h
          simp only at h
          rw [hen] at h
          exact absurd h (by simp)
      split
      · rename_i hge
        obtain ⟨a1, a2, a3, a4, a5, a6, a7, _⟩ := hinv'
        exact ⟨a1, a2, a3, a4, a5, a6, a7, fun _ => hge⟩
      · exact ih hl' _ hinv' (hsub _ harea) hen
    · apply ih hl'
      · refine ⟨keys_touch_nodup nbr g1, ?_, ?_, ?_, ?_, ?_, g7, g8⟩
        · simp only [members_touch]
          exact g2
        · simp only [members_touch]
          exact g3
        · simp only [members_touch]
          exact g4
        · simp only [members_touch]
          exact g5
        · simp only [members_touch]
          exact g6
      · simp only [members_touch]
        exact harea
      · exact hen

theorem getLastD_mem {l : List Nat} (h : l ≠ []) : l.getLastD 0 ∈ l := by
  cases l with
  | nil => exact absurd rfl h
  | cons a as =>
    rw [List.getLastD_cons, List.getLastD_eq_getLast?]
    cases hl : as.getLast? with
    | none =>
      have : as = [] := List.getLast?_eq_none_iff.mp hl
      simp [this]
    | some b =>
      simp only [Option.getD_some]
      exact List.mem_cons_of_mem _ (List.mem_of_getLast?_eq_some hl)

theorem init_solution_grow_loop_inv (mp : Maxp) (n seed : Nat) (rest : List Nat)
    (hw : GraphOn n mp.w) (fuel : Nat) (st st' : GrowState)
    (hinv : GrowInv mp n seed rest st)
    (h : mp.init_solution_grow_loop fuel st = some st') :
    GrowInv mp n seed rest st' := by
  induction fuel generalizing st with
  | zero =>
    simp only [init_solution_grow_loop] at h
    split at h
    · simp at h
    · simp only [Option.some.injEq] at h
      exact h ▸ hinv
  | succ fuel ih =>
    simp only [init_solution_grow_loop] at h
    split at h
    · rename_i hcond
      simp only [Bool.and_eq_true, decide_eq_true_eq, Bool.not_eq_true', List.isEmpty_eq_false]
        at hcond
      obtain ⟨⟨hen, _⟩, hne⟩ := hcond
      have hne' : st.region ≠ [] := by
        intro e
        simp [e] at hne
      obtain ⟨g1, g2, g3, g4, g5, g6, g7, g8⟩ := hinv
      refine ih _ ?_ h
      apply init_solution_grow_nbrs_inv mp n seed rest hw (st.region.getLastD 0) _
        (fun _ hy => hy)
      · exact ⟨g1, g2, fun x hx => g3 x (List.mem_of_mem_dropLast hx), g4, g5, g6, g7, g8⟩
      · exact g3 _ (getLastD_mem hne')
      · exact hen
    · simp only [Option.some.injEq] at h
      exact h ▸ hinv

theorem init_solution_grow_seed_inv (mp : Maxp) (n : Nat) (hw : GraphOn n mp.w)
    (hord : OrderOk mp.order) (fuel seed : Nat) (rest : List Nat) (bs bs' : BuildState)
    (hc : bs.candidates = seed :: rest) (hinv : BuildInv mp n bs)
    (h : mp.init_solution_grow_seed fuel seed rest bs = some bs') :
    BuildInv mp n bs' ∧ bs'.candidates.length ≤ rest.length := by
  obtain ⟨b1, b2, b3, b4⟩ := hinv
  have hseed : seed < n := b2 seed (by simp [hc])
  unfold init_solution_grow_seed at h
  split at h
  · simp at h
  · rename_i st hloop
    have hstart : GrowInv mp n seed rest
        { region := [seed]
          region_dict := BoolMap.empty.set seed true
          candidates := rest
          candidates_dict := bs.candidates_dict
          cv := mp.floor_variable seed
          is_enclave := true } := by
      have hm : members (BoolMap.empty.set seed true) = [seed] := by
        simp [members, BoolMap.set, BoolMap.empty]
      refine ⟨?_, ?_, ?_, ?_, ?_, ?_, ?_, ?_⟩
      · simp [BoolMap.set, BoolMap.empty]
      · simp only [hm]
        simp [floor_sum]
      · simp only [hm]
        exact fun x hx => hx
      · simp only [hm]
        intro x hx
        have : x = seed := by simpa using hx
        subst this
        exact ⟨hseed, Relation.ReflTransGen.refl⟩
      · simp [hm]
      · exact fun x hx => Or.inl hx
      · exact List.Sublist.refl _
      · intro h
        simp at h
    obtain ⟨g1, g2, g3, g4, g5, g6, g7, g8⟩ :=
      init_solution_grow_loop_inv mp n seed rest hw fuel _ st hstart hloop
    have hperm : (List.filter (fun k => st.region_dict.val k) (mp.order st.region_dict.keys)).Perm
        (members st.region_dict) := (hord st.region_dict.keys).filter _
    have hlen : st.candidates.length ≤ rest.length := g7.length_le
    simp only at h
    split at h
    · simp only [Option.some.injEq] at h
      subst h
      refine ⟨⟨?_, ?_, ?_, b4⟩, hlen⟩
      · intro x hx
        simp only [List.mem_append]
        rcases b1 x hx with h1 | h1 | h1
        · rw [hc] at h1
          rcases List.mem_cons.mp h1 with rfl | h1
          · exact Or.inr (Or.inl (Or.inr (hperm.mem_iff.mpr g5)))
          · rcases g6 x h1 with h2 | h2
            · exact Or.inl h2
            · exact Or.inr (Or.inl (Or.inr (hperm.mem_iff.mpr h2)))
        · exact Or.inr (Or.inl (Or.inl h1))
        · exact Or.inr (Or.inr h1)
      · intro x hx
        exact b2 x (by rw [hc]; exact List.mem_cons_of_mem _ (g7.subset hx))
      · intro x hx
        rcases List.mem_append.mp hx with h1 | h1
        · exact b3 x h1
        · exact (g4 x (hperm.mem_iff.mp h1)).1
    · rename_i hen
      simp only [Option.some.injEq] at h
      subst h
      have hen' : st.is_enclave = false := by simpa using hen
      refine ⟨⟨?_, ?_, b3, ?_⟩, hlen⟩
      · intro x hx
        rcases b1 x hx with h1 | h1 | ⟨r, hr, hxr⟩
        · rw [hc] at h1
          rcases List.mem_cons.mp h1 with rfl | h1
          · exact Or.inr (Or.inr ⟨_, by simp, hperm.mem_iff.mpr g5⟩)
          · rcases g6 x h1 with h2 | h2
            · exact Or.inl h2
            · exact Or.inr (Or.inr ⟨_, by simp, hperm.mem_iff.mpr h2⟩)
        · exact Or.inr (Or.inl h1)
        · exact Or.inr (Or.inr ⟨r, by simp [hr], hxr⟩)
      · intro x hx
        exact b2 x (by rw [hc]; exact List.mem_cons_of_mem _ (g7.subset hx))
      · intro r hr
        rcases List.mem_append.mp hr with h1 | h1
        · exact b4 r h1
        · have : r = List.filter (fun k => st.region_dict.val k)
              (mp.order st.region_dict.keys) := by simpa using h1
          subst this
          refine ⟨?_, ⟨seed, hperm.mem_iff.mpr g5, ?_⟩, ?_⟩
          · rw [floor_sum_perm mp hperm, ← g2]
            exact g8 hen'
          · intro x hx
            exact (g4 x (hperm.mem_iff.mp hx)).2.mono (fun y hy => hperm.mem_iff.mpr hy)
          · intro x hx
            exact (g4 x (hperm.mem_iff.mp hx)).1

theorem init_solution_grow_inv (mp : Maxp) (n : Nat) (hw : GraphOn n mp.w)
    (hord : OrderOk mp.order) (passes fuel : Nat) (bs bs' : BuildState)
    (hinv : BuildInv mp n bs) (h : mp.init_solution_grow passes fuel bs = some bs') :
    BuildInv mp n bs' ∧ bs'.candidates = [] := by
  induction passes generalizing bs with
  | zero =>
    simp only [init_solution_grow] at h
    split at h
    · rename_i he
      simp only [Option.some.injEq] at h
      subst h
      exact ⟨hinv, by simpa using he⟩
    · simp at h
  | succ passes ih =>
    simp only [init_solution_grow] at h
    split at h
    · rename_i he
      simp only [Option.some.injEq] at h
      subst h
      exact ⟨hinv, he⟩
    · rename_i seed rest hc
      split at h
      · simp at h
      · rename_i bs1 hseed
        exact ih bs1 (init_solution_grow_seed_inv mp n hw hord fuel seed rest bs bs1 hc hinv
          hseed).1 h

/-! ## Auxiliary lemmas: the shuffle -/

theorem init_solution_draw_lt (mp : Maxp) (i fuel seed_local : Nat) (k : Int) (s : Nat)
    (h : mp.init_solution_draw i fuel seed_local = some (k, s)) : k < (i : Int) := by
  induction fuel generalizing seed_local with
  | zero => simp [init_solution_draw] at h
  | succ fuel ih =>
    simp only [init_solution_draw] at h
    split at h
    · exact ih _ h
    · rename_i hlt
      simp only [Option.some.injEq, Prod.mk.injEq] at h
      rw [← h.1]
      exact lt_of_not_ge hlt

theorem iter_swap_perm (cs : List Nat) (k i : Nat) (hk : k < cs.length) (hi : i < cs.length) :
    (iter_swap cs k i).Perm cs := by
  unfold iter_swap
  rw [List.perm_iff_count]
  intro b
  have hgi : cs.getD i 0 = cs[i] := by
    rw [List.getD_eq_getElem?_getD, List.getElem?_eq_getElem hi]
    rfl
  have hgk : cs.getD k 0 = cs[k] := by
    rw [List.getD_eq_getElem?_getD, List.getElem?_eq_getElem hk]
    rfl
  rw [hgi, hgk]
  have hi' : i < (cs.set k cs[i]).length := by simpa using hi
  rw [List.count_set _ _ _ _ hi', List.count_set _ _ _ _ hk]
  have h1 : (cs.set k cs[i])[i] = cs[i] := by
    rw [List.getElem_set]
    split
    · rfl
    · rfl
  rw [h1]
  have hck : cs[k] ∈ cs := List.getElem_mem hk
  by_cases e1 : cs[k] = b
  · have hpos : 0 < cs.count b := List.count_pos_iff.mpr (e1 ▸ hck)
    by_cases e2 : cs[i] = b
    · simp [e1, e2]
      omega
    · simp [e1, e2]
      omega
  · by_cases e2 : cs[i] = b
    · simp [e1, e2]
    · simp [e1, e2]

theorem init_solution_shuffle_perm (mp : Maxp) (fuel i : Nat) (c : List Nat) (s : Nat)
    (c' : List Nat) (s' : Nat) (hi : i = 0 ∨ i < c.length)
    (h : mp.init_solution_shuffle fuel i c s = some (c', s')) : c'.Perm c := by
  induction i generalizing c s with
  | zero =>
    simp only [init_solution_shuffle, Option.some.injEq, Prod.mk.injEq] at h
    rw [← h.1]
  | succ i ih =>
    have hic : i + 1 < c.length := by
      rcases hi with h0 | h0
      · omega
      · exact h0
    simp only [init_solution_shuffle] at h
    split at h
    · simp at h
    · rename_i k s1 hdraw
      have hk := init_solution_draw_lt mp (i + 1) fuel s k s1 hdraw
      have hkn : k.toNat < i + 1 := (Int.toNat_lt' (by omega)).mpr hk
      have hperm : (if k ≠ ((i + 1 : Nat) : Int) then iter_swap c k.toNat (i + 1) else c).Perm c := by
        split
        · exact iter_swap_perm c k.toNat (i + 1) (by omega) hic
        · exact List.Perm.refl c
      refine (ih _ s1 ?_ h).trans hperm
      right
      rw [hperm.length_eq]
      omega

theorem init_solution_candidates_perm (mp : Maxp) (hseeds : mp.seeds = []) (fuel s : Nat)
    (c : List Nat) (s' : Nat) (h : mp.init_solution_candidates fuel s = some (c, s')) :
    c.Perm (List.range mp.num_obs) := by
  unfold init_solution_candidates at h
  simp only [hseeds, List.isEmpty_nil, if_true] at h
  apply init_solution_shuffle_perm mp fuel (mp.num_obs - 1) _ s c s' _ h
  simp only [List.length_range]
  omega

/-! ## Auxiliary lemmas: the map `a2r` of the grown regions -/

theorem foldl_a2r_inner (idx : Nat) (r : List Nat) (a : Nat → Nat) (x : Nat) :
    (r.foldl (fun a2r area => fun y => if y = area then idx else a2r y) a) x
      = if x ∈ r then idx else a x := by
  induction r generalizing a with
  | nil => simp
  | cons m ms ih =>
    simp only [List.foldl_cons, ih, List.mem_cons]
    by_cases h1 : x ∈ ms
    · simp [h1]
    · by_cases h2 : x = m
      · simp [h1, h2]
      · simp [h1, h2]

theorem foldl_a2r_outer (ps : List (Nat × List Nat)) (a : Nat → Nat) (x : Nat) :
    (∃ p ∈ ps, x ∈ p.2 ∧ (ps.foldl
        (fun a2r ir => ir.2.foldl (fun a2r area => fun y => if y = area then ir.1 else a2r y)
          a2r) a) x = p.1)
    ∨ ((∀ p ∈ ps, x ∉ p.2) ∧ (ps.foldl
        (fun a2r ir => ir.2.foldl (fun a2r area => fun y => if y = area then ir.1 else a2r y)
          a2r) a) x = a x) := by
  induction ps generalizing a with
  | nil => simp
  | cons p ps ih =>
    simp only [List.foldl_cons]
    rcases ih (p.2.foldl (fun a2r area => fun y => if y = area then p.1 else a2r y) a)
      with ⟨q, hq, hx, he⟩ | ⟨hno, he⟩
    · exact Or.inl ⟨q, List.mem_cons_of_mem _ hq, hx, he⟩
    · rw [foldl_a2r_inner] at he
      by_cases hxp : x ∈ p.2
      · left
        refine ⟨p, List.mem_cons_self _ _, hxp, ?_⟩
        rw [he]
        simp [hxp]
      · right
        refine ⟨?_, ?_⟩
        · intro q hq
          rcases List.mem_cons.mp hq with rfl | hq
          · exact hxp
          · exact hno q hq
        · rw [he]
          simp [hxp]

theorem init_solution_a2r_spec (regn : List (List Nat)) (x : Nat)
    (h : ∃ r ∈ regn, x ∈ r) :
    init_solution_a2r regn x < regn.length
      ∧ x ∈ regn.getD (init_solution_a2r regn x) [] := by
  unfold init_solution_a2r
  rcases foldl_a2r_outer regn.enum (fun _ => 0) x with ⟨p, hp, hx, he⟩ | ⟨hno, _⟩
  · rw [he]
    obtain ⟨i, r⟩ := p
    have := List.mem_enum hp
    refine ⟨this.1, ?_⟩
    simp only
    rw [List.getD_eq_getElem?_getD, List.getElem?_eq_getElem this.1]
    simp only [Option.getD_some]
    rw [← this.2]
    exact hx
  · obtain ⟨r, hr, hxr⟩ := h
    obtain ⟨i, hi, rfl⟩ := List.mem_iff_getElem.mp hr
    have : (i, regn[i]) ∈ regn.enum := by
      rw [List.mk_mem_enum_iff_getElem?]
      exact List.getElem?_eq_getElem hi
    exact absurd hxr (hno _ this)

/-! ## Auxiliary lemmas: the enclave loop -/

theorem init_solution_enclave_loop_induction (mp : Maxp) (P : EnclaveState → Prop)
    (hstep : ∀ es e rest, es.enclaves = e :: rest → P es →
      P (mp.init_solution_enclave_step e rest es))
    (fuel : Nat) (es es' : EnclaveState) (h0 : P es)
    (h : mp.init_solution_enclave_loop fuel es = some es') : P es' := by
  induction fuel generalizing es with
  | zero =>
    simp only [init_solution_enclave_loop] at h
    split at h
    · simp at h
    · simp only [Option.some.injEq] at h
      exact h ▸ h0
  | succ fuel ih =>
    simp only [init_solution_enclave_loop] at h
    split at h
    · split at h
      · simp at h
      · rename_i e rest he
        exact ih _ (hstep es e rest he h0) h
    · simp only [Option.some.injEq] at h
      exact h ▸ h0

theorem mem_enclave_candidates (enclaves : List Nat) (a2r : Nat → Nat) (l acc : List Nat)
    (c : Nat) (h : c ∈ init_solution_enclave_candidates enclaves a2r l acc) :
    c ∈ acc ∨ ∃ nbr ∈ l, nbr ∉ enclaves ∧ a2r nbr = c := by
  induction l generalizing acc with
  | nil => exact Or.inl h
  | cons nbr l ih =>
    simp only [init_solution_enclave_candidates] at h
    split at h
    · rcases ih acc h with h1 | ⟨m, hm, h2, h3⟩
      · exact Or.inl h1
      · exact Or.inr ⟨m, List.mem_cons_of_mem _ hm, h2, h3⟩
    · rename_i hnot
      split at h
      · rcases ih acc h with h1 | ⟨m, hm, h2, h3⟩
        · exact Or.inl h1
        · exact Or.inr ⟨m, List.mem_cons_of_mem _ hm, h2, h3⟩
      · rcases ih _ h with h1 | ⟨m, hm, h2, h3⟩
        · rcases List.mem_append.mp h1 with h1 | h1
          · exact Or.inl h1
          · have : c = a2r nbr := by simpa using h1
            exact Or.inr ⟨nbr, List.mem_cons_self _ _, hnot, this.symm⟩
        · exact Or.inr ⟨m, List.mem_cons_of_mem _ hm, h2, h3⟩

theorem toInt_draw_lt (h : ℚ) (m : Nat) (h0 : 0 ≤ h) (h1 : h < 1) (hm : 0 < m) :
    (toInt (h * (m : ℚ))).toNat < m := by
  have hm' : (0 : ℚ) < m := by exact_mod_cast hm
  have hnn : 0 ≤ h * (m : ℚ) := mul_nonneg h0 (le_of_lt hm')
  unfold toInt
  simp only [hnn, if_true]
  rw [Int.toNat_lt (Int.floor_nonneg.mpr hnn), Int.floor_lt]
  have : h * (m : ℚ) < 1 * m := mul_lt_mul_of_pos_right h1 hm'
  simpa using this

theorem getD_mem_of_lt {l : List Nat} {i : Nat} (h : i < l.length) : l.getD i 0 ∈ l := by
  rw [List.getD_eq_getElem?_getD, List.getElem?_eq_getElem h]
  exact List.getElem_mem h

theorem getD_set_self_mem (l : List (List Nat)) (i j : Nat) (e x : Nat)
    (hx : x ∈ l.getD j []) : x ∈ (l.set i (l.getD i [] ++ [e])).getD j [] := by
  rw [getD_set_regions]
  split
  · rename_i h
    rw [h.1]
    exact List.mem_append_left _ hx
  · exact hx

theorem init_solution_enclave_step_conn (mp : Maxp) (n : Nat) (hw : GraphOn n mp.w)
    (hsym : Symmetric mp.w) (hloop : LoopFree mp.w) (htest : mp.test = false)
    (hhash : ∀ s, 0 ≤ mp.hash s ∧ mp.hash s < 1) (es : EnclaveState) (e : Nat)
    (rest : List Nat) (he : es.enclaves = e :: rest) (hinv : EnclaveConnInv mp n es) :
    EnclaveConnInv mp n (mp.init_solution_enclave_step e rest es) := by
  obtain ⟨h1, h2, h3⟩ := hinv
  have hen : e < n := h1 e (by simp [he])
  have hrest : ∀ x ∈ rest, x < n := fun x hx => h1 x (by simp [he, hx])
  unfold init_solution_enclave_step
  simp only [htest, Bool.false_eq_true, if_false]
  split
  · rename_i hne
    have hlen : 0 < (init_solution_enclave_candidates rest es.a2r (mp.w e) []).length := by
      cases hc : init_solution_enclave_candidates rest es.a2r (mp.w e) [] with
      | nil => simp [hc] at hne
      | cons a as => simp
    have hlt := toInt_draw_lt (mp.hash es.seed_local) _ (hhash _).1 (hhash _).2 hlen
    have hmem := getD_mem_of_lt hlt
    generalize (init_solution_enclave_candidates rest es.a2r (mp.w e) []).getD
      (toInt (mp.hash es.seed_local *
          ↑(init_solution_enclave_candidates rest es.a2r (mp.w e) []).length)).toNat 0 = rid
      at hmem ⊢
    rcases mem_enclave_candidates _ _ _ _ _ hmem with h | ⟨nbr, hnbr, hnot, ha⟩
    · simp at h
    · have hnbrn : nbr < n := hw e hen nbr hnbr
      have hne' : nbr ≠ e := fun eq => hloop e (eq ▸ hnbr)
      have hin := (h3 nbr hnbrn).resolve_left (by
        rw [he]
        simp [hne', hnot])
      rw [ha] at hin
      obtain ⟨hrid, hnbrmem⟩ := hin
      refine ⟨hrest, ?_, ?_⟩
      · intro r hr
        rcases mem_of_mem_set hr with h | h
        · rw [h]
          exact connected_append_adjacent (h2 _ (getD_mem_regions hrid)) hnbrmem
            (hsym _ _ hnbr) hnbr
        · exact h2 r h
      · intro x hx
        simp only [List.length_set]
        by_cases hxe : x = e
        · right
          subst hxe
          simp only [if_true]
          refine ⟨hrid, ?_⟩
          rw [getD_set_regions]
          simp [hrid]
        · simp only [hxe, if_false]
          rcases h3 x hx with h | ⟨ha1, ha2⟩
          · left
            rw [he] at h
            simpa [hxe] using h
          · right
            exact ⟨ha1, getD_set_self_mem _ _ _ _ _ ha2⟩
  · refine ⟨?_, h2, ?_⟩
    · intro x hx
      simp only [List.mem_append, List.mem_singleton] at hx
      rcases hx with hx | hx
      · exact hrest x hx
      · exact hx ▸ hen
    · intro x hx
      rcases h3 x hx with h | h
      · left
        rw [he] at h
        simp only [List.mem_append, List.mem_singleton]
        rcases List.mem_cons.mp h with h | h
        · exact Or.inr h
        · exact Or.inl h
      · exact Or.inr h

theorem connected_of_rooted {w : Nat → List Nat} (hsym : Symmetric w) {r : List Nat}
    (h : Rooted w r) : Connected w r := by
  obtain ⟨s, hs, hall⟩ := h
  intro a ha b hb
  exact ((hall a ha).symm hsym hs).trans (hall b hb)

theorem init_solution_enclave_step_nonempty (mp : Maxp) (es : EnclaveState) (e : Nat)
    (rest : List Nat) (hinv : ∀ r ∈ es.regn, r ≠ []) :
    ∀ r ∈ (mp.init_solution_enclave_step e rest es).regn, r ≠ [] := by
  unfold init_solution_enclave_step
  simp only
  split
  · intro r hr
    rcases mem_of_mem_set hr with h | h
    · rw [h]
      simp
    · exact hinv r h
  · exact hinv

theorem pathGraph_loopFree (n : Nat) : LoopFree (pathGraph n) := by
  intro i h
  unfold pathGraph at h
  by_cases hi : i < n
  · simp only [hi, if_true, List.mem_append] at h
    rcases h with h | h
    · by_cases h0 : i = 0
      · simp [h0] at h
      · simp [h0] at h
        omega
    · by_cases h1 : i + 1 < n
      · simp [h1] at h
      · simp [h1] at h
  · simp [hi] at h

theorem scenario5_hash_range : ∀ s, 0 ≤ scenario5.hash s ∧ scenario5.hash s < 1 := by
  intro s
  simp [scenario5]

/-! ## The construction attempt -/

theorem init_solution_candidates_mem (mp : Maxp) (hord : OrderOk mp.order)
    (hseeds : ∀ s ∈ mp.seeds, s < mp.num_obs) (fuel s : Nat) (c : List Nat) (s' : Nat)
    (h : mp.init_solution_candidates fuel s = some (c, s')) (x : Nat) :
    x ∈ c ↔ x < mp.num_obs := by
  by_cases he : mp.seeds = []
  · rw [(init_solution_candidates_perm mp he fuel s c s' h).mem_iff, List.mem_range]
  · unfold init_solution_candidates at h
    have he' : mp.seeds.isEmpty = false := by
      cases hs : mp.seeds with
      | nil => exact absurd hs he
      | cons a as => rfl
    simp only [he', Bool.false_eq_true, if_false, Option.some.injEq, Prod.mk.injEq] at h
    rw [← h.1, mem_order_iff hord, mem_foldl_set_true, mem_foldl_set_true, List.mem_range]
    constructor
    · rintro ((h1 | h1) | h1)
      · simp [BoolMap.empty] at h1
      · exact hseeds x h1
      · exact h1
    · exact fun h1 => Or.inr h1

theorem init_solution_attempt_cases (mp : Maxp) (n : Nat) (hn : n = mp.num_obs)
    (hw : GraphOn n mp.w) (hord : OrderOk mp.order)
    (hseeds : ∀ s ∈ mp.seeds, s < mp.num_obs)
    (fuel seed_local : Nat) (q : List Nat) (r : Attempt)
    (h : mp.init_solution_attempt fuel seed_local q = some r) (hf : r.feasible = true) :
    ∃ (bs : BuildState) (es es' : EnclaveState) (f : Nat),
      BuildInv mp n bs ∧ bs.candidates = []
      ∧ es.enclaves = bs.enclaves ∧ es.regn = bs.regn ∧ es.a2r = init_solution_a2r bs.regn
      ∧ mp.init_solution_enclave_loop f es = some es'
      ∧ r.regn = es'.regn ∧ r.a2r = es'.a2r := by
  unfold init_solution_attempt at h
  split at h
  · simp at h
  · rename_i candidates s1 hcand
    have hmem := init_solution_candidates_mem mp hord hseeds fuel seed_local candidates s1 hcand
    rw [← hn] at hmem
    split at h
    · simp at h
    · rename_i bs hgrow
      have hstart : BuildInv mp n
          { candidates := candidates
            candidates_dict := fun x => decide (x ∈ candidates)
            regn := []
            enclaves := [] } := by
        refine ⟨?_, ?_, ?_, ?_⟩
        · intro x hx
          exact Or.inl ((hmem x).mpr hx)
        · intro x hx
          exact (hmem x).mp hx
        · intro x hx
          simp at hx
        · intro x hx
          simp at hx
      obtain ⟨hbs, hempty⟩ := init_solution_grow_inv mp n hw hord _ _ _ bs hstart hgrow
      split at h
      · simp only [Option.some.injEq] at h
        rw [← h] at hf
        simp at hf
      · dsimp only at h
        split at h
        · simp at h
        · rename_i es' hloop
          simp only [Option.some.injEq] at h
          refine ⟨bs, _, es', _, hbs, hempty, rfl, rfl, rfl, hloop, ?_, ?_⟩
          · rw [← h]
          · rw [← h]

/-- The construction attempt on scenario 5 with the hash constantly `0`. -/
theorem scenario5_attempt :
    ∃ r, scenario5.init_solution_attempt 1 0 [] = some r
      ∧ r.no_region = false ∧ r.feasible = true
      ∧ r.regn = [[1, 0], [2, 1], [3, 2]]
      ∧ (List.range 4).map r.a2r = [0, 1, 2, 2] := by
  have h1 : (scenario5.init_solution_attempt 1 0 []).map
      (fun r => (r.no_region, r.feasible, r.regn, (List.range 4).map r.a2r))
      = some (false, true, [[1, 0], [2, 1], [3, 2]], [0, 1, 2, 2]) := by decide!
  cases hA : scenario5.init_solution_attempt 1 0 [] with
  | none => simp [hA] at h1
  | some r =>
    simp only [hA, Option.map_some', Option.some.injEq, Prod.mk.injEq] at h1
    exact ⟨r, rfl, h1⟩

/-! ## C3: the regions of a construction meet the floor -/

theorem scenario5_seeds : ∀ s ∈ scenario5.seeds, s < scenario5.num_obs := by
  intro s hs
  simp [scenario5] at hs

theorem scenario5_t_nonneg : ∀ i, i < scenario5.num_obs → 0 ≤ scenario5.floor_variable i := by
  intro i _
  simp [scenario5]

/-- C5: for a symmetric, loop-free contiguity graph on the areas and `test = false`, for
every hash with values in `[0, 1)` (every sequence of RNG draws), every traversal order
of the hash maps, and with or without pre-assigned seeds (entries below `num_obs`), every
region of a construction attempt of `init_solution` that ends feasible (after the enclave
assignment) induces a connected subgraph and is not empty. -/
theorem init_solution_regions_connected (mp : Maxp) (hw : GraphOn mp.num_obs mp.w)
    (hsym : Symmetric mp.w) (hloop : LoopFree mp.w) (hord : OrderOk mp.order)
    (hseeds : ∀ s ∈ mp.seeds, s < mp.num_obs) (htest : mp.test = false)
    (hhash : ∀ s, 0 ≤ mp.hash s ∧ mp.hash s < 1)
    (fuel seed_local : Nat) (q : List Nat) (r : Attempt)
    (h : mp.init_solution_attempt fuel seed_local q = some r) (hf : r.feasible = true) :
    ∀ region ∈ r.regn, Connected mp.w region ∧ region ≠ [] := by
  obtain ⟨bs, es, es', f, hbs, hempty, he, hr, ha, hloop', hregn, _⟩ :=
    init_solution_attempt_cases mp mp.num_obs rfl hw hord hseeds fuel seed_local q r h hf
  have hstart : EnclaveConnInv mp mp.num_obs es ∧ ∀ r ∈ es.regn, r ≠ [] := by
    refine ⟨⟨?_, ?_, ?_⟩, ?_⟩
    · rw [he]
      exact hbs.2.2.1
    · rw [hr]
      exact fun r hr => connected_of_rooted hsym (hbs.2.2.2 r hr).2.1
    · intro x hx
      rw [he, hr, ha]
      rcases hbs.1 x hx with h1 | h1 | h1
      · rw [hempty] at h1
        simp at h1
      · exact Or.inl h1
      · exact Or.inr (init_solution_a2r_spec bs.regn x h1)
    · rw [hr]
      intro r hr hnil
      obtain ⟨s, hs, _⟩ := (hbs.2.2.2 r hr).2.1
      rw [hnil] at hs
      simp at hs
  have hfin := init_solution_enclave_loop_induction mp
    (fun es => EnclaveConnInv mp mp.num_obs es ∧ ∀ r ∈ es.regn, r ≠ [])
    (fun es e rest he hinv =>
      ⟨init_solution_enclave_step_conn mp mp.num_obs hw hsym hloop htest hhash es e rest he
        hinv.1, init_solution_enclave_step_nonempty mp es e rest hinv.2⟩)
    f es es' hstart hloop'
  rw [hregn]
  exact fun region hreg => ⟨hfin.1.2.1 region hreg, hfin.2 region hreg⟩

/-- Witness for C5: scenario 5 with the hash constantly `0`. -/
theorem init_solution_regions_connected_witness :
    GraphOn scenario5.num_obs scenario5.w ∧ Symmetric scenario5.w ∧ LoopFree scenario5.w
    ∧ OrderOk scenario5.order ∧ (∀ s ∈ scenario5.seeds, s < scenario5.num_obs)
    ∧ scenario5.test = false
    ∧ (∀ s, 0 ≤ scenario5.hash s ∧ scenario5.hash s < 1)
    ∧ ∃ r, scenario5.init_solution_attempt 1 0 [] = some r ∧ r.feasible = true
        ∧ r.regn = [[1, 0], [2, 1], [3, 2]]
        ∧ ∀ region ∈ r.regn, Connected scenario5.w region ∧ region ≠ [] :=
  ⟨pathGraph_graphOn 4, pathGraph_symmetric 4, pathGraph_loopFree 4, orderOk_id,
    scenario5_seeds, rfl, scenario5_hash_range,
    scenario5_attempt.elim fun r hr => ⟨r, hr.1, hr.2.2.1, hr.2.2.2.1,
      init_solution_regions_connected scenario5 (pathGraph_graphOn 4)
        (pathGraph_symmetric 4) (pathGraph_loopFree 4) orderOk_id scenario5_seeds rfl
        scenario5_hash_range 1 0 [] r hr.1 hr.2.2.1⟩⟩

/-! ## C1: a feasible construction need not be a partition -/

/-- C1 (defect of the code): on scenario 5 (the symmetric, loop-free path
`0 – 1 – 2 – 3`, `t = [1,1,1,1]`, `floor = 2`, no pre-assigned seeds, `test = false`)
with the hash constantly `0`, the candidate order is
`[1, 2, 3, 0]` and the construction attempt of `init_solution` ends feasible with the
regions `{1,0}`, `{2,1}`, `{3,2}` and `a2r = [0, 1, 2, 2]`: areas `1` and `2` lie in two
regions, so I1 and I4 fail.  A popped seed keeps its flag in `candidates_dict`, so a
later region takes it again. -/
theorem init_solution_attempt_not_partition :
    GraphOn 4 scenario5.w ∧ Symmetric scenario5.w ∧ LoopFree scenario5.w
    ∧ (∀ i, i < scenario5.num_obs → 0 ≤ scenario5.floor_variable i)
    ∧ scenario5.seeds = [] ∧ scenario5.test = false
    ∧ (∀ s, 0 ≤ scenario5.hash s ∧ scenario5.hash s < 1)
    ∧ scenario5.init_solution_candidates 1 0 = some ([1, 2, 3, 0], 3)
    ∧ ∃ r, scenario5.init_solution_attempt 1 0 [] = some r
        ∧ r.no_region = false ∧ r.feasible = true
        ∧ r.regn = [[1, 0], [2, 1], [3, 2]]
        ∧ (List.range 4).map r.a2r = [0, 1, 2, 2]
        ∧ ¬ I1 4 r.regn ∧ ¬ I4 4 r.regn r.a2r := by
  refine ⟨pathGraph_graphOn 4, pathGraph_symmetric 4, pathGraph_loopFree 4,
    scenario5_t_nonneg, rfl, rfl, scenario5_hash_range, by decide!, ?_⟩
  obtain ⟨r, hA, e1, e2, e3, e4⟩ := scenario5_attempt
  refine ⟨r, hA, e1, e2, e3, e4, ?_, ?_⟩
  · rw [e3]
    unfold I1
    decide
  · intro h4
    have ha : r.a2r 1 = 1 := by
      have := congrArg (fun l => l.getD 1 0) e4
      simpa using this
    have := (h4 1 (by decide) 0 (by rw [e3]; decide)).mpr (by rw [e3]; decide)
    rw [ha] at this
    exact absurd this (by decide)

/-! ## The loops of a construction attempt terminate within their fuel -/

theorem init_solution_enclave_step_measure (mp : Maxp) (L : Nat) (es : EnclaveState)
    (e : Nat) (rest : List Nat) (he : es.enclaves = e :: rest)
    (hcount : es.encCount = es.enclaves.length) (hatt : es.encAttempts < es.encCount)
    (hL : es.enclaves.length ≤ L) :
    (mp.init_solution_enclave_step e rest es).encCount
        = (mp.init_solution_enclave_step e rest es).enclaves.length
    ∧ (mp.init_solution_enclave_step e rest es).encAttempts
        ≤ (mp.init_solution_enclave_step e rest es).encCount
    ∧ (mp.init_solution_enclave_step e rest es).enclaves.length ≤ L
    ∧ enclaveMeasure L (mp.init_solution_enclave_step e rest es) + 1
        ≤ enclaveMeasure L es := by
  rw [he] at hcount hL
  simp only [List.length_cons] at hcount hL
  unfold init_solution_enclave_step enclaveMeasure
  simp only
  have hmul : (rest.length + 1) * (L + 1) = rest.length * (L + 1) + (L + 1) := by ring
  split
  · simp only [he, List.length_cons, Nat.sub_zero]
    refine ⟨trivial, by omega, ?_⟩
    omega
  · simp only [he, List.length_append, List.length_singleton, List.length_cons,
      List.length_nil, Nat.zero_add]
    refine ⟨hcount, by omega, hL, ?_⟩
    omega

theorem init_solution_enclave_loop_total (mp : Maxp) (L : Nat) (fuel : Nat)
    (es : EnclaveState) (hcount : es.encCount = es.enclaves.length)
    (hatt : es.encAttempts ≤ es.encCount) (hL : es.enclaves.length ≤ L)
    (hfuel : enclaveMeasure L es ≤ fuel) :
    ∃ es', mp.init_solution_enclave_loop fuel es = some es'
      ∧ es'.encCount = es'.enclaves.length
      ∧ (es'.encCount = 0 ∨ es'.encAttempts = es'.encCount) := by
  induction fuel generalizing es with
  | zero =>
    have h0 : enclaveMeasure L es = 0 := by omega
    unfold enclaveMeasure at h0
    have h1 : es.enclaves.length * (L + 1) = 0 := by omega
    have h2 : es.enclaves.length = 0 := by
      rcases Nat.mul_eq_zero.mp h1 with h | h
      · exact h
      · omega
    refine ⟨es, ?_, hcount, Or.inl (by omega)⟩
    have : es.encCount = 0 := by omega
    simp [init_solution_enclave_loop, this]
  | succ fuel ih =>
    simp only [init_solution_enclave_loop]
    split
    · rename_i hcond
      simp only [gt_iff_lt, Bool.and_eq_true, decide_eq_true_eq, bne_iff_ne, ne_eq] at hcond
      split
      · rename_i hnil
        rw [hnil] at hcount
        simp only [List.length_nil] at hcount
        omega
      · rename_i e rest he
        have hlt : es.encAttempts < es.encCount := by omega
        obtain ⟨a, b, c, d⟩ :=
          init_solution_enclave_step_measure mp L es e rest he hcount hlt hL
        exact ih _ a b c (by omega)
    · rename_i hcond
      simp only [gt_iff_lt, Bool.and_eq_true, decide_eq_true_eq, bne_iff_ne, ne_eq, not_and,
        not_not] at hcond
      refine ⟨es, rfl, hcount, ?_⟩
      by_cases h0 : es.encCount = 0
      · exact Or.inl h0
      · exact Or.inr (hcond (by omega))

/-- C11, counterexample.  For the one-member region `{3}` of the path with four areas and
the leaver `3`, `region ∖ {leaver}` is empty and `check_contiguity` does not return
`false`: its final loop finds no unmarked id and returns `true`. -/
theorem check_contiguity_empty_counterexample :
    remove [3] 3 = [] ∧ ¬ (scenario5.check_contiguity (pathGraph 4) [3] 3 = false) := by
  decide

/-- C11, as amended.  When `region ∖ {leaver}` is empty, `check_contiguity` returns `true`
(no id is left unmarked); the removal that would empty the region is rejected by
`check_floor(region, leaver)`, which returns `false` there whenever `floor > 0`. -/
theorem check_contiguity_empty (mp : Maxp) (w : Nat → List Nat) (ids : List Nat) (leaver : Nat)
    (hord : OrderOk mp.order) (h : remove ids leaver = []) :
    mp.check_contiguity w ids leaver = true
      ∧ (0 < mp.floor → mp.check_floor_leaver ids leaver = false) := by
  refine ⟨check_contiguity_of_nil mp hord w ids leaver h, fun hf => ?_⟩
  cases hc : mp.check_floor_leaver ids leaver with
  | false => rfl
  | true =>
    have h1 := (check_floor_leaver_iff mp ids leaver).1 hc
    rw [h, floor_sum_nil] at h1
    exact absurd hf (not_lt.2 h1)

theorem check_contiguity_empty_witness :
    scenario5.check_contiguity (pathGraph 4) [3] 3 = true
      ∧ (0 < scenario5.floor → scenario5.check_floor_leaver [3] 3 = false) :=
  check_contiguity_empty scenario5 (pathGraph 4) [3] 3 orderOk_id (by decide)

/-! ## Auxiliary lemmas: unfolding the loop of `swap` -/

theorem swap_loop_stop (mp : Maxp) (nr fuel : Nat) (st : SwapState) (it tot : Nat)
    (h : (mp.swap_pass nr st).moves_made = 0) :
    mp.swap_loop nr (fuel + 1) st it tot
      = some ⟨(mp.swap_pass nr st).init_regions, (mp.swap_pass nr st).init_area2region,
          it + 1, tot + (mp.swap_pass nr st).moves_made⟩ := by
  simp only [swap_loop, h, if_true]

theorem swap_loop_continue (mp : Maxp) (nr fuel : Nat) (st : SwapState) (it tot : Nat)
    (h : (mp.swap_pass nr st).moves_made ≠ 0) :
    mp.swap_loop nr (fuel + 1) st it tot
      = mp.swap_loop nr fuel (mp.swap_pass nr st) (it + 1)
          (tot + (mp.swap_pass nr st).moves_made) := by
  simp only [swap_loop, h, if_false]

/-! ## C19: scenario 5 -/

/-- C19, counterexample.  On scenario 5 (path `0 – 1 – 2 – 3`, `t = 1`, `floor = 2`,
`z = [0, 0, 10, 10]`) started from `{{0,1,2},{3}}`, `swap` does make a move: its first
pass moves one area, and the partition it returns is not the initial one. -/
theorem swap_scenario5_counterexample :
    ¬ ((scenario5.swap_pass 2 ⟨[[0, 1, 2], [3]], a2rOfList [0, 0, 0, 1], [1, 1], 0⟩).moves_made
          = 0
        ∨ (scenario5.swap 5 [[0, 1, 2], [3]] (a2rOfList [0, 0, 0, 1])).map (fun r => r.regions)
          = some [[0, 1, 2], [3]]) := by
  decide!

/-- C19, as amended.  On scenario 5 started from `{{0,1,2},{3}}`, the first pass of `swap`
moves area `2` from `{0,1,2}` to `{3}` (the donor `{0,1}` still meets the floor `2` and
stays connected; the objective change is `-200/3`), the second pass makes no move, and
`swap` returns `{{0,1},{3,2}}` with `area2region = [0,0,1,1]`, objective `0`,
`swap_iterations = 2` and `total_moves = 1`. -/
theorem swap_scenario5 :
    IsCandidate scenario5 [[0, 1, 2], [3]] (a2rOfList [0, 0, 0, 1]) 1 2
    ∧ scenario5.objective_function_change 2 [3] [0, 1, 2] = -200 / 3
    ∧ (scenario5.swap_pass 2 ⟨[[0, 1, 2], [3]], a2rOfList [0, 0, 0, 1], [1, 1], 0⟩).moves_made
        = 1
    ∧ (scenario5.swap_pass 2 ⟨[[0, 1, 2], [3]], a2rOfList [0, 0, 0, 1], [1, 1], 0⟩).init_regions
        = [[0, 1], [3, 2]]
    ∧ (scenario5.swap_passes 2 2
        ⟨[[0, 1, 2], [3]], a2rOfList [0, 0, 0, 1], [1, 1], 0⟩).moves_made = 0
    ∧ scenario5.objective_function [[0, 1], [3, 2]] = 0
    ∧ ∀ fuel, (scenario5.swap (fuel + 2) [[0, 1, 2], [3]] (a2rOfList [0, 0, 0, 1])).map
          (fun r => (r.regions, (List.range 4).map r.area2region, r.swap_iterations,
            r.total_moves))
        = some ([[0, 1], [3, 2]], [0, 0, 1, 1], 2, 1) := by
  refine ⟨?_, by decide!, by decide!, by decide!, by decide!, by decide!, ?_⟩
  · unfold IsCandidate
    refine ⟨by decide, ⟨3, by decide, by decide⟩, by decide!, by decide!⟩
  · intro fuel
    unfold swap
    rw [show ([[0, 1, 2], [3]] : List (List Nat)).length = 2 from rfl,
      swap_loop_continue _ _ _ _ _ _ (by decide!), swap_loop_stop _ _ _ _ _ _ (by decide!)]
    decide!

/-! ## C20: the objective does not depend on the order of members or regions -/

theorem SumOfSquares_perm {l l' : List ℚ} (h : l.Perm l') : SumOfSquares l = SumOfSquares l' := by
  unfold SumOfSquares
  simp only
  rw [h.sum_eq, h.length_eq]
  exact (h.map _).sum_eq

theorem objective_function_region_perm (mp : Maxp) {S S' : List Nat} (h : S.Perm S') :
    mp.objective_function_region S = mp.objective_function_region S' := by
  unfold objective_function_region
  rw [foldl_add_eq_sum, foldl_add_eq_sum]
  congr 3
  funext m
  exact SumOfSquares_perm (h.map _)

theorem objective_function_forall₂ (mp : Maxp) {P P' : List (List Nat)}
    (h : List.Forall₂ List.Perm P P') :
    mp.objective_function P = mp.objective_function P' := by
  rw [objective_function_eq_sum, objective_function_eq_sum]
  induction h with
  | nil => rfl
  | cons hab _ ih =>
    simp only [List.map_cons, List.sum_cons]
    rw [ih, objective_function_region_perm mp hab]

/-- C20: the value `objective_function` computes for a region (the within sum of squared
deviations `SSD`) is the same for any two listings of the same members, and the value it
computes for a partition is unchanged when the members are reordered inside each region
and when the regions themselves are reordered. -/
theorem objective_function_perm_invariant (mp : Maxp) (S S' : List Nat) (hS : S.Perm S')
    (P P' Q : List (List Nat)) (hP : List.Forall₂ List.Perm P P') (hQ : P'.Perm Q) :
    mp.objective_function_region S = mp.objective_function_region S'
    ∧ mp.SSD S = mp.SSD S'
    ∧ mp.objective_function P = mp.objective_function Q := by
  refine ⟨objective_function_region_perm mp hS, ?_, ?_⟩
  · rw [← objective_function_region_eq_SSD, ← objective_function_region_eq_SSD]
    exact objective_function_region_perm mp hS
  · rw [objective_function_forall₂ mp hP, objective_function_eq_sum,
      objective_function_eq_sum]
    exact (hQ.map _).sum_eq

/-- Witness for C20: scenario 5 with the region `{0,1,2}` listed in two orders and the
partition `{{0,1,2},{3}}` listed as `{{3},{2,1,0}}`. -/
theorem objective_function_perm_invariant_witness :
    scenario5.objective_function_region [0, 1, 2] = scenario5.objective_function_region [2, 0, 1]
    ∧ scenario5.SSD [0, 1, 2] = scenario5.SSD [2, 0, 1]
    ∧ scenario5.objective_function [[0, 1, 2], [3]]
      = scenario5.objective_function [[3], [2, 1, 0]] :=
  objective_function_perm_invariant scenario5 [0, 1, 2] [2, 0, 1] (by decide)
    [[0, 1, 2], [3]] [[2, 1, 0], [3]] [[3], [2, 1, 0]]
    (List.Forall₂.cons (by decide) (List.Forall₂.cons (List.Perm.refl _) List.Forall₂.nil))
    (by decide)

/-! ## Auxiliary lemmas: a pass of `swap` that makes no move -/

theorem swap_best_none (mp : Maxp) (regions : List (List Nat)) (a2r : Nat → Nat)
    (seed : Nat) (candidates : List Nat)
    (h : (mp.swap_best regions a2r seed candidates).2.2 = false) :
    ∀ area ∈ candidates,
      0 < mp.objective_function_change area (regions.getD seed [])
        (regions.getD (a2r area) []) := by
  unfold swap_best at h
  have key : ∀ (l : List Nat) (acc : ℚ × Nat × Bool),
      (l.foldl (fun acc area =>
          if mp.objective_function_change area (regions.getD seed [])
              (regions.getD (a2r area) []) ≤ acc.1
          then (mp.objective_function_change area (regions.getD seed [])
              (regions.getD (a2r area) []), area, true) else acc) acc).2.2 = false →
      acc.2.2 = false ∧ ∀ area ∈ l, ¬ mp.objective_function_change area (regions.getD seed [])
              (regions.getD (a2r area) []) ≤ acc.1 := by
    intro l
    induction l with
    | nil =>
      intro acc h
      exact ⟨h, by simp⟩
    | cons a as ih =>
      intro acc h
      simp only [List.foldl_cons] at h
      by_cases hle : mp.objective_function_change a (regions.getD seed [])
          (regions.getD (a2r a) []) ≤ acc.1
      · simp only [hle, if_true] at h
        have := (ih _ h).1
        simp at this
      · simp only [hle, if_false] at h
        obtain ⟨h1, h2⟩ := ih _ h
        refine ⟨h1, ?_⟩
        intro area harea
        rcases List.mem_cons.mp harea with e | e
        · rw [e]
          exact hle
        · exact h2 area e
  intro area harea
  exact not_le.mp ((key candidates (0, 0, false) h).2 area harea)

theorem swap_seed_eq_move (mp : Maxp) (st : SwapState) (seed : Nat)
    (h1 : (mp.swap_candidates st.init_regions st.init_area2region
        (swap_neighbors_dict mp.w (swap_member_dict (st.init_regions.getD seed []))
          (st.init_regions.getD seed []))).isEmpty = false)
    (h2 : (mp.swap_best st.init_regions st.init_area2region seed
        (mp.swap_candidates st.init_regions st.init_area2region
          (swap_neighbors_dict mp.w (swap_member_dict (st.init_regions.getD seed []))
            (st.init_regions.getD seed [])))).2.2 = true) :
    mp.swap_seed st seed = swap_move st seed
      (mp.swap_best st.init_regions st.init_area2region seed
        (mp.swap_candidates st.init_regions st.init_area2region
          (swap_neighbors_dict mp.w (swap_member_dict (st.init_regions.getD seed []))
            (st.init_regions.getD seed [])))).2.1 := by
  unfold swap_seed
  simp only [h1, h2, if_true, Bool.false_eq_true, if_false]

theorem run_threaded_ranges_length (initial nCPUs : Nat) :
    (run_threaded_ranges initial nCPUs).length
      = if initial / nCPUs > 0 then nCPUs else initial % nCPUs := by
  simp [run_threaded_ranges]

theorem run_threaded_ranges_getD (initial nCPUs i : Nat)
    (hi : i < (run_threaded_ranges initial nCPUs).length) :
    (run_threaded_ranges initial nCPUs).getD i (0, 0)
      = if i < initial % nCPUs then
          (((i * (initial / nCPUs + 1) : Nat) : Int),
            (((i + 1) * (initial / nCPUs + 1) : Nat) : Int) - 1)
        else
          (((initial % nCPUs * (initial / nCPUs + 1)
              + (i - initial % nCPUs) * (initial / nCPUs) : Nat) : Int),
            ((initial % nCPUs * (initial / nCPUs + 1)
              + (i + 1 - initial % nCPUs) * (initial / nCPUs) : Nat) : Int) - 1) := by
  rw [run_threaded_ranges_length] at hi
  rw [List.getD_eq_getElem?_getD]
  unfold run_threaded_ranges
  simp only [List.getElem?_map, List.getElem?_range hi, Option.map_some', Option.getD_some]
  split
  · refine Prod.ext ?_ ?_
    · show (i : Int) * ((initial / nCPUs : Nat) + 1) = _
      push_cast
      ring
    · show (i : Int) * ((initial / nCPUs : Nat) + 1) + (initial / nCPUs : Nat) = _
      push_cast
      ring
  · rename_i h
    have h' : initial % nCPUs ≤ i := not_lt.mp h
    have h'' : initial % nCPUs ≤ i + 1 := by omega
    refine Prod.ext ?_ ?_
    · show ((initial % nCPUs : Nat) : Int) * ((initial / nCPUs : Nat) + 1)
        + ((i : Int) - (initial % nCPUs : Nat)) * (initial / nCPUs : Nat) = _
      push_cast [Nat.cast_sub h']
      ring
    · show ((initial % nCPUs : Nat) : Int) * ((initial / nCPUs : Nat) + 1)
        + ((i : Int) - (initial % nCPUs : Nat)) * (initial / nCPUs : Nat)
        + (initial / nCPUs : Nat) - 1 = _
      push_cast [Nat.cast_sub h', Nat.cast_sub h'']
      ring

theorem run_threaded_start_succ (initial nCPUs i : Nat) :
    run_threaded_start initial nCPUs (i + 1)
      = run_threaded_start initial nCPUs i + initial / nCPUs
        + (if i < initial % nCPUs then 1 else 0) := by
  unfold run_threaded_start
  by_cases h1 : i + 1 < initial % nCPUs
  · have h2 : i < initial % nCPUs := by omega
    simp only [h1, h2, if_true]
    ring
  · by_cases h2 : i < initial % nCPUs
    · have h3 : initial % nCPUs = i + 1 := by omega
      rw [h3]
      simp only [Nat.lt_irrefl, Nat.lt_succ_self, if_true, if_false, Nat.sub_self, Nat.zero_mul,
        Nat.add_zero]
      ring
    · simp only [h1, h2, if_false]
      have h3 : i + 1 - initial % nCPUs = (i - initial % nCPUs) + 1 := by omega
      rw [h3]
      ring

theorem run_threaded_start_total (initial nCPUs : Nat) (hW : 0 < nCPUs) :
    run_threaded_start initial nCPUs (run_threaded_ranges initial nCPUs).length = initial := by
  rw [run_threaded_ranges_length]
  unfold run_threaded_start
  have hmod : initial % nCPUs < nCPUs := Nat.mod_lt _ hW
  have hdm := Nat.div_add_mod initial nCPUs
  by_cases hq : initial / nCPUs > 0
  · simp only [hq, if_true, not_lt.mpr (le_of_lt hmod), if_false]
    have : nCPUs = initial % nCPUs + (nCPUs - initial % nCPUs) := by omega
    calc initial % nCPUs * (initial / nCPUs + 1) + (nCPUs - initial % nCPUs) * (initial / nCPUs)
        = (initial % nCPUs + (nCPUs - initial % nCPUs)) * (initial / nCPUs)
            + initial % nCPUs := by ring
      _ = nCPUs * (initial / nCPUs) + initial % nCPUs := by rw [← this]
      _ = initial := hdm
  · have hq0 : initial / nCPUs = 0 := Nat.eq_zero_of_not_pos hq
    have hr : initial % nCPUs = initial := by
      rw [hq0] at hdm
      simpa using hdm
    simp only [hq, if_false, lt_irrefl, Nat.sub_self, Nat.zero_mul, Nat.add_zero, hq0,
      Nat.zero_add, Nat.mul_one, hr]

theorem run_threaded_ranges_getD_start (initial nCPUs i : Nat)
    (hi : i < (run_threaded_ranges initial nCPUs).length) :
    (run_threaded_ranges initial nCPUs).getD i (0, 0)
      = ((run_threaded_start initial nCPUs i : Int),
          (run_threaded_start initial nCPUs (i + 1) : Int) - 1) := by
  rw [run_threaded_ranges_getD initial nCPUs i hi]
  unfold run_threaded_start
  by_cases h1 : i + 1 < initial % nCPUs
  · have h2 : i < initial % nCPUs := by omega
    simp only [h1, h2, if_true]
  · by_cases h2 : i < initial % nCPUs
    · have h3 : initial % nCPUs = i + 1 := by omega
      rw [h3]
      simp only [Nat.lt_irrefl, Nat.lt_succ_self, if_true, if_false, Nat.sub_self, Nat.zero_mul,
        Nat.add_zero]
    · simp only [h1, h2, if_false]

theorem run_threaded_start_mono (initial nCPUs : Nat) {i j : Nat} (h : i ≤ j) :
    run_threaded_start initial nCPUs i ≤ run_threaded_start initial nCPUs j := by
  induction j with
  | zero =>
    have : i = 0 := Nat.le_zero.mp h
    rw [this]
  | succ j ih =>
    rcases Nat.lt_or_ge i (j + 1) with h1 | h1
    · have := ih (Nat.lt_succ_iff.mp h1)
      rw [run_threaded_start_succ, Nat.add_assoc]
      exact le_trans this (Nat.le_add_right _ _)
    · have : i = j + 1 := le_antisymm h h1
      rw [this]

theorem flatten_range'_consecutive (S : Nat → Nat) (h0 : S 0 = 0)
    (hmono : ∀ i, S i ≤ S (i + 1)) (k : Nat) :
    ((List.range k).map fun i => List.range' (S i) (S (i + 1) - S i)).flatten
      = List.range (S k) := by
  induction k with
  | zero => simp [h0]
  | succ k ih =>
    rw [List.range_succ, List.map_append, List.flatten_append, ih]
    simp only [List.map_cons, List.map_nil, List.flatten_cons, List.flatten_nil,
      List.append_nil]
    rw [List.range_eq_range', List.range_eq_range']
    have := hmono k
    have e : S (k + 1) = S k + (S (k + 1) - S k) := by omega
    conv_rhs => rw [e]
    have h := List.range'_append_1 0 (S k) (S (k + 1) - S k)
    simp only [Nat.zero_add] at h
    rw [h, Nat.add_comm]

theorem run_indices_eq (A B : Nat) (h : A ≤ B) :
    run_indices (A : Int) ((B : Int) - 1) = (List.range' A (B - A)).map fun s : Nat => (s : Int) := by
  unfold run_indices
  have : ((B : Int) - 1 + 1 - (A : Int)).toNat = B - A := by omega
  rw [this, List.range'_eq_map_range, List.map_map]
  apply List.map_congr_left
  intro j _
  simp

theorem list_eq_map_getD {α : Type} (l : List α) (d : α) :
    l = (List.range l.length).map fun i => l.getD i d := by
  apply List.ext_getElem
  · simp
  · intro i h1 h2
    simp [List.getD_eq_getElem?_getD, List.getElem?_eq_getElem h1]

theorem run_threaded_indices (initial nCPUs : Nat) (hW : 0 < nCPUs) :
    ((run_threaded_ranges initial nCPUs).map fun ab => run_indices ab.1 ab.2).flatten
      = (List.range initial).map fun s : Nat => (s : Int) := by
  have e := list_eq_map_getD (run_threaded_ranges initial nCPUs) (0, 0)
  have hmap : (run_threaded_ranges initial nCPUs).map (fun ab => run_indices ab.1 ab.2)
      = (List.range (run_threaded_ranges initial nCPUs).length).map
          (fun i => (List.range' (run_threaded_start initial nCPUs i)
            (run_threaded_start initial nCPUs (i + 1) - run_threaded_start initial nCPUs i)).map
              fun s : Nat => (s : Int)) := by
    conv_lhs => rw [e]
    rw [List.map_map]
    apply List.map_congr_left
    intro i hi
    have hi' := List.mem_range.mp hi
    show run_indices ((run_threaded_ranges initial nCPUs).getD i (0, 0)).1
      ((run_threaded_ranges initial nCPUs).getD i (0, 0)).2 = _
    rw [run_threaded_ranges_getD_start initial nCPUs i hi']
    exact run_indices_eq _ _ (run_threaded_start_mono initial nCPUs (Nat.le_succ i))
  rw [hmap]
  have := flatten_range'_consecutive (run_threaded_start initial nCPUs)
    (by simp [run_threaded_start]) (fun i => run_threaded_start_mono initial nCPUs (Nat.le_succ i))
    (run_threaded_ranges initial nCPUs).length
  rw [run_threaded_start_total initial nCPUs hW] at this
  rw [← this, List.map_flatten, List.map_map]
  rfl

theorem run_threaded_ranges_length_pos (initial nCPUs : Nat) (hi : 1 ≤ initial)
    (hW : 1 ≤ nCPUs) : 0 < (run_threaded_ranges initial nCPUs).length := by
  rw [run_threaded_ranges_length]
  have hdm := Nat.div_add_mod initial nCPUs
  by_cases hq : initial / nCPUs > 0
  · simp only [hq, if_true]
    exact hW
  · simp only [hq, if_false]
    have hq0 : initial / nCPUs = 0 := Nat.eq_zero_of_not_pos hq
    rw [hq0] at hdm
    simp only [Nat.mul_zero, Nat.zero_add] at hdm
    omega

theorem run_threaded_start_lt (initial nCPUs i : Nat)
    (hi : i < (run_threaded_ranges initial nCPUs).length) :
    run_threaded_start initial nCPUs i < run_threaded_start initial nCPUs (i + 1) := by
  rw [run_threaded_ranges_length] at hi
  rw [run_threaded_start_succ]
  by_cases hq : initial / nCPUs > 0
  · have : 0 < initial / nCPUs := hq
    rw [Nat.add_assoc]
    exact Nat.lt_add_of_pos_right (Nat.add_pos_left this _)
  · simp only [hq, if_false] at hi
    simp only [hi, if_true]
    exact Nat.lt_succ_of_le (Nat.le_add_right _ _)

/-! ## C16: the partitioning of the starts among the worker threads -/

/-- C16: for `initial ≥ 1` starts and `W ≥ 1` hardware threads, the ranges `[a, b]` that
`run_threaded` gives to its workers are non-empty (`a ≤ b`), start at `0`, are consecutive
(each range begins right after the previous one ends, hence they are pairwise disjoint),
and end at `initial - 1`; the first `initial mod W` ranges have `⌈initial / W⌉` elements
and the others `⌊initial / W⌋`; and the start indices the workers execute, listed range
after range, are exactly `0, 1, …, initial - 1`, each once. -/
theorem run_threaded_ranges_spec (initial nCPUs : Nat) (hi : 1 ≤ initial) (hW : 1 ≤ nCPUs) :
    run_threaded_ranges initial nCPUs ≠ []
    ∧ (∀ i, i < (run_threaded_ranges initial nCPUs).length →
        ((run_threaded_ranges initial nCPUs).getD i (0, 0)).1
          ≤ ((run_threaded_ranges initial nCPUs).getD i (0, 0)).2)
    ∧ ((run_threaded_ranges initial nCPUs).getD 0 (0, 0)).1 = 0
    ∧ (∀ i, i + 1 < (run_threaded_ranges initial nCPUs).length →
        ((run_threaded_ranges initial nCPUs).getD (i + 1) (0, 0)).1
          = ((run_threaded_ranges initial nCPUs).getD i (0, 0)).2 + 1)
    ∧ (∀ i j, i < j → j < (run_threaded_ranges initial nCPUs).length →
        ((run_threaded_ranges initial nCPUs).getD i (0, 0)).2
          < ((run_threaded_ranges initial nCPUs).getD j (0, 0)).1)
    ∧ ((run_threaded_ranges initial nCPUs).getD
          ((run_threaded_ranges initial nCPUs).length - 1) (0, 0)).2 = (initial : Int) - 1
    ∧ (∀ i, i < (run_threaded_ranges initial nCPUs).length → i < initial % nCPUs →
        ((run_threaded_ranges initial nCPUs).getD i (0, 0)).2
          - ((run_threaded_ranges initial nCPUs).getD i (0, 0)).1 + 1
          = ⌈(initial : ℚ) / nCPUs⌉)
    ∧ (∀ i, i < (run_threaded_ranges initial nCPUs).length → initial % nCPUs ≤ i →
        ((run_threaded_ranges initial nCPUs).getD i (0, 0)).2
          - ((run_threaded_ranges initial nCPUs).getD i (0, 0)).1 + 1
          = ⌊(initial : ℚ) / nCPUs⌋)
    ∧ ((run_threaded_ranges initial nCPUs).map fun ab => run_indices ab.1 ab.2).flatten
        = (List.range initial).map fun s : Nat => (s : Int) := by
  have hpos := run_threaded_ranges_length_pos initial nCPUs hi hW
  refine ⟨?_, ?_, ?_, ?_, ?_, ?_, ?_, ?_, run_threaded_indices initial nCPUs hW⟩
  · intro h
    rw [h] at hpos
    exact Nat.lt_irrefl _ hpos
  · intro i h
    rw [run_threaded_ranges_getD_start initial nCPUs i h]
    have := run_threaded_start_lt initial nCPUs i h
    show (run_threaded_start initial nCPUs i : Int)
      ≤ (run_threaded_start initial nCPUs (i + 1) : Int) - 1
    omega
  · rw [run_threaded_ranges_getD_start initial nCPUs 0 hpos]
    have h0 : run_threaded_start initial nCPUs 0 = 0 := by
      unfold run_threaded_start
      split
      · simp
      · simp
        omega
    show (run_threaded_start initial nCPUs 0 : Int) = 0
    rw [h0]
    rfl
  · intro i h
    rw [run_threaded_ranges_getD_start initial nCPUs (i + 1) h,
      run_threaded_ranges_getD_start initial nCPUs i (by omega)]
    show (run_threaded_start initial nCPUs (i + 1) : Int)
      = (run_threaded_start initial nCPUs (i + 1) : Int) - 1 + 1
    omega
  · intro i j hij h
    rw [run_threaded_ranges_getD_start initial nCPUs j h,
      run_threaded_ranges_getD_start initial nCPUs i (by omega)]
    have := run_threaded_start_mono initial nCPUs (show i + 1 ≤ j from hij)
    show (run_threaded_start initial nCPUs (i + 1) : Int) - 1
      < (run_threaded_start initial nCPUs j : Int)
    omega
  · rw [run_threaded_ranges_getD_start initial nCPUs _ (by omega)]
    have e : (run_threaded_ranges initial nCPUs).length - 1 + 1
        = (run_threaded_ranges initial nCPUs).length := by omega
    rw [e, run_threaded_start_total initial nCPUs hW]
  · intro i h hr
    rw [run_threaded_ranges_getD_start initial nCPUs i h]
    have hs := run_threaded_start_succ initial nCPUs i
    simp only [hr, if_true] at hs
    have hW' : (0 : ℚ) < nCPUs := by exact_mod_cast hW
    have hdm := Nat.div_add_mod initial nCPUs
    have hmod : initial % nCPUs < nCPUs := Nat.mod_lt _ hW
    have hc : ⌈(initial : ℚ) / nCPUs⌉ = ((initial / nCPUs : Nat) : Int) + 1 := by
      have hr0 : 0 < initial % nCPUs := by omega
      generalize initial / nCPUs = q at hdm
      generalize initial % nCPUs = r at hdm hmod hr0
      rw [Int.ceil_eq_iff]
      have hq : (initial : ℚ) = (nCPUs : ℚ) * (q : ℚ) + (r : ℚ) := by exact_mod_cast hdm.symm
      have hr1 : (0 : ℚ) < (r : ℚ) := by exact_mod_cast hr0
      have hr2 : (r : ℚ) ≤ nCPUs := by exact_mod_cast le_of_lt hmod
      constructor
      · rw [lt_div_iff₀ hW']
        push_cast
        nlinarith
      · rw [div_le_iff₀ hW']
        push_cast
        nlinarith
    rw [hc]
    show (run_threaded_start initial nCPUs (i + 1) : Int) - 1
      - (run_threaded_start initial nCPUs i : Int) + 1 = _
    rw [hs]
    push_cast
    ring
  · intro i h hr
    rw [run_threaded_ranges_getD_start initial nCPUs i h]
    have hs := run_threaded_start_succ initial nCPUs i
    simp only [not_lt.mpr hr, if_false, Nat.add_zero] at hs
    rw [Rat.floor_natCast_div_natCast]
    show (run_threaded_start initial nCPUs (i + 1) : Int) - 1
      - (run_threaded_start initial nCPUs i : Int) + 1 = _
    rw [hs]
    push_cast
    ring

/-- Witness for C16: ten starts on four hardware threads give the ranges
`[0,2], [3,5], [6,7], [8,9]`. -/
theorem run_threaded_ranges_spec_witness :
    run_threaded_ranges 10 4 = [(0, 2), (3, 5), (6, 7), (8, 9)]
    ∧ ((run_threaded_ranges 10 4).map fun ab => run_indices ab.1 ab.2).flatten
        = (List.range 10).map fun s : Nat => (s : Int) :=
  ⟨by decide, (run_threaded_ranges_spec 10 4 (by decide) (by decide)).2.2.2.2.2.2.2.2⟩

/-! ## Auxiliary lemmas: the growth of one region, case by case -/

theorem init_solution_loop_no_region (mp : Maxp) (fuel : Nat) (best_ss : ℚ) (passes : Nat)
    (L : InitLocals) (hs : L.solving = true) (ha : L.attempts ≤ mp.MAX_ATTEMPTS) (r : Attempt)
    (hr : mp.init_solution_attempt fuel L.seed_local L.enclave_random_number = some r)
    (hno : r.no_region = true) :
    mp.init_solution_loop fuel best_ss (passes + 1) L
      = some { L with seed_local := r.seed_local, attempts := L.attempts + 1 } := by
  simp only [init_solution_loop, hs, ha, decide_True, Bool.and_self, if_true, hr, hno]

theorem init_solution_attempt_none (mp : Maxp) (fuel seed_local : Nat) (q : List Nat)
    (h : mp.init_solution_candidates fuel seed_local = none) :
    mp.init_solution_attempt fuel seed_local q = none := by
  unfold init_solution_attempt
  rw [h]

theorem init_solution_loop_done (mp : Maxp) (fuel : Nat) (best_ss : ℚ) (passes : Nat)
    (L : InitLocals) (hs : L.solving = false) :
    mp.init_solution_loop fuel best_ss passes L = some L := by
  cases passes with
  | zero => simp [init_solution_loop, hs]
  | succ passes => simp [init_solution_loop, hs]

theorem init_solution_loop_first (mp : Maxp) (fuel : Nat) (best_ss : ℚ) (passes : Nat)
    (L : InitLocals) (hs : L.solving = true) (ha : L.attempts ≤ mp.MAX_ATTEMPTS) (r : Attempt)
    (hr : mp.init_solution_attempt fuel L.seed_local L.enclave_random_number = some r)
    (hno : r.no_region = false) (hf : r.feasible = true)
    (hss : mp.objective_function r.regn < best_ss) :
    mp.init_solution_loop fuel best_ss (passes + 1) L
      = some { seed_local := r.seed_local, p := r.regn.length, solving := false
               attempts := L.attempts + 1, _regions := r.regn, _area2region := r.a2r
               enclave_random_number := r.enclave_random_number } := by
  simp only [init_solution_loop, hs, ha, decide_True, Bool.and_self, if_true, hr, hno, hf, hss,
    Bool.false_eq_true, if_false]
  rw [init_solution_loop_done _ _ _ _ _ rfl]

theorem init_solution_attempt_regn_ne_nil (mp : Maxp) (fuel seed_local : Nat) (q : List Nat)
    (r : Attempt) (h : mp.init_solution_attempt fuel seed_local q = some r)
    (hno : r.no_region = false) : r.regn ≠ [] := by
  unfold init_solution_attempt at h
  split at h
  · simp at h
  · split at h
    · simp at h
    · rename_i bs hgrow
      split at h
      · simp only [Option.some.injEq] at h
        rw [← h] at hno
        simp at hno
      · rename_i hne
        dsimp only at h
        split at h
        · simp at h
        · rename_i es' hloop
          simp only [Option.some.injEq] at h
          have hlen := init_solution_enclave_loop_induction mp
            (fun es => es.regn.length = bs.regn.length)
            (by
              intro es e rest _ hP
              unfold init_solution_enclave_step
              simp only
              split
              · simp only [List.length_set]
                exact hP
              · exact hP)
            _ _ es' rfl hloop
          rw [← h]
          intro e
          simp only at e hlen
          rw [e] at hlen
          have : bs.regn = [] := List.length_eq_zero.mp hlen.symm
          rw [this] at hne
          simp at hne

theorem init_solution_loop_spec (mp : Maxp) (fuel : Nat) (best_ss : ℚ) (passes : Nat)
    (L L' : InitLocals) (hL : L._regions = [] ∧ L.p = 0)
    (h : mp.init_solution_loop fuel best_ss passes L = some L') :
    (L'._regions = [] ∧ L'.p = 0)
    ∨ ∃ sl q r, mp.init_solution_attempt fuel sl q = some r
        ∧ r.no_region = false ∧ r.feasible = true
        ∧ mp.objective_function r.regn < best_ss
        ∧ L'._regions = r.regn ∧ L'._area2region = r.a2r ∧ L'.p = r.regn.length := by
  induction passes generalizing L with
  | zero =>
    simp only [init_solution_loop] at h
    split at h
    · simp at h
    · simp only [Option.some.injEq] at h
      exact Or.inl (h ▸ hL)
  | succ passes ih =>
    simp only [init_solution_loop] at h
    split at h
    · split at h
      · simp at h
      · rename_i r hr
        split at h
        · simp only [Option.some.injEq] at h
          rw [← h]
          exact Or.inl hL
        · rename_i hno
          by_cases hf : r.feasible = true
          · by_cases hss : mp.objective_function r.regn < best_ss
            · simp only [hf, hss, if_true] at h
              rw [init_solution_loop_done _ _ _ _ _ rfl] at h
              simp only [Option.some.injEq] at h
              right
              refine ⟨_, _, r, hr, by simpa using hno, hf, hss, ?_, ?_, ?_⟩
              · rw [← h]
              · rw [← h]
              · rw [← h]
            · simp only [hf, hss, if_true, if_false] at h
              exact ih _ (by exact hL) h
          · simp only [hf, Bool.false_eq_true, if_false] at h
            apply ih _ _ h
            refine ⟨?_, ?_⟩
            · split <;> exact hL.1
            · split
              · rfl
              · exact hL.2
    · simp only [Option.some.injEq] at h
      exact Or.inl (h ▸ hL)

theorem init_solution_slot (mp : Maxp) (fuel swap_fuel : Nat) (s s' : Solver) (i : Nat)
    (h : mp.init_solution fuel swap_fuel s (i : Int) = some s') :
    s'.regions = s.regions ∧ s'.area2region = s.area2region ∧ s'.p = s.p
    ∧ s'.feasible = s.feasible ∧ s'.best_ss = s.best_ss
    ∧ ((s'.p_group = s.p_group.set i 0 ∧ s'.initial_wss = s.initial_wss.set i 0
        ∧ s'.regions_group = s.regions_group ∧ s'.area2region_group = s.area2region_group)
      ∨ ∃ sl q r out, mp.init_solution_attempt fuel sl q = some r
          ∧ r.no_region = false ∧ r.feasible = true
          ∧ mp.objective_function r.regn < s.best_ss ∧ r.regn ≠ []
          ∧ mp.swap swap_fuel r.regn r.a2r = some out
          ∧ s'.regions_group = s.regions_group.set i out.regions
          ∧ s'.area2region_group = s.area2region_group.set i out.area2region
          ∧ s'.p_group = s.p_group.set i r.regn.length
          ∧ s'.initial_wss = s.initial_wss.set i (mp.objective_function out.regions)) := by
  unfold init_solution at h
  have hidx : ((i : Int) ≥ 0) := Int.natCast_nonneg i
  simp only [hidx, if_true, Int.toNat_ofNat] at h
  split at h
  · simp at h
  · rename_i L hL
    rcases init_solution_loop_spec mp fuel s.best_ss _ _ L ⟨rfl, rfl⟩ hL with
      ⟨he, _⟩ | ⟨sl, q, r, hr, hno, hf, hss, e1, e2, e3⟩
    · simp only [he, List.isEmpty_nil, if_true, Option.some.injEq] at h
      rw [← h]
      exact ⟨rfl, rfl, rfl, rfl, rfl, Or.inl ⟨rfl, rfl, rfl, rfl⟩⟩
    · have hne := init_solution_attempt_regn_ne_nil mp fuel sl q r hr hno
      have hne' : L._regions.isEmpty = false := by
        rw [e1]
        cases hr' : r.regn with
        | nil => exact absurd hr' hne
        | cons a as => rfl
      simp only [hne', Bool.false_eq_true, if_false] at h
      split at h
      · simp at h
      · rename_i out hout
        simp only [Option.some.injEq] at h
        rw [← h]
        rw [e1, e2] at hout
        refine ⟨rfl, rfl, rfl, rfl, rfl, Or.inr ⟨sl, q, r, out, hr, hno, hf, hss, hne, hout, rfl,
          rfl, ?_, rfl⟩⟩
        simp only [e3]

theorem getD_set_self {α : Type} (l : List α) (i : Nat) (v d : α) (h : i < l.length) :
    (l.set i v).getD i d = v := by
  simp [List.getD_eq_getElem?_getD, List.getElem?_set_self, h]

theorem getD_set_ne {α : Type} (l : List α) (i j : Nat) (v d : α) (h : i ≠ j) :
    (l.set i v).getD j d = l.getD j d := by
  simp [List.getD_eq_getElem?_getD, List.getElem?_set_ne h]

theorem swap_seed_length (mp : Maxp) (st : SwapState) (seed : Nat) :
    (mp.swap_seed st seed).init_regions.length = st.init_regions.length := by
  unfold swap_seed
  simp only
  split
  · rfl
  · split
    · exact swap_move_length st seed _
    · rfl

theorem swap_length (mp : Maxp) (fuel : Nat) (regions : List (List Nat)) (a2r : Nat → Nat)
    (out : SwapResult) (h : mp.swap fuel regions a2r = some out) :
    out.regions.length = regions.length := by
  obtain ⟨st, hst, e, _⟩ := swap_result_induction mp
    (fun st => st.init_regions.length = regions.length) regions a2r
    (fun _ _ _ h => h)
    (fun st seed _ hl => (swap_seed_length mp st seed).trans hl) rfl fuel out h
  rw [e]
  exact hst

/-! ## C15: what a start records -/

/-- C15, counterexample.  Scenario 1 with one start (`z = 0` everywhere, so the seed
solution has objective `0` and `best_ss = 0` when the start runs): the construction of
start `0` is feasible (it is the partition `{{1,0,2,3,4}}`, of objective `0`), yet
`init_solution(0)` runs no `swap` and records `p_group[0] = 0`, `initial_wss[0] = 0` and
an empty `regions_group[0]`, because no attempt has an objective strictly below `best_ss`. -/
theorem init_solution_discards_feasible :
    (∃ r, (init_members { scenario1 with initial := 1 } [] []).init_solution_attempt 1
          ((0 + ((0 : Int) + 1).toNat * 50000) % 2 ^ 64) [] = some r
        ∧ r.no_region = false ∧ r.feasible = true ∧ r.regn = [[1, 0, 2, 3, 4]]
        ∧ I1 5 r.regn)
    ∧ (({ scenario1 with initial := 1 } : Maxp).construct [] [] 1 1 10).map
          (fun s => (s.best_ss, s.p_group, s.initial_wss, s.regions_group))
        = some (0, [0], [0], [[]]) := by
  refine ⟨?_, by decide!⟩
  have h : ((init_members { scenario1 with initial := 1 } [] []).init_solution_attempt 1
      ((0 + ((0 : Int) + 1).toNat * 50000) % 2 ^ 64) []).isSome = true := by decide!
  obtain ⟨r, hr⟩ := Option.isSome_iff_exists.mp h
  have h2 : ((init_members { scenario1 with initial := 1 } [] []).init_solution_attempt 1
      ((0 + ((0 : Int) + 1).toNat * 50000) % 2 ^ 64) []).map
        (fun r => (r.no_region, r.feasible, r.regn)) = some (false, true, [[1, 0, 2, 3, 4]]) := by
    decide!
  rw [hr] at h2
  simp only [Option.map_some', Option.some.injEq, Prod.mk.injEq] at h2
  refine ⟨r, hr, h2.1, h2.2.1, h2.2.2, ?_⟩
  rw [h2.2.2]
  unfold I1
  decide

/-- C15, as amended.  For a start index `i` (a slot of the group vectors),
`init_solution(i)` leaves the current result and `best_ss` alone and does one of two
things.  Either it keeps a construction attempt that is feasible and whose objective is
strictly below `best_ss`, runs `swap` on it and records the result in slot `i`:
`regions_group[i]`, `area2region_group[i]`, `p_group[i]` equal to the number of regions
(which is positive) and `initial_wss[i]` equal to `objective_function` of the recorded
regions.  Or no attempt was kept, and it records `p_group[i] = 0` and
`initial_wss[i] = 0`.  The first attempt is the one kept as soon as it is feasible with an
objective strictly below `best_ss`. -/
theorem init_solution_records (mp : Maxp) (fuel swap_fuel : Nat) (s s' : Solver) (i : Nat)
    (hp : i < s.p_group.length) (hwss : i < s.initial_wss.length)
    (hrg : i < s.regions_group.length) (hag : i < s.area2region_group.length)
    (h : mp.init_solution fuel swap_fuel s (i : Int) = some s') :
    (s'.regions = s.regions ∧ s'.area2region = s.area2region ∧ s'.p = s.p
      ∧ s'.best_ss = s.best_ss)
    ∧ ((s'.p_group.getD i 0 = 0 ∧ s'.initial_wss.getD i 0 = 0)
      ∨ ∃ sl q r out, mp.init_solution_attempt fuel sl q = some r
          ∧ r.no_region = false ∧ r.feasible = true
          ∧ mp.objective_function r.regn < s.best_ss
          ∧ mp.swap swap_fuel r.regn r.a2r = some out
          ∧ s'.regions_group.getD i [] = out.regions
          ∧ s'.area2region_group.getD i (fun _ => 0) = out.area2region
          ∧ s'.p_group.getD i 0 = out.regions.length
          ∧ 0 < s'.p_group.getD i 0
          ∧ s'.initial_wss.getD i 0 = mp.objective_function out.regions)
    ∧ (∀ r, mp.init_solution_attempt fuel
          ((mp.seed_start + (i + 1) * mp.seed_increment) % 2 ^ 64) s.enclave_random_number
          = some r →
        r.no_region = false → r.feasible = true → mp.objective_function r.regn < s.best_ss →
        ∃ out, mp.swap swap_fuel r.regn r.a2r = some out
          ∧ s'.regions_group.getD i [] = out.regions
          ∧ s'.p_group.getD i 0 = out.regions.length
          ∧ s'.initial_wss.getD i 0 = mp.objective_function out.regions) := by
  obtain ⟨a1, a2, a3, _, a5, hcase⟩ := init_solution_slot mp fuel swap_fuel s s' i h
  refine ⟨⟨a1, a2, a3, a5⟩, ?_, ?_⟩
  · rcases hcase with ⟨b1, b2, _, _⟩ | ⟨sl, q, r, out, hr, hno, hf, hss, hne, hout, b1, b2, b3, b4⟩
    · left
      rw [b1, b2]
      exact ⟨getD_set_self _ _ _ _ hp, getD_set_self _ _ _ _ hwss⟩
    · right
      have hlen := swap_length mp swap_fuel r.regn r.a2r out hout
      refine ⟨sl, q, r, out, hr, hno, hf, hss, hout, ?_, ?_, ?_, ?_, ?_⟩
      · rw [b1]
        exact getD_set_self _ _ _ _ hrg
      · rw [b2]
        exact getD_set_self _ _ _ _ hag
      · rw [b3, getD_set_self _ _ _ _ hp, hlen]
      · rw [b3, getD_set_self _ _ _ _ hp]
        exact List.length_pos.mpr hne
      · rw [b4]
        exact getD_set_self _ _ _ _ hwss
  · intro r hr hno hf hss
    unfold init_solution at h
    have hidx : ((i : Int) ≥ 0) := Int.natCast_nonneg i
    simp only [hidx, if_true, Int.toNat_ofNat] at h
    have hs : ((i : Int) + 1).toNat = i + 1 := by omega
    rw [hs, init_solution_loop_first mp fuel s.best_ss mp.MAX_ATTEMPTS _ rfl (Nat.zero_le _) r hr
      hno hf hss] at h
    have hne := init_solution_attempt_regn_ne_nil mp fuel _ _ r hr hno
    have hne' : r.regn.isEmpty = false := by
      cases hr' : r.regn with
      | nil => exact absurd hr' hne
      | cons a as => rfl
    simp only [hne', Bool.false_eq_true, if_false] at h
    split at h
    · simp at h
    · rename_i out hout
      simp only [Option.some.injEq] at h
      rw [← h]
      refine ⟨out, hout, getD_set_self _ _ _ _ hrg, ?_, getD_set_self _ _ _ _ hwss⟩
      simp only
      rw [getD_set_self _ _ _ _ hp, swap_length mp swap_fuel r.regn r.a2r out hout]

/-- Witness for C15 as amended: scenario 5 with the hash constantly `0`, two slots and
`best_ss = 100`; start `1` keeps its first construction (objective `50`) and records it. -/
theorem init_solution_records_witness :
    ∃ s', scenario5.init_solution 1 10 (startState 2 100) ((1 : Nat) : Int) = some s'
      ∧ s'.p_group.getD 1 0 = 3
      ∧ (s'.regions = (startState 2 100).regions
        ∧ s'.area2region = (startState 2 100).area2region ∧ s'.p = (startState 2 100).p
        ∧ s'.best_ss = (startState 2 100).best_ss) := by
  have h : (scenario5.init_solution 1 10 (startState 2 100) ((1 : Nat) : Int)).isSome = true := by
    decide!
  obtain ⟨s', hs'⟩ := Option.isSome_iff_exists.mp h
  have h2 : (scenario5.init_solution 1 10 (startState 2 100) ((1 : Nat) : Int)).map
      (fun s => s.p_group.getD 1 0) = some 3 := by decide!
  rw [hs'] at h2
  exact ⟨s', hs', by simpa using h2,
    (init_solution_records scenario5 1 10 (startState 2 100) s' 1 (by decide) (by decide)
      (by decide) (by decide) hs').1⟩

/-! ## Auxiliary lemmas: growth when the floor is the total -/

theorem init_solution_enclave_loop_exit (mp : Maxp) (fuel : Nat) (es es' : EnclaveState)
    (h : mp.init_solution_enclave_loop fuel es = some es') :
    ¬ (es'.encCount > 0 ∧ es'.encAttempts ≠ es'.encCount) := by
  induction fuel generalizing es with
  | zero =>
    simp only [init_solution_enclave_loop] at h
    split at h
    · simp at h
    · rename_i hc
      simp only [Option.some.injEq] at h
      subst h
      simpa using hc
  | succ fuel ih =>
    simp only [init_solution_enclave_loop] at h
    split at h
    · split at h
      · simp at h
      · exact ih _ h
    · rename_i hc
      simp only [Option.some.injEq] at h
      subst h
      simpa using hc

theorem init_solution_shuffle_isSome (mp : Maxp) (fuel n : Nat)
    (hdraw : ∀ i s, 1 ≤ i → i < n → (mp.init_solution_draw i fuel s).isSome = true)
    (i : Nat) (hi : i < n ∨ i = 0) (c : List Nat) (s : Nat) :
    (mp.init_solution_shuffle fuel i c s).isSome = true := by
  induction i generalizing c s with
  | zero => rfl
  | succ i ih =>
    have hin : i + 1 < n := by omega
    obtain ⟨⟨k, s1⟩, hk⟩ := Option.isSome_iff_exists.mp (hdraw (i + 1) s (by omega) hin)
    simp only [init_solution_shuffle, hk]
    exact ih (by omega) _ _

theorem init_solution_candidates_isSome (mp : Maxp) (fuel : Nat)
    (hdraw : ∀ i s, 1 ≤ i → i < mp.num_obs → (mp.init_solution_draw i fuel s).isSome = true)
    (s : Nat) : (mp.init_solution_candidates fuel s).isSome = true := by
  unfold init_solution_candidates
  split
  · exact init_solution_shuffle_isSome mp fuel mp.num_obs hdraw _ (by omega) _ _
  · rfl

theorem getD_iter_swap (c : List Nat) (k i p : Nat) (hk : k < c.length) (hi : i < c.length) :
    (iter_swap c k i).getD p 0
      = if p = i then c.getD k 0 else if p = k then c.getD i 0 else c.getD p 0 := by
  unfold iter_swap
  by_cases hpi : p = i
  · subst hpi
    rw [if_pos rfl]
    exact getD_set_self _ _ _ _ (by simpa using hi)
  · rw [if_neg hpi, getD_set_ne _ _ _ _ _ (fun h => hpi h.symm)]
    by_cases hpk : p = k
    · subst hpk
      rw [if_pos rfl]
      exact getD_set_self _ _ _ _ hk
    · rw [if_neg hpk, getD_set_ne _ _ _ _ _ (fun h => hpk h.symm)]

theorem iter_swap_length (c : List Nat) (k i : Nat) : (iter_swap c k i).length = c.length := by
  simp [iter_swap]

theorem init_solution_shuffle_no_fixed (mp : Maxp) (fuel n i : Nat) (c : List Nat) (s : Nat)
    (c' : List Nat) (s' : Nat) (hlen : c.length = n) (hi : i < n)
    (ha : ∀ p q, p ≤ i → q ≤ i → c.getD p 0 = q → p = q)
    (hb : ∀ p, i < p → p < n → c.getD p 0 ≠ p)
    (hc : i = 0 → c.getD 0 0 ≠ 0)
    (h : mp.init_solution_shuffle fuel i c s = some (c', s')) :
    ∀ p, p < n → c'.getD p 0 ≠ p := by
  induction i generalizing c s with
  | zero =>
    simp only [init_solution_shuffle, Option.some.injEq, Prod.mk.injEq] at h
    rw [← h.1]
    intro p hp
    by_cases h0 : p = 0
    · subst h0
      exact hc rfl
    · exact hb p (by omega) hp
  | succ i ih =>
    simp only [init_solution_shuffle] at h
    split at h
    · simp at h
    · rename_i k s1 hdraw
      have hk := init_solution_draw_lt mp (i + 1) fuel s k s1 hdraw
      have hkn : k.toNat < i + 1 := (Int.toNat_lt' (by omega)).mpr hk
      have hne : k ≠ ((i + 1 : Nat) : Int) := by omega
      rw [if_pos hne] at h
      have hg : ∀ p, (iter_swap c k.toNat (i + 1)).getD p 0
          = if p = i + 1 then c.getD k.toNat 0
            else if p = k.toNat then c.getD (i + 1) 0 else c.getD p 0 :=
        fun p => getD_iter_swap c k.toNat (i + 1) p (by omega) (by omega)
      have hv : ∀ q, q ≤ i → c.getD (i + 1) 0 ≠ q := by
        intro q hq e
        have := ha (i + 1) q (le_refl _) (by omega) e
        omega
      refine ih _ s1 (by rw [iter_swap_length]; exact hlen) (by omega) ?_ ?_ ?_ h
      · intro p q hp hq e
        rw [hg, if_neg (by omega)] at e
        split at e
        · exact absurd e (hv q hq)
        · exact ha p q (by omega) (by omega) e
      · intro p hp hpn
        rw [hg]
        split
        · rename_i e
          intro e2
          have := ha k.toNat (i + 1) (by omega) (le_refl _) (by rw [e2, e])
          omega
        · rw [if_neg (by omega)]
          exact hb p (by omega) hpn
      · intro hi0
        rw [hg, if_neg (by omega)]
        have hk0 : k.toNat = 0 := by omega
        rw [if_pos hk0.symm]
        exact hv 0 (by omega)

theorem getD_range (n p : Nat) (hp : p < n) : (List.range n).getD p 0 = p := by
  simp [List.getD_eq_getElem?_getD, List.getElem?_range hp]

/-! ## C26: the candidate list is a permutation of the areas -/

/-- C26: without pre-assigned seeds, the candidate list that an attempt of `init_solution`
builds is a permutation of `0 .. num_obs-1`, whatever the hash values drawn, and the map
`candidates_dict` the attempt starts its growth with (`decide (x ∈ c)`: `true` on the
listed areas, no other key) is `true` for exactly the areas below `num_obs`; the list is
produced as soon as every rejection loop of the shuffle ends within the fuel.  (Nothing is
needed on `num_obs`.) -/
theorem init_solution_candidates_spec (mp : Maxp) (hseeds : mp.seeds = []) (fuel s : Nat) :
    (∀ c s', mp.init_solution_candidates fuel s = some (c, s') →
      c.Perm (List.range mp.num_obs)
      ∧ c.Nodup
      ∧ ∀ x, decide (x ∈ c) = true ↔ x < mp.num_obs)
    ∧ ((∀ i s, 1 ≤ i → i < mp.num_obs → (mp.init_solution_draw i fuel s).isSome = true) →
        (mp.init_solution_candidates fuel s).isSome = true) := by
  refine ⟨?_, fun hdraw => init_solution_candidates_isSome mp fuel hdraw s⟩
  intro c s' h
  have hp := init_solution_candidates_perm mp hseeds fuel s c s' h
  refine ⟨hp, hp.nodup_iff.mpr (List.nodup_range _), ?_⟩
  intro x
  simp only [decide_eq_true_eq]
  rw [hp.mem_iff, List.mem_range]

/-- Witness for C26: scenario 1 (five areas, hash constantly `0`), where the candidate
list is `[1, 2, 3, 4, 0]`. -/
theorem init_solution_candidates_spec_witness :
    scenario1.seeds = []
    ∧ (∀ c s', scenario1.init_solution_candidates 1 0 = some (c, s') →
        c.Perm (List.range scenario1.num_obs)
        ∧ c.Nodup
        ∧ ∀ x, decide (x ∈ c) = true ↔ x < scenario1.num_obs)
    ∧ scenario1.init_solution_candidates 1 0 = some ([1, 2, 3, 4, 0], 4) :=
  ⟨rfl, (init_solution_candidates_spec scenario1 rfl 1 0).1, by decide!⟩

/-! ## C27: the shuffle never leaves an area in place -/

/-- C27: without pre-assigned seeds and for `num_obs ≥ 2`, the candidate order built by an
attempt of `init_solution` has no fixed point, whatever the hash values drawn: the area at
position `p` is never `p`.  In particular area `0` is never the first seed and the order
is never the identity `0, 1, …, num_obs-1`. -/
theorem init_solution_candidates_no_fixed_point (mp : Maxp) (hseeds : mp.seeds = [])
    (hn : 2 ≤ mp.num_obs) (fuel s : Nat) (c : List Nat) (s' : Nat)
    (h : mp.init_solution_candidates fuel s = some (c, s')) :
    (∀ p, p < mp.num_obs → c.getD p 0 ≠ p)
    ∧ c.head? ≠ some 0
    ∧ c ≠ List.range mp.num_obs := by
  have hfix : ∀ p, p < mp.num_obs → c.getD p 0 ≠ p := by
    unfold init_solution_candidates at h
    simp only [hseeds, List.isEmpty_nil, if_true] at h
    refine init_solution_shuffle_no_fixed mp fuel mp.num_obs (mp.num_obs - 1) _ s c s'
      (List.length_range _) (by omega) ?_ ?_ ?_ h
    · intro p q hp _ e
      rw [getD_range _ _ (by omega)] at e
      exact e
    · intro p hp hpn
      omega
    · intro h0
      omega
  refine ⟨hfix, ?_, ?_⟩
  · intro e
    have h0 := hfix 0 (by omega)
    cases c with
    | nil => simp at e
    | cons a as =>
      simp only [List.head?_cons, Option.some.injEq] at e
      exact h0 (by simp [e])
  · intro e
    have h0 := hfix 0 (by omega)
    rw [e, getD_range _ _ (by omega)] at h0
    exact h0 rfl

/-- Witness for C27: scenario 1 (five areas, hash constantly `0`), where the candidate
list is `[1, 2, 3, 4, 0]`. -/
theorem init_solution_candidates_no_fixed_point_witness :
    scenario1.seeds = [] ∧ 2 ≤ scenario1.num_obs
    ∧ scenario1.init_solution_candidates 1 0 = some ([1, 2, 3, 4, 0], 4)
    ∧ (∀ p, p < scenario1.num_obs → [1, 2, 3, 4, 0].getD p 0 ≠ p)
    ∧ [1, 2, 3, 4, 0].head? ≠ some 0
    ∧ [1, 2, 3, 4, 0] ≠ List.range scenario1.num_obs :=
  ⟨rfl, by decide, by decide!,
    init_solution_candidates_no_fixed_point scenario1 rfl (by decide) 1 0 [1, 2, 3, 4, 0] 4
      (by decide!)⟩
/-! ## C21: a seed that meets the floor alone -/

/-- C21 (defect of the code): when `t[seed]` alone meets the floor, the growth step does
not emit the region `{seed}`.  The loop `while (is_enclave && cv < floor && …)` is not
entered, `is_enclave` keeps its initial value `true`, and the step appends the seed to
the enclave list, leaving `regn`, the candidate list and the flags as they were. -/
theorem init_solution_grow_seed_floor_met (mp : Maxp) (hord : OrderOk mp.order)
    (fuel seed : Nat) (rest : List Nat) (bs : BuildState)
    (hfloor : mp.floor ≤ mp.floor_variable seed) :
    mp.init_solution_grow_seed fuel seed rest bs
      = some { candidates := rest, candidates_dict := bs.candidates_dict
               regn := bs.regn, enclaves := bs.enclaves ++ [seed] } := by
  have hcond : ¬ mp.floor_variable seed < mp.floor := not_lt.mpr hfloor
  have hloop : mp.init_solution_grow_loop fuel
      { region := [seed], region_dict := BoolMap.empty.set seed true, candidates := rest
        candidates_dict := bs.candidates_dict, cv := mp.floor_variable seed
        is_enclave := true }
      = some { region := [seed], region_dict := BoolMap.empty.set seed true
               candidates := rest, candidates_dict := bs.candidates_dict
               cv := mp.floor_variable seed, is_enclave := true } := by
    cases fuel with
    | zero => simp [init_solution_grow_loop, hcond]
    | succ fuel => simp [init_solution_grow_loop, hcond]
  have hkeys : (BoolMap.empty.set seed true).keys = [seed] := by
    simp [BoolMap.set, BoolMap.empty]
  have hval : (BoolMap.empty.set seed true).val seed = true := by
    simp [BoolMap.set]
  have hordk : mp.order [seed] = [seed] := List.perm_singleton.mp (hord [seed])
  unfold init_solution_grow_seed
  rw [hloop]
  simp only [if_true, hkeys, hordk, List.filter_cons, hval, List.filter_nil]

/-- Witness for C21: the path `0 – 1 – 2 – 3` with `t = [2,2,2,2]` and `floor = 2`.  The
first seed `1` goes to the enclave list; in the end the attempt has grown no region and
the constructor reports `feasible = false`, `p = 0`. -/
theorem init_solution_grow_seed_floor_met_witness :
    OrderOk floorMetExample.order
    ∧ floorMetExample.floor ≤ floorMetExample.floor_variable 1
    ∧ floorMetExample.init_solution_candidates 1 0 = some ([1, 2, 3, 0], 3)
    ∧ floorMetExample.init_solution_grow_seed 5 1 [2, 3, 0]
        ⟨[1, 2, 3, 0], fun x => decide (x ∈ [1, 2, 3, 0]), [], []⟩
      = some ⟨[2, 3, 0], fun x => decide (x ∈ [1, 2, 3, 0]), [], [] ++ [1]⟩
    ∧ (floorMetExample.init_solution_attempt 1 0 []).map
        (fun r => (r.no_region, r.regn, r.feasible)) = some (true, [], false)
    ∧ (floorMetExample.construct [] [] 1 1 1).map
        (fun s => (s.feasible, s.p, s.regions)) = some (false, 0, []) :=
  ⟨orderOk_id, by decide!, by decide!,
    init_solution_grow_seed_floor_met floorMetExample orderOk_id 5 1 [2, 3, 0]
      ⟨[1, 2, 3, 0], fun x => decide (x ∈ [1, 2, 3, 0]), [], []⟩ (by decide!),
    by decide!, by decide!⟩

/-! ## C22: which attempts of `init_solution` are followed by another one -/

/-- Counterexample to C22: on scenario 3 (path `0 – 1 – 2 – 3 – 4`, `t = 1`, `floor = 100`)
the first attempt of `init_solution(-1)` grows no region, and the loop over the attempts
ends right after it: `attempts` is `1`, far below `MAX_ATTEMPTS = 100`, the counter
`seed_local` has only advanced by the four draws of one shuffle, and the constructor
reports `feasible = false`. -/
theorem init_solution_no_retry :
    (scenario3.init_solution_attempt 1 0 []).map (fun r => r.no_region) = some true
    ∧ (scenario3.init_solution_loop 1 DBL_MAX (scenario3.MAX_ATTEMPTS + 1)
        ⟨0, 0, true, 0, [], fun _ => 0, []⟩).map
        (fun L => (L.attempts, L.solving, L.seed_local)) = some (1, true, 4)
    ∧ 1 < scenario3.MAX_ATTEMPTS
    ∧ (scenario3.construct [] [] 4 1 10).map (fun s => (s.feasible, s.p)) = some (false, 0) := by
  refine ⟨by decide!, by decide!, by decide, by decide!⟩

/-- C22, amended: what one pass of the loop `while (solving && attempts <= MAX_ATTEMPTS)`
does with the outcome `r` of its attempt.  If the attempt grew no region, the loop ends at
once with `attempts + 1` (`attempts += 1; break`): no further attempt is made.  If it grew
regions but the enclave loop ended infeasible, or it is feasible with an objective that is
not below `best_ss`, the attempt is dropped, `attempts` is incremented (`p` is reset to
`0` when `attempts` was `MAX_ATTEMPTS` and the attempt infeasible) and the loop goes on:
another attempt follows exactly when `attempts + 1 <= MAX_ATTEMPTS`. -/
theorem init_solution_loop_retry (mp : Maxp) (fuel : Nat) (best_ss : ℚ) (passes : Nat)
    (L : InitLocals) (hs : L.solving = true) (ha : L.attempts ≤ mp.MAX_ATTEMPTS) (r : Attempt)
    (hr : mp.init_solution_attempt fuel L.seed_local L.enclave_random_number = some r) :
    (r.no_region = true →
      mp.init_solution_loop fuel best_ss (passes + 1) L
        = some { L with seed_local := r.seed_local, attempts := L.attempts + 1 })
    ∧ (r.no_region = false → r.feasible = false →
      mp.init_solution_loop fuel best_ss (passes + 1) L
        = mp.init_solution_loop fuel best_ss passes
            { L with seed_local := r.seed_local
                     enclave_random_number := r.enclave_random_number
                     p := if L.attempts = mp.MAX_ATTEMPTS then 0 else L.p
                     attempts := L.attempts + 1 })
    ∧ (r.no_region = false → r.feasible = true →
      ¬ mp.objective_function r.regn < best_ss →
      mp.init_solution_loop fuel best_ss (passes + 1) L
        = mp.init_solution_loop fuel best_ss passes
            { L with seed_local := r.seed_local
                     enclave_random_number := r.enclave_random_number
                     attempts := L.attempts + 1 })
    ∧ (∀ L' : InitLocals, L'.solving = true → mp.MAX_ATTEMPTS < L'.attempts →
        mp.init_solution_loop fuel best_ss passes L' = some L') := by
  refine ⟨fun hno => init_solution_loop_no_region mp fuel best_ss passes L hs ha r hr hno,
    ?_, ?_, ?_⟩
  · intro hno hf
    simp only [init_solution_loop, hs, ha, decide_True, Bool.and_self, if_true, hr, hno, hf]
    by_cases hm : L.attempts = mp.MAX_ATTEMPTS
    · simp [hm]
    · simp [hm]
  · intro hno hf hss
    simp only [init_solution_loop, hs, ha, decide_True, Bool.and_self, if_true, hr, hno, hf,
      hss, if_false]
    simp
  · intro L' hs' hgt
    have hna : ¬ L'.attempts ≤ mp.MAX_ATTEMPTS := not_le.mpr hgt
    cases passes with
    | zero => simp [init_solution_loop, hna]
    | succ p => simp [init_solution_loop, hna]

/-- Witness for C22: three areas of which `0` and `1` are neighbours and `2` is isolated,
`t = 1`, `floor = 2`.  Every attempt grows the region `{1, 0}` and leaves the enclave `2`
unassigned, so the attempts are repeated until `attempts` is `MAX_ATTEMPTS + 1 = 101`. -/
theorem init_solution_loop_retry_witness :
    ∃ r, isolatedExample.init_solution_attempt 1 0 [] = some r
      ∧ r.no_region = false ∧ r.feasible = false ∧ r.regn = [[1, 0]]
      ∧ isolatedExample.init_solution_loop 1 DBL_MAX (isolatedExample.MAX_ATTEMPTS + 1)
          ⟨0, 0, true, 0, [], fun _ => 0, []⟩
        = isolatedExample.init_solution_loop 1 DBL_MAX isolatedExample.MAX_ATTEMPTS
            ⟨r.seed_local, if 0 = isolatedExample.MAX_ATTEMPTS then 0 else 0, true, 0 + 1, [],
              fun _ => 0, r.enclave_random_number⟩
      ∧ (isolatedExample.init_solution_loop 1 DBL_MAX (isolatedExample.MAX_ATTEMPTS + 1)
          ⟨0, 0, true, 0, [], fun _ => 0, []⟩).map
          (fun L => (L.attempts, L.p, L.solving, L._regions)) = some (101, 0, true, []) := by
  obtain ⟨r, hr⟩ := Option.isSome_iff_exists.mp
    (show (isolatedExample.init_solution_attempt 1 0 []).isSome = true by decide!)
  have hv : (isolatedExample.init_solution_attempt 1 0 []).map
      (fun r => (r.no_region, r.feasible, r.regn)) = some (false, false, [[1, 0]]) := by
    decide!
  rw [hr] at hv
  simp only [Option.map_some', Option.some.injEq, Prod.mk.injEq] at hv
  exact ⟨r, hr, hv.1, hv.2.1, hv.2.2,
    (init_solution_loop_retry isolatedExample 1 DBL_MAX isolatedExample.MAX_ATTEMPTS
      ⟨0, 0, true, 0, [], fun _ => 0, []⟩ rfl (by decide) r hr).2.1 hv.1 hv.2.1,
    by decide!⟩
/-! ## Auxiliary lemmas: the best local move -/

theorem foldl_best_le (f : Nat → ℚ) (l : List Nat) (acc : ℚ × Nat × Bool) :
    (l.foldl (fun acc a => if f a ≤ acc.1 then (f a, a, true) else acc) acc).1 ≤ acc.1
    ∧ ∀ a ∈ l,
      (l.foldl (fun acc a => if f a ≤ acc.1 then (f a, a, true) else acc) acc).1 ≤ f a := by
  induction l generalizing acc with
  | nil => exact ⟨le_refl _, by simp⟩
  | cons x xs ih =>
    simp only [List.foldl_cons]
    by_cases hle : f x ≤ acc.1
    · simp only [hle, if_true]
      obtain ⟨h1, h2⟩ := ih (f x, x, true)
      refine ⟨le_trans h1 hle, ?_⟩
      intro a ha
      rcases List.mem_cons.mp ha with rfl | ha
      · exact h1
      · exact h2 a ha
    · simp only [hle, if_false]
      obtain ⟨h1, h2⟩ := ih acc
      refine ⟨h1, ?_⟩
      intro a ha
      rcases List.mem_cons.mp ha with rfl | ha
      · exact le_trans h1 (le_of_lt (not_le.mp hle))
      · exact h2 a ha

theorem swap_best_le (mp : Maxp) (st : SwapState) (seed : Nat) (candidates : List Nat) :
    ∀ a ∈ candidates,
      (mp.swap_best st.init_regions st.init_area2region seed candidates).1
        ≤ mp.swap_change st seed a :=
  (foldl_best_le (fun a => mp.swap_change st seed a) candidates (0, 0, false)).2

theorem swap_move_other (st : SwapState) (seed area r : Nat) (hr : r ≠ seed) :
    ((swap_move st seed area).init_regions.getD r []).Sublist (st.init_regions.getD r []) := by
  unfold swap_move
  simp only
  rw [getD_set_regions, if_neg (fun h => hr h.1.symm), getD_set_regions]
  split
  · rename_i h
    rw [← h.1]
    exact List.filter_sublist _
  · exact List.Sublist.refl _

theorem swap_move_seed (st : SwapState) (seed area : Nat) (hs : seed < st.init_regions.length) :
    ∃ l, l.Sublist (st.init_regions.getD seed [])
      ∧ (swap_move st seed area).init_regions.getD seed [] = l ++ [area] := by
  unfold swap_move
  simp only
  rw [getD_set_regions, if_pos ⟨rfl, by simpa using hs⟩]
  refine ⟨_, ?_, rfl⟩
  rw [getD_set_regions]
  split
  · rename_i h
    rw [← h.1]
    exact List.filter_sublist _
  · exact List.Sublist.refl _

/-! ## C24: the move chosen for a seed region -/

/-- C24: the move selection of `swap` for a seed region, `C` being the candidate list
built for it and `change(a)` the value computed for candidate `a`.  A move is made
(`moves_made` grows by one) if and only if some candidate has `change ≤ 0`; otherwise the
state is left as it is.  When a move is made it is the single move of one candidate `a*`
into the seed region, with `change(a*) ≤ 0` and `change(a*) ≤ change(a)` for every
candidate `a`; the seed region becomes a sublist of itself followed by `a*`, and no other
region receives an area.  A pass runs this body once for each flagged region, no region
being listed twice, so at most one area is moved into a seed region during a pass. -/
theorem swap_move_selection (mp : Maxp) (st : SwapState) (seed : Nat) :
    ((mp.swap_seed st seed).moves_made = st.moves_made + 1
      ↔ ∃ a ∈ mp.swap_seed_candidates st seed, mp.swap_change st seed a ≤ 0)
    ∧ ((¬ ∃ a ∈ mp.swap_seed_candidates st seed, mp.swap_change st seed a ≤ 0) →
        mp.swap_seed st seed = st)
    ∧ ((∃ a ∈ mp.swap_seed_candidates st seed, mp.swap_change st seed a ≤ 0) →
        ∃ best ∈ mp.swap_seed_candidates st seed,
          mp.swap_seed st seed = swap_move st seed best
          ∧ mp.swap_change st seed best ≤ 0
          ∧ (∀ a ∈ mp.swap_seed_candidates st seed,
              mp.swap_change st seed best ≤ mp.swap_change st seed a)
          ∧ (seed < st.init_regions.length →
              ∃ l, l.Sublist (st.init_regions.getD seed [])
                ∧ (mp.swap_seed st seed).init_regions.getD seed [] = l ++ [best]))
    ∧ (∀ r, r ≠ seed →
        ((mp.swap_seed st seed).init_regions.getD r []).Sublist (st.init_regions.getD r []))
    ∧ (∀ nr, mp.swap_pass nr st
          = (swap_regionIds nr st.changed_regions).foldl mp.swap_seed
              { st with changed_regions := List.replicate nr 0, moves_made := 0 }
        ∧ (swap_regionIds nr st.changed_regions).Nodup) := by
  have hcases : (¬ (∃ a ∈ mp.swap_seed_candidates st seed, mp.swap_change st seed a ≤ 0)
        ∧ mp.swap_seed st seed = st)
      ∨ ((∃ a ∈ mp.swap_seed_candidates st seed, mp.swap_change st seed a ≤ 0)
        ∧ ∃ best ∈ mp.swap_seed_candidates st seed,
          mp.swap_seed st seed = swap_move st seed best
          ∧ mp.swap_change st seed best ≤ 0
          ∧ ∀ a ∈ mp.swap_seed_candidates st seed,
              mp.swap_change st seed best ≤ mp.swap_change st seed a) := by
    by_cases hfound : (mp.swap_best st.init_regions st.init_area2region seed
        (mp.swap_seed_candidates st seed)).2.2 = true
    · obtain ⟨h0, hb⟩ := swap_best_spec mp st.init_regions st.init_area2region seed
        (mp.swap_seed_candidates st seed)
      obtain ⟨hmem, hcv⟩ := hb hfound
      have hcv' : (mp.swap_best st.init_regions st.init_area2region seed
          (mp.swap_seed_candidates st seed)).1
          = mp.swap_change st seed (mp.swap_best st.init_regions st.init_area2region seed
              (mp.swap_seed_candidates st seed)).2.1 := hcv
      have hne : (mp.swap_seed_candidates st seed).isEmpty = false := by
        cases hc : mp.swap_seed_candidates st seed with
        | nil => rw [hc] at hmem; simp at hmem
        | cons a as => rfl
      right
      refine ⟨⟨_, hmem, by rw [← hcv']; exact h0⟩, _, hmem,
        swap_seed_eq_move mp st seed hne hfound, by rw [← hcv']; exact h0, ?_⟩
      intro a ha
      rw [← hcv']
      exact swap_best_le mp st seed _ a ha
    · left
      have hfalse : (mp.swap_best st.init_regions st.init_area2region seed
          (mp.swap_seed_candidates st seed)).2.2 = false := by
        simpa using hfound
      refine ⟨?_, ?_⟩
      · rintro ⟨a, ha, hle⟩
        have := swap_best_none mp st.init_regions st.init_area2region seed _ hfalse a ha
        exact absurd hle (not_le.mpr this)
      · unfold swap_seed
        simp only
        split
        · rfl
        · have hfalse' := hfalse
          unfold swap_seed_candidates at hfalse'
          rw [hfalse']
          simp
  refine ⟨?_, ?_, ?_, ?_, ?_⟩
  · rcases hcases with ⟨hno, he⟩ | ⟨hyes, best, _, he, _⟩
    · rw [he]
      constructor
      · intro h
        omega
      · intro h
        exact absurd h hno
    · rw [he]
      exact ⟨fun _ => hyes, fun _ => rfl⟩
  · intro hno
    rcases hcases with ⟨_, he⟩ | ⟨hyes, _⟩
    · exact he
    · exact absurd hyes hno
  · intro hyes
    rcases hcases with ⟨hno, _⟩ | ⟨_, best, hmem, he, hle, hmin⟩
    · exact absurd hyes hno
    · refine ⟨best, hmem, he, hle, hmin, ?_⟩
      intro hs
      rw [he]
      exact swap_move_seed st seed best hs
  · intro r hr
    rcases hcases with ⟨_, he⟩ | ⟨_, best, _, he, _⟩
    · rw [he]
    · rw [he]
      exact swap_move_other st seed best r hr
  · intro nr
    exact ⟨rfl, (List.nodup_range nr).filter _⟩

/-! ## Auxiliary lemmas: the end states of the enclave loop -/

theorem enclave_candidates_eq_nil (enclaves : List Nat) (a2r : Nat → Nat) (l acc : List Nat) :
    init_solution_enclave_candidates enclaves a2r l acc = []
      ↔ acc = [] ∧ ∀ nbr ∈ l, nbr ∈ enclaves := by
  induction l generalizing acc with
  | nil => simp [init_solution_enclave_candidates]
  | cons nbr l ih =>
    simp only [init_solution_enclave_candidates]
    split
    · rename_i hin
      rw [ih]
      simp [hin]
    · rename_i hnot
      split
      · rename_i hreg
        rw [ih]
        constructor
        · rintro ⟨h1, _⟩
          rw [h1] at hreg
          simp at hreg
        · rintro ⟨_, h2⟩
          exact absurd (h2 nbr (List.mem_cons_self _ _)) hnot
      · rw [ih]
        constructor
        · rintro ⟨h1, _⟩
          simp at h1
        · rintro ⟨_, h2⟩
          exact absurd (h2 nbr (List.mem_cons_self _ _)) hnot

theorem init_solution_enclave_step_end (mp : Maxp) (es : EnclaveState) (e : Nat)
    (rest : List Nat) (he : es.enclaves = e :: rest) (hlt : es.encAttempts ≠ es.encCount)
    (hinv : EnclaveEndInv mp es) :
    EnclaveEndInv mp (mp.init_solution_enclave_step e rest es) := by
  obtain ⟨h1, h2, h3, h4⟩ := hinv
  rw [he] at h1 h4
  simp only [List.length_cons] at h1 h4
  unfold init_solution_enclave_step
  simp only
  split
  · refine ⟨rfl, Nat.zero_le _, by simp, ?_⟩
    intro x hx
    simp at hx
  · rename_i hemp
    have hnil : init_solution_enclave_candidates rest es.a2r (mp.w e) [] = [] := by
      simpa using hemp
    have hstuck := ((enclave_candidates_eq_nil rest es.a2r (mp.w e) []).mp hnil).2
    have hperm : (rest ++ [e]).Perm (e :: rest) := List.perm_append_singleton e rest
    refine ⟨by simp [h1], by simp only; omega, by simp, ?_⟩
    intro x hx nbr hnbr
    simp only [List.length_append, List.length_singleton] at hx
    have hk : rest.length + 1 - (es.encAttempts + 1) = rest.length - es.encAttempts := by omega
    rw [hk, List.drop_append_of_le_length (Nat.sub_le _ _)] at hx
    rcases List.mem_append.mp hx with hx | hx
    · have hd : List.drop (rest.length + 1 - es.encAttempts) (e :: rest)
          = List.drop (rest.length - es.encAttempts) rest := by
        have : rest.length + 1 - es.encAttempts = (rest.length - es.encAttempts) + 1 := by omega
        rw [this, List.drop_succ_cons]
      rw [hd] at h4
      exact ((hperm.erase x).mem_iff).mpr (h4 x hx nbr hnbr)
    · have hxe : x = e := by simpa using hx
      subst hxe
      have : ((rest ++ [x]).erase x).Perm rest := by
        have := hperm.erase x
        rwa [List.erase_cons_head] at this
      exact this.mem_iff.mpr (hstuck nbr hnbr)

theorem init_solution_enclave_loop_end (mp : Maxp) (fuel : Nat) (es es' : EnclaveState)
    (hinv : EnclaveEndInv mp es)
    (h : mp.init_solution_enclave_loop fuel es = some es') : EnclaveEndInv mp es' := by
  induction fuel generalizing es with
  | zero =>
    simp only [init_solution_enclave_loop] at h
    split at h
    · simp at h
    · simp only [Option.some.injEq] at h
      exact h ▸ hinv
  | succ fuel ih =>
    simp only [init_solution_enclave_loop] at h
    split at h
    · rename_i hcond
      simp only [gt_iff_lt, Bool.and_eq_true, decide_eq_true_eq, bne_iff_ne, ne_eq] at hcond
      split at h
      · simp at h
      · rename_i e rest he
        exact ih _ (init_solution_enclave_step_end mp es e rest he hcond.2 hinv) h
    · simp only [Option.some.injEq] at h
      exact h ▸ hinv

/-! ## C23: the enclave loop terminates in one of two states -/

/-- C23: started on any queue of enclaves (`encCount` its length, `encAttempts = 0`,
`feasible = true`), with any regions, any map `a2r` and any hash values, the enclave loop
terminates: `(encCount + 1)²` passes of fuel always suffice.  It ends in exactly one of two
states: the queue is empty and `feasible` is `true`; or the queue is not empty, `feasible`
is `false` and `encAttempts = encCount` is the length of the queue, every queued enclave
having been put back since the last assignment because the loop found no candidate region
for it among the others. -/
theorem init_solution_enclave_loop_ends (mp : Maxp) (es : EnclaveState) (fuel : Nat)
    (hcount : es.encCount = es.enclaves.length) (hatt : es.encAttempts = 0)
    (hf : es.feasible = true) (hfuel : (es.encCount + 1) * (es.encCount + 1) ≤ fuel) :
    ∃ es', mp.init_solution_enclave_loop fuel es = some es'
      ∧ ((es'.enclaves = [] ∧ es'.feasible = true)
        ∨ (es'.enclaves ≠ [] ∧ es'.feasible = false
          ∧ es'.encAttempts = es'.encCount ∧ es'.encCount = es'.enclaves.length
          ∧ ∀ e ∈ es'.enclaves,
              init_solution_enclave_candidates (es'.enclaves.erase e) es'.a2r (mp.w e) []
                = [])) := by
  have hm : enclaveMeasure es.enclaves.length es ≤ fuel := by
    unfold enclaveMeasure
    rw [hcount] at hfuel
    rw [hatt, hcount]
    have : (es.enclaves.length + 1) * (es.enclaves.length + 1)
        = es.enclaves.length * (es.enclaves.length + 1) + (es.enclaves.length + 1) := by ring
    omega
  obtain ⟨es', hloop, _, _⟩ := init_solution_enclave_loop_total mp es.enclaves.length fuel es
    hcount (by omega) (le_refl _) hm
  have hinv0 : EnclaveEndInv mp es := by
    refine ⟨hcount, by omega, by simp [hf, hatt], ?_⟩
    intro e he
    rw [hatt] at he
    simp at he
  obtain ⟨h1, h2, h3, h4⟩ := init_solution_enclave_loop_end mp fuel es es' hinv0 hloop
  have hexit := init_solution_enclave_loop_exit mp fuel es es' hloop
  refine ⟨es', hloop, ?_⟩
  by_cases h0 : es'.encCount = 0
  · left
    have hq : es'.enclaves = [] := List.eq_nil_of_length_eq_zero (by omega)
    exact ⟨hq, h3.mpr (by omega)⟩
  · right
    have heq : es'.encAttempts = es'.encCount := by
      by_contra hne
      exact hexit ⟨by omega, hne⟩
    have hq : es'.enclaves ≠ [] := by
      intro hq
      rw [hq] at h1
      simp at h1
      exact h0 h1
    have hfeas : es'.feasible = false := by
      cases hfe : es'.feasible with
      | false => rfl
      | true =>
        have := h3.mp hfe
        omega
    refine ⟨hq, hfeas, heq, h1, ?_⟩
    intro e he
    rw [enclave_candidates_eq_nil]
    refine ⟨rfl, ?_⟩
    have hdrop : List.drop (es'.enclaves.length - es'.encAttempts) es'.enclaves
        = es'.enclaves := by
      rw [heq, h1, Nat.sub_self, List.drop_zero]
    rw [hdrop] at h4
    exact h4 e he

/-- Witness for C23: the queue `[2]` beside the region `{1, 0}` when area `2` has no
neighbour: the loop ends with the queue `[2]`, `feasible = false` and
`encAttempts = encCount = 1`.  On the path `0 – 1 – 2 – 3` the queue `[2, 3]` beside the
region `{1, 0}` is emptied, and the loop ends with `feasible = true`. -/
theorem init_solution_enclave_loop_ends_witness :
    (∃ es', isolatedExample.init_solution_enclave_loop 4
        ⟨[2], [[1, 0]], init_solution_a2r [[1, 0]], 1, 0, true, 2, []⟩ = some es'
      ∧ ((es'.enclaves = [] ∧ es'.feasible = true)
        ∨ (es'.enclaves ≠ [] ∧ es'.feasible = false
          ∧ es'.encAttempts = es'.encCount ∧ es'.encCount = es'.enclaves.length
          ∧ ∀ e ∈ es'.enclaves,
              init_solution_enclave_candidates (es'.enclaves.erase e) es'.a2r
                (isolatedExample.w e) [] = [])))
    ∧ (isolatedExample.init_solution_enclave_loop 4
        ⟨[2], [[1, 0]], init_solution_a2r [[1, 0]], 1, 0, true, 2, []⟩).map
        (fun es => (es.enclaves, es.feasible, es.encAttempts, es.encCount, es.regn))
      = some ([2], false, 1, 1, [[1, 0]])
    ∧ (scenario5.init_solution_enclave_loop 9
        ⟨[2, 3], [[1, 0]], init_solution_a2r [[1, 0]], 2, 0, true, 3, []⟩).map
        (fun es => (es.enclaves, es.feasible, es.encAttempts, es.encCount, es.regn))
      = some ([], true, 0, 0, [[1, 0, 2, 3]]) :=
  ⟨init_solution_enclave_loop_ends isolatedExample
    ⟨[2], [[1, 0]], init_solution_a2r [[1, 0]], 1, 0, true, 2, []⟩ 4 rfl rfl rfl (by decide),
    by decide!, by decide!⟩

/-! ## Auxiliary lemmas: the growth stops when the floor is met -/

end Maxp
